import Mathlib

/-!
# Commander-API: the command table of `interpreter.c`

A shallow embedding of `src/src/interpreter.c` (with `src/inc/interpreter.h`).

* The global array `API_tree[NUM_OF_API_FUNCS]` is a list of records; a pointer
  `&API_tree[k]` is the index `k` and `NULL` is `none`.
* The macro `NUM_OF_API_FUNCS` is a parameter of every function that uses it.
* A C string is the list of its characters before the terminator; the pointer to it
  (`const char **`) may be `NULL`, which is `none`.
* A function pointer is a handler identifier; `NULL` is `none`.
* Every operation returns `Option`: `none` stands for a run that the C program does not
  complete normally (a `NULL` dereference, an access outside the array, a loop or a
  recursion that never ends).
* The library function `strncmp` is not part of the repository and the C standard fixes
  only the sign of its result, so `execute` takes it as a parameter; `strncmp_sign` is the
  sign that the standard fixes, and `strncmp_diff` is the library that returns the
  difference of the first two bytes that differ (glibc, newlib, avr-libc, musl). Of
  `strcmp`, whose result `add_interpreter_instruction` keeps in an `int32_t` and only tests
  for `> 0`, the sign is all that matters.
* The `uint16_t` values (the field `place`, the parameters of `swap_api_elements`, the
  counter of `find_api_index_by_place`) and the `int8_t` result in `execute` are reduced
  explicitly (`to_uint16`, `to_int8`). The 32-bit counters and range bounds are unbounded
  integers: they never exceed twice the number of slots, and the results about the build
  are stated for tables of fewer than `2^16` slots, where the 16-bit values are exact.
-/

namespace Commander

/-- The record `API_t` of `interpreter.h`. -/
structure API_t where
  place : Nat
  left : Option Nat
  right : Option Nat
  name : Option (List Char)
  desc : Option (List Char)
  func : Option Nat
deriving DecidableEq, Repr

/-- The globals of `interpreter.c`. -/
structure State where
  API_tree : List API_t
  API_cntr : Nat
  API_place_cntr : Nat
deriving DecidableEq, Repr

/-- A slot of the zero-initialised global array. -/
def zero_API : API_t := ⟨0, none, none, none, none, none⟩

/-- The globals at program start: static storage is zero-initialised. -/
def initial_state (NUM_OF_API_FUNCS : Nat) : State :=
  ⟨List.replicate NUM_OF_API_FUNCS zero_API, 0, 0⟩

/-- Conversion of an unsigned value to `uint16_t`. -/
def to_uint16 (x : Nat) : Nat := x % 65536

/-- Conversion of an `int` to `int8_t` (two's complement wrap-around). -/
def to_int8 (x : Int) : Int := (x + 128) % 256 - 128

/-- The sign (`-1`, `0` or `1`) of the result of the library function `strcmp`, which is
what the standard fixes of it and all that `add_interpreter_instruction` uses (it keeps
the result in an `int32_t` and tests it for `> 0`); characters compare by their code and
the terminator is smaller than every character. -/
def strcmp : List Char → List Char → Int
  | [], [] => 0
  | [], _ :: _ => -1
  | _ :: _, [] => 1
  | a :: as, b :: bs =>
    if a.toNat < b.toNat then -1 else if b.toNat < a.toNat then 1 else strcmp as bs

/-- The type of the library function `strncmp`: two strings and a length to an `int`. -/
abbrev Strncmp := List Char → List Char → Nat → Int

/-- The sign (`-1`, `0` or `1`) that the standard fixes for the result of the library
function `strncmp`: as `strcmp`, over at most `n` characters. A library may return just
this. -/
def strncmp_sign : Strncmp
  | _, _, 0 => 0
  | [], [], _ + 1 => 0
  | [], _ :: _, _ + 1 => -1
  | _ :: _, [], _ + 1 => 1
  | a :: as, b :: bs, n + 1 =>
    if a.toNat < b.toNat then -1 else if b.toNat < a.toNat then 1 else strncmp_sign as bs n

/-- The library function `strncmp` as glibc, newlib, avr-libc and musl compute it: the
difference of the codes of the first two characters that differ among the first `n`, the
terminator counting as `0`, and `0` when there are none. -/
def strncmp_diff : Strncmp
  | _, _, 0 => 0
  | [], [], _ + 1 => 0
  | [], b :: _, _ + 1 => - (b.toNat : Int)
  | a :: _, [], _ + 1 => (a.toNat : Int)
  | a :: as, b :: bs, n + 1 =>
    if a = b then strncmp_diff as bs n else (a.toNat : Int) - (b.toNat : Int)

/-- The library function `strlen`. -/
def strlen (s : List Char) : Nat := s.length

/-- The descent of `add_interpreter_instruction` (lines 152-164): compare at `prev`, take
the left link when `comp_res > 0` and the right link otherwise, until the link is `NULL`.
Returns the last `prev` and the last `comp_res`. The fuel counts the visited nodes. -/
def add_walk (tree : List API_t) (name : List Char) : Nat → Nat → Option (Nat × Int)
  | 0, _ => none
  | fuel + 1, prev => do
    let node ← tree[prev]?
    let prev_name ← node.name
    let comp_res := strcmp prev_name name
    match (if comp_res > 0 then node.left else node.right) with
    | none => some (prev, comp_res)
    | some next => add_walk tree name fuel next

/-- The function `add_interpreter_instruction`. A descent that visits more nodes than the
array has slots has entered a cycle of links, on which the source never stops. -/
def add_interpreter_instruction (NUM_OF_API_FUNCS : Nat)
    (name desc : Option (List Char)) (func : Option Nat) (s : State) : Option State :=
  if s.API_cntr ≥ NUM_OF_API_FUNCS then some s
  else if s.API_cntr = 0 then
    some { s with
      API_tree := s.API_tree.set 0 ⟨0, none, none, name, desc, func⟩
      API_cntr := s.API_cntr + 1 }
  else do
    let new_name ← name
    let (prev, comp_res) ← add_walk s.API_tree new_name NUM_OF_API_FUNCS 0
    let p ← s.API_tree[prev]?
    let linked :=
      s.API_tree.set prev
        (if comp_res > 0 then { p with left := some s.API_cntr }
         else { p with right := some s.API_cntr })
    some { s with
      API_tree := linked.set s.API_cntr ⟨0, none, none, name, desc, func⟩
      API_cntr := s.API_cntr + 1 }

/-- The function `recursive_indexer`. The fuel bounds the depth of the recursion. -/
def recursive_indexer : Nat → Option Nat → State → Option State
  | 0, _, _ => none
  | _ + 1, none, s => some s
  | fuel + 1, some head, s => do
    let node ← s.API_tree[head]?
    let s1 ← recursive_indexer fuel node.left s
    let node1 ← s1.API_tree[head]?
    let s2 : State :=
      { s1 with
        API_tree := s1.API_tree.set head { node1 with place := to_uint16 s1.API_place_cntr }
        API_place_cntr := s1.API_place_cntr + 1 }
    let node2 ← s2.API_tree[head]?
    recursive_indexer fuel node2.right s2

/-- The function `index_apis_in_order`. A recursion deeper than the number of slots has
met a slot twice on one path, and then the source never returns. -/
def index_apis_in_order (NUM_OF_API_FUNCS : Nat) (head : Option Nat) (s : State) :
    Option State :=
  recursive_indexer (NUM_OF_API_FUNCS + 1) head { s with API_place_cntr := 0 }

/-- The function `print_apis_in_order`: the lines it prints, as pairs of `place` and name. -/
def print_apis_in_order (tree : List API_t) : Nat → Option Nat → Option (List (Nat × List Char))
  | 0, _ => none
  | _ + 1, none => some []
  | fuel + 1, some head => do
    let node ← tree[head]?
    let before ← print_apis_in_order tree fuel node.left
    let nm ← node.name
    let after ← print_apis_in_order tree fuel node.right
    some (before ++ (node.place, nm) :: after)

/-- The loop of `find_api_index_by_place` with its `uint16_t` counter `i`. -/
def find_loop (NUM_OF_API_FUNCS : Nat) (tree : List API_t) (place : Nat) :
    Nat → Nat → Option Nat
  | 0, _ => none
  | fuel + 1, i =>
    if i < NUM_OF_API_FUNCS then do
      let e ← tree[i]?
      if e.place = place then some i
      else find_loop NUM_OF_API_FUNCS tree place fuel (to_uint16 (i + 1))
    else some 0

/-- The function `find_api_index_by_place`. The loop ends within `NUM_OF_API_FUNCS + 1`
tests unless the counter wraps around, and then it never ends. -/
def find_api_index_by_place (NUM_OF_API_FUNCS : Nat) (tree : List API_t) (place : Nat) :
    Option Nat :=
  find_loop NUM_OF_API_FUNCS tree place (NUM_OF_API_FUNCS + 1) 0

/-- The function `swap_api_elements`; both parameters are `uint16_t`. -/
def swap_api_elements (NUM_OF_API_FUNCS : Nat) (index place : Nat) (s : State) :
    Option State := do
  let current_index ← find_api_index_by_place NUM_OF_API_FUNCS s.API_tree place
  let buffer ← s.API_tree[index]?
  let current ← s.API_tree[current_index]?
  some { s with API_tree := (s.API_tree.set index current).set current_index buffer }

/-- The function `recursive_optimiser`; the division is that of C, which truncates.
The fuel bounds the depth of the recursion. -/
def recursive_optimiser (NUM_OF_API_FUNCS : Nat) : Nat → Int → Int → State → Option State
  | 0, _, _, _ => none
  | fuel + 1, start_index, stop_index, s =>
    if start_index > stop_index then some s
    else do
      let mid := Int.tdiv (start_index + stop_index) 2
      let s1 ← swap_api_elements NUM_OF_API_FUNCS (to_uint16 s.API_cntr)
        (mid % 65536).toNat s
      let s2 : State := { s1 with API_cntr := s1.API_cntr + 1 }
      let s3 ← recursive_optimiser NUM_OF_API_FUNCS fuel start_index (mid - 1) s2
      recursive_optimiser NUM_OF_API_FUNCS fuel (mid + 1) stop_index s3

/-- The relink loop of `optimise_api_tree` (lines 292-302), `i` running over the slots. -/
def relink_loop (NUM_OF_API_FUNCS : Nat) : Nat → Nat → State → Option State
  | 0, _, s => some s
  | todo + 1, i, s => do
    let buffer ← s.API_tree[i]?
    let s1 ← add_interpreter_instruction NUM_OF_API_FUNCS buffer.name buffer.desc buffer.func s
    let e ← s1.API_tree[i]?
    relink_loop NUM_OF_API_FUNCS todo (i + 1)
      { s1 with API_tree := s1.API_tree.set i { e with place := buffer.place } }

/-- The function `optimise_api_tree`. Every call of `recursive_optimiser` halves its
range, so a depth of `NUM_OF_API_FUNCS + 1` is never reached. -/
def optimise_api_tree (NUM_OF_API_FUNCS : Nat) (s : State) : Option State := do
  let s1 ← recursive_optimiser NUM_OF_API_FUNCS (NUM_OF_API_FUNCS + 1) 0
    ((NUM_OF_API_FUNCS : Int) - 1) { s with API_cntr := 0 }
  relink_loop NUM_OF_API_FUNCS NUM_OF_API_FUNCS 0 { s1 with API_cntr := 0 }

/-- A command as the macros `create_instruction_data` and `add_instruction` register it:
name, description, handler. -/
abbrev Command := List Char × List Char × Nat

/-- The registration part of `init_interpreter`: one `add_instruction` per command. -/
def register (NUM_OF_API_FUNCS : Nat) : List Command → State → Option State
  | [], s => some s
  | c :: cs, s => do
    let s1 ← add_interpreter_instruction NUM_OF_API_FUNCS (some c.1) (some c.2.1) (some c.2.2) s
    register NUM_OF_API_FUNCS cs s1

/-- The build sequence of `init_interpreter` (lines 80-99) for a list of commands. -/
def build (NUM_OF_API_FUNCS : Nat) (cmds : List Command) : Option State := do
  let s1 ← register NUM_OF_API_FUNCS cmds { initial_state NUM_OF_API_FUNCS with API_cntr := 0 }
  let s2 ← index_apis_in_order NUM_OF_API_FUNCS (some 0) s1
  optimise_api_tree NUM_OF_API_FUNCS s2

/-- The commands of `interpreter.c` in the order `init_interpreter` adds them; the
handlers `stop_func`, `start_func`, `left_func`, `right_func` are numbered 1 to 4. -/
def example_commands : List Command :=
  [("stop".toList, "basic stop command".toList, 1),
   ("start".toList, "basic start command".toList, 2),
   ("left".toList, "command used to turn left".toList, 3),
   ("right".toList, "command used to turn right".toList, 4)]

/-- The function `init_interpreter`: the final state, the lines printed by
`print_apis_in_order`, and whether the mismatch message is printed. -/
def init_interpreter (NUM_OF_API_FUNCS : Nat) :
    Option (State × List (Nat × List Char) × Bool) := do
  let s ← build NUM_OF_API_FUNCS example_commands
  let printed ← print_apis_in_order s.API_tree (NUM_OF_API_FUNCS + 1) (some 0)
  some (s, printed, decide (s.API_cntr ≠ NUM_OF_API_FUNCS))

/-- The scan of `execute` (lines 346-351): the value of `cmd_name_cntr`. Reading at the
end of the list reads the terminator. -/
def cmd_name_len : List Char → Nat
  | [] => 0
  | c :: cs => if c ≠ '\x00' ∧ c ≠ ' ' then cmd_name_len cs + 1 else 0

/-- The C string that starts at offset `p` of a buffer. -/
def c_str (buf : List Char) (p : Nat) : List Char :=
  (buf.drop p).takeWhile (fun c => c ≠ '\x00')

/-- Lines 341-361 of `execute`: the buffer afterwards and the offset `arg`. -/
def tokenise (cmd : List Char) : List Char × Nat :=
  let arg := cmd_name_len cmd
  if cmd.getD arg '\x00' = ' ' then (cmd.set arg '\x00', arg + 1) else (cmd, arg)

/-- The search of `execute` (lines 364-378) with the library function `strncmp`;
`comp_res` is an `int8_t`, to which the `int` that `strncmp` returns is converted. Returns
the last `prev` and the last `comp_res`. The fuel counts the visited nodes. -/
def search (strncmp : Strncmp) (tree : List API_t) (cmd : List Char) :
    Nat → Nat → Option (Nat × Int)
  | 0, _ => none
  | fuel + 1, prev => do
    let node ← tree[prev]?
    let prev_name ← node.name
    let comp_res := to_int8 (strncmp prev_name cmd (strlen prev_name))
    match (if comp_res > 0 then node.left else node.right) with
    | none => some (prev, comp_res)
    | some next =>
      if comp_res ≠ 0 then search strncmp tree cmd fuel next else some (prev, comp_res)

/-- What `execute` does after the search: it calls a handler with the argument text, or
prints the not-found message with the text at `cmd`. -/
inductive Outcome where
  | invoked (func : Nat) (args : List Char)
  | not_found (cmd : List Char)
deriving DecidableEq, Repr

/-- The function `execute` with the library function `strncmp`: the globals afterwards,
the buffer afterwards, and the outcome. A search that visits more nodes than the array has
slots never stops. -/
def execute (strncmp : Strncmp) (NUM_OF_API_FUNCS : Nat) (s : State) (cmd : List Char) :
    Option (State × List Char × Outcome) := do
  let (buf, arg) := tokenise cmd
  let (prev, comp_res) ← search strncmp s.API_tree (c_str buf 0) NUM_OF_API_FUNCS 0
  if comp_res = 0 then do
    let node ← s.API_tree[prev]?
    let f ← node.func
    some (s, buf, Outcome.invoked f (c_str buf arg))
  else some (s, buf, Outcome.not_found (c_str buf 0))


/-! ## Reading the tree off the array -/

/-- A binary tree of slot indices: the shape that the `left` and `right` links describe. -/
inductive BT where
  | nil
  | node (l : BT) (i : Nat) (r : BT)
deriving DecidableEq, Repr

namespace BT

/-- The slots in the order of an in-order traversal (left, node, right). -/
def inorder : BT → List Nat
  | nil => []
  | node l i r => l.inorder ++ i :: r.inorder

/-- The slots in the order of a pre-order traversal (node, left, right). -/
def preorder : BT → List Nat
  | nil => []
  | node l i r => i :: (l.preorder ++ r.preorder)

/-- The number of nodes. -/
def size : BT → Nat
  | nil => 0
  | node l _ r => l.size + 1 + r.size

/-- The number of nodes on the longest path from the root. -/
def height : BT → Nat
  | nil => 0
  | node l _ r => max l.height r.height + 1

/-- The link that points to the tree: `NULL` for the empty tree. -/
def root : BT → Option Nat
  | nil => none
  | node _ i _ => some i

/-- Renaming of the nodes. -/
def map (f : Nat → Nat) : BT → BT
  | nil => nil
  | node l i r => node (l.map f) (f i) (r.map f)

/-- At every node the two subtrees differ in size by at most one. -/
def balanced : BT → Prop
  | nil => True
  | node l _ r => (l.size ≤ r.size + 1 ∧ r.size ≤ l.size + 1) ∧ l.balanced ∧ r.balanced

end BT

/-- The tree that the links describe from `head` on; the fuel bounds the depth. -/
def tree_of (tree : List API_t) : Nat → Option Nat → Option BT
  | 0, _ => none
  | _ + 1, none => some BT.nil
  | fuel + 1, some head => do
    let node ← tree[head]?
    let l ← tree_of tree fuel node.left
    let r ← tree_of tree fuel node.right
    some (BT.node l head r)

/-- The links `head` on describe the tree `T`. -/
inductive Rep (tree : List API_t) : Option Nat → BT → Prop
  | nil : Rep tree none BT.nil
  | node {i : Nat} {e : API_t} {l r : BT} :
      tree[i]? = some e → Rep tree e.left l → Rep tree e.right r →
      Rep tree (some i) (BT.node l i r)

/-- The links of a record. -/
def links (e : API_t) : Option Nat × Option Nat := (e.left, e.right)

/-- The fields of a record other than its links. -/
def payload (e : API_t) : Nat × Option (List Char) × Option (List Char) × Option Nat :=
  (e.place, e.name, e.desc, e.func)

/-- A record with its `place` field cleared: all that `recursive_indexer` leaves alone. -/
def unplaced (e : API_t) : API_t := { e with place := 0 }

/-- The name stored in slot `j`, if the slot exists and its name pointer is not `NULL`. -/
def name_at (tree : List API_t) (j : Nat) : Option (List Char) :=
  (tree[j]?).bind (fun e => e.name)

/-- The command that a record holds: name, description and handler, none of them `NULL`. -/
def command_of (e : API_t) : Option Command := do
  let n ← e.name
  let d ← e.desc
  let f ← e.func
  some (n, d, f)

/-- The command stored in slot `j`. -/
def command_at (tree : List API_t) (j : Nat) : Option Command :=
  (tree[j]?).bind command_of

/-- The places order the records as `strcmp` orders their names. -/
def ranked (tree : List API_t) : Prop :=
  ∀ e1 ∈ tree, ∀ e2 ∈ tree, ∀ n1 n2, e1.name = some n1 → e2.name = some n2 →
    (strcmp n1 n2 > 0 ↔ e1.place > e2.place)

/-- The name of the `j`-th command of a list, empty beyond its end. -/
def name_of (cmds : List Command) (j : Nat) : List Char :=
  ((cmds[j]?).map (fun c => c.1)).getD []

/-- Insertion of slot `k`, whose name is `nm`, into a tree of slots whose names are given
by `key`: the descent and the link of `add_interpreter_instruction` on trees. -/
def ins (key : Nat → List Char) (nm : List Char) (k : Nat) : BT → BT
  | BT.nil => BT.node BT.nil k BT.nil
  | BT.node l i r =>
    if strcmp (key i) nm > 0 then BT.node (ins key nm k l) i r
    else BT.node l i (ins key nm k r)

/-- The tree after the slots `0 .. n-1` have been inserted in this order. -/
def ins_upto (key : Nat → List Char) : Nat → BT
  | 0 => BT.nil
  | n + 1 => ins key (key n) n (ins_upto key n)

/-- Insertion of a list of slots, one after the other. -/
def ins_list (key : Nat → List Char) (ks : List Nat) (T : BT) : BT :=
  ks.foldl (fun t k => ins key (key k) k t) T

/-- The search-tree order that `add_interpreter_instruction` keeps: the names in the left
subtree compare smaller than the name of the node (`strcmp` of the node against them is
positive), the names in the right subtree do not. -/
def bst (key : Nat → List Char) : BT → Prop
  | BT.nil => True
  | BT.node l i r =>
    (∀ j ∈ l.inorder, strcmp (key i) (key j) > 0) ∧
    (∀ j ∈ r.inorder, ¬ strcmp (key i) (key j) > 0) ∧ bst key l ∧ bst key r

/-- The name in slot `j`, empty when there is none. -/
def key_of (tree : List API_t) (j : Nat) : List Char := (name_at tree j).getD []

/-- The `place` field of slot `j`. -/
def place_at (tree : List API_t) (j : Nat) : Nat := ((tree[j]?).map (fun e => e.place)).getD 0

/-- The median-split tree over the `n` ranks from `lo` on: the root is the middle rank,
rounded down. -/
def med (lo : Nat) : Nat → BT
  | 0 => BT.nil
  | n + 1 => BT.node (med lo (n / 2)) (lo + n / 2) (med (lo + n / 2 + 1) (n - n / 2))
decreasing_by
  all_goals simp_wf
  all_goals omega

/-- The first `c` slots are linked into the tree `T`, rooted at slot `0`, and their names
are given by `key`. -/
structure Linked (tree : List API_t) (c : Nat) (key : Nat → List Char) (T : BT) : Prop where
  rep : Rep tree T.root T
  root : 0 < c → T.root = some 0
  perm : T.inorder.Perm (List.range c)
  keys : ∀ j, j < c → name_at tree j = some (key j)

/-- What the build establishes for a list of `N` commands: the array is full, its slots
are linked into the tree of successive insertions in storage order, the records are the
registered commands, the places are the ranks in the pre-order of the median-split tree,
and (for pairwise different names) the places order the records as their names. -/
structure Built (N : Nat) (cmds : List Command) (tree : List API_t) : Prop where
  len : tree.length = N
  linked : Linked tree N (key_of tree) (ins_upto (key_of tree) N)
  cmds_perm : (tree.map command_of).Perm (cmds.map some)
  places : tree.map (fun e => e.place) = (med 0 N).preorder
  ranked : (cmds.map (fun c => c.1)).Nodup → ranked tree

/-- The table that `init_interpreter` builds when `NUM_OF_API_FUNCS` is `4`. -/
def example_table : State :=
  ⟨[⟨1, some 1, some 2, some "right".toList, some "command used to turn right".toList, some 4⟩,
    ⟨0, none, none, some "left".toList, some "command used to turn left".toList, some 3⟩,
    ⟨2, none, some 3, some "start".toList, some "basic start command".toList, some 2⟩,
    ⟨3, none, none, some "stop".toList, some "basic stop command".toList, some 1⟩], 4, 4⟩

/-- Two commands of which the first name is the beginning of the second. -/
def nested_commands : List Command :=
  [("a".toList, "first".toList, 1), ("ab".toList, "second".toList, 2)]

/-- The command token of a line that contains no terminator: the characters before the
first space, or the whole line. -/
def command_token (line : List Char) : List Char :=
  line.takeWhile (fun c => c ≠ ' ')

/-- The rebuild of an existing table: `index_apis_in_order` and `optimise_api_tree`. -/
def rebuild (NUM_OF_API_FUNCS : Nat) (s : State) : Option State := do
  let s1 ← index_apis_in_order NUM_OF_API_FUNCS (some 0) s
  optimise_api_tree NUM_OF_API_FUNCS s1

/-! ## Definitions for the cost, the reference shapes and the tie-breaks -/

/-- The number of calls of `strncmp` that the search of `execute` (lines 364-378) makes:
one before the loop and one in every round of it. The fuel counts the visited nodes. -/
def search_comparisons (strncmp : Strncmp) (tree : List API_t) (cmd : List Char) :
    Nat → Nat → Option Nat
  | 0, _ => none
  | fuel + 1, prev => do
    let node ← tree[prev]?
    let prev_name ← node.name
    let comp_res := to_int8 (strncmp prev_name cmd (strlen prev_name))
    match (if comp_res > 0 then node.left else node.right) with
    | none => some 1
    | some next =>
      if comp_res ≠ 0 then
        (search_comparisons strncmp tree cmd fuel next).map (fun k => k + 1)
      else some 1

/-- The reference sequence of the balancer, in the words of the specification: empty if
`lo > hi`, and otherwise `mid = floor((lo+hi)/2)` followed by `pre lo (mid-1)` followed by
`pre (mid+1) hi`. -/
def pre (lo hi : Int) : List Int :=
  if _h : lo > hi then []
  else ((lo + hi) / 2) :: (pre lo ((lo + hi) / 2 - 1) ++ pre ((lo + hi) / 2 + 1) hi)
termination_by (hi - lo + 1).toNat
decreasing_by
  all_goals simp_wf
  all_goals omega

/-- The median-split tree of the ranks `lo .. hi`, in the words of the specification: the
root of a non-empty range is `mid = floor((lo+hi)/2)`, its left subtree is the tree of
`lo .. mid-1` and its right subtree the tree of `mid+1 .. hi`; an empty range (`lo > hi`)
has no node, which is a `NULL` child. -/
def split_tree (lo hi : Int) : BT :=
  if _h : lo > hi then BT.nil
  else BT.node (split_tree lo ((lo + hi) / 2 - 1)) ((lo + hi) / 2).toNat
    (split_tree ((lo + hi) / 2 + 1) hi)
termination_by (hi - lo + 1).toNat
decreasing_by
  all_goals simp_wf
  all_goals omega

/-- At every node the two subtrees have the same size or the right one has one node
more. -/
def BT.right_heavy : BT → Prop
  | BT.nil => True
  | BT.node l _ r => (r.size = l.size ∨ r.size = l.size + 1) ∧ l.right_heavy ∧ r.right_heavy

/-- The slots of the right subtree of the node that holds slot `i`. -/
def BT.right_of : BT → Nat → List Nat
  | BT.nil, _ => []
  | BT.node l j r, i => if j = i then r.inorder else l.right_of i ++ r.right_of i

/-- The slots of the left subtree of the node that holds slot `i`. -/
def BT.left_of : BT → Nat → List Nat
  | BT.nil, _ => []
  | BT.node l j r, i => if j = i then l.inorder else l.left_of i ++ r.left_of i

/-- Two commands with the same name. -/
def twin_commands : List Command :=
  [("a".toList, "first".toList, 1), ("a".toList, "second".toList, 2)]

/-! ## Definitions for the library and the 8-bit comparison result -/

/-- What is assumed of the library `strncmp` on the comparison that `execute` makes of a
stored name `a` with the text `b`: the result of `strncmp(a, b, strlen(a))` has the sign
that the standard fixes, and it is not larger than the difference of two bytes. -/
abbrev conforms (strncmp : Strncmp) (a b : List Char) : Prop :=
  (strncmp a b (strlen a) > 0 ↔ strncmp_sign a b (strlen a) > 0) ∧
  (strncmp a b (strlen a) < 0 ↔ strncmp_sign a b (strlen a) < 0) ∧
  -255 ≤ strncmp a b (strlen a) ∧ strncmp a b (strlen a) ≤ 255

/-- The result of `strncmp(a, b, strlen(a))` is a value of `int8_t`. -/
abbrev fits_int8 (strncmp : Strncmp) (a b : List Char) : Prop :=
  -128 ≤ strncmp a b (strlen a) ∧ strncmp a b (strlen a) ≤ 127

/-- Two commands whose names are the one-byte strings `A` (code 65) and `é` (code 233 in
ISO 8859-1). -/
def accent_commands : List Command :=
  [(['A'], "first".toList, 1), (['\xe9'], "second".toList, 2)]

/-! ## Definitions for the links and the edge cases -/

/-- Every link of the first `c` slots points to a later slot among the first `c`. -/
def ascending (tree : List API_t) (c : Nat) : Prop :=
  ∀ i e j, i < c → tree[i]? = some e → (e.left = some j ∨ e.right = some j) → i < j ∧ j < c

/-! ## The order of `strcmp` -/

theorem char_toNat_inj {a b : Char} (h : a.toNat = b.toNat) : a = b := by
  apply Char.ext
  apply UInt32.ext
  exact h

theorem strcmp_self (a : List Char) : strcmp a a = 0 := by
  induction a with
  | nil => rfl
  | cons x xs ih => simp [strcmp, ih]

theorem strcmp_eq_zero {a b : List Char} (h : strcmp a b = 0) : a = b := by
  induction a generalizing b with
  | nil => cases b with
    | nil => rfl
    | cons y ys => simp [strcmp] at h
  | cons x xs ih => cases b with
    | nil => simp [strcmp] at h
    | cons y ys =>
      simp only [strcmp] at h
      split_ifs at h with h1 h2
      · exact absurd h (by decide)
      · have hxy : x = y := char_toNat_inj (by omega)
        rw [hxy, ih h]

theorem strcmp_swap (a b : List Char) : strcmp b a = - strcmp a b := by
  induction a generalizing b with
  | nil => cases b <;> simp [strcmp]
  | cons x xs ih => cases b with
    | nil => simp [strcmp]
    | cons y ys =>
      simp only [strcmp]
      split_ifs <;> first | omega | simp [ih]

theorem strcmp_range (a b : List Char) :
    strcmp a b = -1 ∨ strcmp a b = 0 ∨ strcmp a b = 1 := by
  induction a generalizing b with
  | nil => cases b <;> simp [strcmp]
  | cons x xs ih => cases b with
    | nil => simp [strcmp]
    | cons y ys =>
      simp only [strcmp]
      split_ifs <;> simp [ih]

theorem strcmp_trans {a b c : List Char} (h1 : strcmp a b < 0) (h2 : strcmp b c < 0) :
    strcmp a c < 0 := by
  induction a generalizing b c with
  | nil => cases c with
    | nil => cases b <;> simp [strcmp] at h1 h2
    | cons z zs => simp [strcmp]
  | cons x xs ih => cases b with
    | nil => simp [strcmp] at h1
    | cons y ys => cases c with
      | nil => simp [strcmp] at h2
      | cons z zs =>
        simp only [strcmp] at h1 h2 ⊢
        split_ifs at h1 h2 ⊢ <;> first | omega | exact ih h1 h2

/-- The names compare as `a` before `b`. -/
theorem strcmp_pos_iff (a b : List Char) : strcmp a b > 0 ↔ strcmp b a < 0 := by
  rw [strcmp_swap a b]; omega

theorem strncmp_sign_range (a b : List Char) (n : Nat) :
    strncmp_sign a b n = -1 ∨ strncmp_sign a b n = 0 ∨ strncmp_sign a b n = 1 := by
  induction n generalizing a b with
  | zero => simp [strncmp_sign]
  | succ n ih =>
    cases a with
    | nil => cases b <;> simp [strncmp_sign]
    | cons x xs => cases b with
      | nil => simp [strncmp_sign]
      | cons y ys =>
        simp only [strncmp_sign]
        split_ifs <;> simp [ih]

theorem to_int8_strncmp_sign (a b : List Char) (n : Nat) :
    to_int8 (strncmp_sign a b n) = strncmp_sign a b n := by
  rcases strncmp_sign_range a b n with h | h | h <;> rw [h] <;> rfl

theorem strncmp_sign_eq_zero_iff (a b : List Char) :
    strncmp_sign a b (strlen a) = 0 ↔ a <+: b := by
  unfold strlen
  induction a generalizing b with
  | nil => simp [strncmp_sign]
  | cons x xs ih => cases b with
    | nil => simp [strncmp_sign]
    | cons y ys =>
      simp only [strncmp_sign, List.length_cons, List.cons_prefix_cons]
      split_ifs with h1 h2
      · simp; intro h; subst h; omega
      · simp; intro h; subst h; omega
      · have hxy : x = y := char_toNat_inj (by omega)
        simp [hxy, ih]

theorem strncmp_sign_eq_strcmp {a b : List Char} (h : ¬ a <+: b) :
    strncmp_sign a b (strlen a) = strcmp a b := by
  unfold strlen
  induction a generalizing b with
  | nil => simp at h
  | cons x xs ih => cases b with
    | nil => simp [strncmp_sign, strcmp]
    | cons y ys =>
      simp only [strncmp_sign, strcmp, List.length_cons]
      split_ifs with h1 h2
      · rfl
      · rfl
      · have hxy : x = y := char_toNat_inj (by omega)
        apply ih
        intro hp
        apply h
        rw [hxy]
        exact List.cons_prefix_cons.mpr ⟨rfl, hp⟩

/-! ## The library result and its conversion to `int8_t` -/

/-- The library that returns the sign conforms, and its results are values of `int8_t`. -/
theorem conforms_sign (a b : List Char) :
    conforms strncmp_sign a b ∧ fits_int8 strncmp_sign a b := by
  rcases strncmp_sign_range a b (strlen a) with h | h | h <;> simp [conforms, fits_int8, h]

/-- The conversion to `int8_t` keeps a result that fits. -/
theorem to_int8_of_fits {x : Int} (h1 : -128 ≤ x) (h2 : x ≤ 127) : to_int8 x = x := by
  unfold to_int8
  omega

/-- The conversion to `int8_t` of a result of at most a byte difference is zero for a
zero result only. -/
theorem to_int8_eq_zero_iff {x : Int} (h1 : -255 ≤ x) (h2 : x ≤ 255) :
    to_int8 x = 0 ↔ x = 0 := by
  unfold to_int8
  omega

/-- With a conforming library the 8-bit result of the comparison that `execute` makes is
zero exactly when the stored name begins the text. -/
theorem comp_res_eq_zero_iff {strncmp : Strncmp} {a b : List Char}
    (h : conforms strncmp a b) :
    to_int8 (strncmp a b (strlen a)) = 0 ↔ a <+: b := by
  obtain ⟨hp, hn, h1, h2⟩ := h
  rw [to_int8_eq_zero_iff h1 h2, ← strncmp_sign_eq_zero_iff]
  constructor
  · intro h0
    rw [h0] at hp hn
    have := hp.not.mp (by decide)
    have := hn.not.mp (by decide)
    omega
  · intro h0
    rw [h0] at hp hn
    have := hp.not.mpr (by decide)
    have := hn.not.mpr (by decide)
    omega

/-- With a conforming library whose result fits `int8_t`, and a stored name that does
not begin the text, the 8-bit result is positive exactly when `strcmp` is. -/
theorem comp_res_pos_iff {strncmp : Strncmp} {a b : List Char}
    (h : conforms strncmp a b) (hf : fits_int8 strncmp a b) (hp : ¬ a <+: b) :
    to_int8 (strncmp a b (strlen a)) > 0 ↔ strcmp a b > 0 := by
  rw [to_int8_of_fits hf.1 hf.2, h.1, strncmp_sign_eq_strcmp hp]

/-! ## Trees of slots -/

theorem BT.size_eq_length_inorder (T : BT) : T.size = T.inorder.length := by
  induction T with
  | nil => rfl
  | node l i r ihl ihr => simp [BT.size, BT.inorder, ihl, ihr]; omega

theorem BT.height_le_size (T : BT) : T.height ≤ T.size := by
  induction T with
  | nil => simp [BT.height, BT.size]
  | node l i r ihl ihr => simp only [BT.height, BT.size]; omega

theorem BT.inorder_map (f : Nat → Nat) (T : BT) : (T.map f).inorder = T.inorder.map f := by
  induction T with
  | nil => rfl
  | node l i r ihl ihr => simp [BT.map, BT.inorder, ihl, ihr]

theorem BT.size_map (f : Nat → Nat) (T : BT) : (T.map f).size = T.size := by
  induction T with
  | nil => rfl
  | node l i r ihl ihr => simp [BT.map, BT.size, ihl, ihr]

theorem BT.balanced_map (f : Nat → Nat) (T : BT) : (T.map f).balanced ↔ T.balanced := by
  induction T with
  | nil => simp [BT.map, BT.balanced]
  | node l i r ihl ihr => simp [BT.map, BT.balanced, BT.size_map, ihl, ihr]

theorem BT.preorder_perm_inorder (T : BT) : T.preorder.Perm T.inorder := by
  induction T with
  | nil => exact List.Perm.refl _
  | node l i r ihl ihr =>
    simp only [BT.preorder, BT.inorder]
    exact ((ihl.append ihr).cons i).trans List.perm_middle.symm

theorem Rep.root_eq {tree : List API_t} {h : Option Nat} {T : BT} (hr : Rep tree h T) :
    h = T.root := by
  cases hr <;> rfl

theorem Rep.lt_length {tree : List API_t} {h : Option Nat} {T : BT} (hr : Rep tree h T) :
    ∀ j ∈ T.inorder, j < tree.length := by
  induction hr with
  | nil => simp [BT.inorder]
  | node he _ _ ihl ihr =>
    intro j hj
    simp only [BT.inorder, List.mem_append, List.mem_cons] at hj
    rcases hj with hj | hj | hj
    · exact ihl j hj
    · subst hj
      exact (List.getElem?_eq_some.mp he).1
    · exact ihr j hj

/-- The tree read off the links depends on the links of its own slots only. -/
theorem Rep.congr {tree tree' : List API_t} {h : Option Nat} {T : BT} (hr : Rep tree h T)
    (hl : ∀ j ∈ T.inorder, (tree'[j]?).map links = (tree[j]?).map links) :
    Rep tree' h T := by
  induction hr with
  | nil => exact Rep.nil
  | @node i e l r he _ _ ihl ihr =>
    have hi := hl i (by simp [BT.inorder])
    rw [he] at hi
    cases he' : tree'[i]? with
    | none => simp [he'] at hi
    | some e' =>
      simp [he', links] at hi
      refine Rep.node he' ?_ ?_
      · rw [hi.1]
        exact ihl (fun j hj => hl j (by simp [BT.inorder, hj]))
      · rw [hi.2]
        exact ihr (fun j hj => hl j (by simp [BT.inorder, hj]))

theorem Rep.congr_eq {tree tree' : List API_t} {h : Option Nat} {T : BT} (hr : Rep tree h T)
    (hl : ∀ j ∈ T.inorder, tree'[j]? = tree[j]?) : Rep tree' h T :=
  hr.congr (fun j hj => by rw [hl j hj])

/-- Two arrays whose links describe the same tree have the same links on its slots. -/
theorem Rep.links_unique {tree tree' : List API_t} {h : Option Nat} {T : BT}
    (hr : Rep tree h T) (hr' : Rep tree' h T) :
    ∀ j ∈ T.inorder, (tree'[j]?).map links = (tree[j]?).map links := by
  induction hr with
  | nil => simp [BT.inorder]
  | @node i e l r he hl hrr ihl ihr =>
    cases hr' with
    | @node _ e' _ _ he' hl' hrr' =>
      have h1 : e'.left = e.left := by rw [hl'.root_eq, hl.root_eq]
      have h2 : e'.right = e.right := by rw [hrr'.root_eq, hrr.root_eq]
      intro j hj
      simp only [BT.inorder, List.mem_append, List.mem_cons] at hj
      rcases hj with hj | hj | hj
      · exact ihl (h1 ▸ hl') j hj
      · subst hj
        simp [he, he', links, h1, h2]
      · exact ihr (h2 ▸ hrr') j hj

theorem tree_of_of_rep {tree : List API_t} {h : Option Nat} {T : BT} (hr : Rep tree h T) :
    ∀ fuel, T.height < fuel → tree_of tree fuel h = some T := by
  induction hr with
  | nil =>
    intro fuel hf
    cases fuel with
    | zero => omega
    | succ f => rfl
  | @node i e l r he _ _ ihl ihr =>
    intro fuel hf
    cases fuel with
    | zero => omega
    | succ f =>
      simp only [BT.height] at hf
      simp [tree_of, he, ihl f (by omega), ihr f (by omega)]

theorem rep_of_tree_of {tree : List API_t} :
    ∀ (fuel : Nat) (h : Option Nat) (T : BT), tree_of tree fuel h = some T → Rep tree h T := by
  intro fuel
  induction fuel with
  | zero => intro h T ht; simp [tree_of] at ht
  | succ f ih =>
    intro h T ht
    cases h with
    | none =>
      simp [tree_of] at ht
      subst ht
      exact Rep.nil
    | some i =>
      simp only [tree_of, Option.bind_eq_bind, Option.bind_eq_some] at ht
      obtain ⟨e, he, l, hl, r, hrr, hT⟩ := ht
      simp at hT
      subst hT
      exact Rep.node he (ih _ _ hl) (ih _ _ hrr)

/-! ## The descent and the link of `add_interpreter_instruction` -/

theorem ins_inorder_perm (key : Nat → List Char) (nm : List Char) (k : Nat) (T : BT) :
    (ins key nm k T).inorder.Perm (k :: T.inorder) := by
  induction T with
  | nil => simp [ins, BT.inorder]
  | node l i r ihl ihr =>
    simp only [ins]
    split_ifs
    · simp only [BT.inorder]
      exact (ihl.append_right _).trans (by simp)
    · simp only [BT.inorder]
      refine (List.Perm.append_left _ ((ihr.cons i).trans (List.Perm.swap _ _ _))).trans ?_
      exact List.perm_middle

theorem ins_root (key : Nat → List Char) (nm : List Char) (k : Nat) (T : BT) (i : Nat)
    (h : T.root = some i) : (ins key nm k T).root = some i := by
  cases T with
  | nil => simp [BT.root] at h
  | node l j r =>
    simp only [ins]
    split_ifs <;> simpa [BT.root] using h

theorem ins_height (key : Nat → List Char) (nm : List Char) (k : Nat) (T : BT) :
    (ins key nm k T).height ≤ T.height + 1 := by
  induction T with
  | nil => simp [ins, BT.height]
  | node l i r ihl ihr =>
    simp only [ins]
    split_ifs <;> simp only [BT.height] <;> omega

theorem name_of_name_at {tree : List API_t} {j : Nat} {e : API_t} {nm : List Char}
    (hn : name_at tree j = some nm) (he : tree[j]? = some e) : e.name = some nm := by
  simpa [name_at, he] using hn

/-- The descent on an array whose links describe `T` stops at a slot of `T`, and the link
made there, with the new record in slot `c`, describes the tree after the insertion. -/
theorem add_walk_spec (tree : List API_t) (key : Nat → List Char) (nm : List Char) (c : Nat)
    (newrec : API_t) (hnl : newrec.left = none) (hnr : newrec.right = none)
    (hc : c < tree.length) :
    ∀ (T : BT) (i fuel : Nat), Rep tree (some i) T →
      (∀ j ∈ T.inorder, name_at tree j = some (key j)) →
      T.inorder.Nodup → (∀ j ∈ T.inorder, j < c) → T.height ≤ fuel →
      ∃ p comp e, add_walk tree nm fuel i = some (p, comp) ∧ tree[p]? = some e ∧
        p ∈ T.inorder ∧
        Rep ((tree.set p (if comp > 0 then { e with left := some c }
                else { e with right := some c })).set c newrec) (some i)
          (ins key nm c T) := by
  intro T
  induction T with
  | nil => intro i fuel hr; cases hr
  | node l i r ihl ihr =>
    intro i1 fuel hr hkeys hnd hlt hfuel
    cases hr with
    | @node _ e _ _ he hl hrr =>
      cases fuel with
      | zero => simp [BT.height] at hfuel
      | succ f =>
        simp only [BT.height] at hfuel
        have hname : e.name = some (key i) :=
          name_of_name_at (hkeys i (by simp [BT.inorder])) he
        simp only [BT.inorder, List.nodup_append, List.nodup_cons, List.mem_cons,
          List.Disjoint] at hnd
        obtain ⟨hndl, ⟨hir, hndr⟩, hdis⟩ := hnd
        have hil : i ∉ l.inorder := fun h => hdis h (Or.inl rfl)
        have hic : i < c := hlt i (by simp [BT.inorder])
        have hilen : i < tree.length := (List.getElem?_eq_some.mp he).1
        by_cases hcomp : strcmp (key i) nm > 0
        · -- the new name is smaller: descend left
          cases l with
          | nil =>
            have hleft : e.left = none := hl.root_eq
            refine ⟨i, strcmp (key i) nm, e, ?_, he, by simp [BT.inorder], ?_⟩
            · simp [add_walk, he, hname, hcomp, hleft]
            · simp only [ins, if_pos hcomp]
              refine Rep.node (e := { e with left := some c }) ?_ ?_ ?_
              · rw [List.getElem?_set_ne (by omega), List.getElem?_set_eq_of_lt _ hilen]
              · refine Rep.node (e := newrec) ?_ (hnl ▸ Rep.nil) (hnr ▸ Rep.nil)
                rw [List.getElem?_set_eq_of_lt]
                simpa using hc
              · refine hrr.congr_eq ?_
                intro j hj
                have hjc : j < c := hlt j (by simp [BT.inorder, hj])
                have hji : j ≠ i := fun h => hir (h ▸ hj)
                rw [List.getElem?_set_ne (by omega), List.getElem?_set_ne (Ne.symm hji)]
          | node ll j lr =>
            have hleft : e.left = some j := hl.root_eq
            rw [hleft] at hl
            obtain ⟨p, comp, ep, hw, hep, hp, hrep⟩ :=
              ihl j f hl (fun x hx => hkeys x (by simp [BT.inorder] at hx ⊢; tauto))
                hndl (fun x hx => hlt x (by simp [BT.inorder] at hx ⊢; tauto)) (by omega)
            refine ⟨p, comp, ep, ?_, hep, by simp [BT.inorder] at hp ⊢; tauto, ?_⟩
            · simp [add_walk, he, hname, hcomp, hleft, hw]
            · simp only [ins, if_pos hcomp]
              have hpi : p ≠ i := fun h => hil (h ▸ hp)
              refine Rep.node (e := e) ?_ (hleft ▸ hrep) ?_
              · rw [List.getElem?_set_ne (by omega), List.getElem?_set_ne hpi, he]
              · refine hrr.congr_eq ?_
                intro x hx
                have hxc : x < c := hlt x (by simp [BT.inorder, hx])
                have hxp : x ≠ p := fun h => hdis hp (Or.inr (h ▸ hx))
                rw [List.getElem?_set_ne (by omega), List.getElem?_set_ne (Ne.symm hxp)]
        · -- otherwise: descend right
          cases r with
          | nil =>
            have hright : e.right = none := hrr.root_eq
            refine ⟨i, strcmp (key i) nm, e, ?_, he, by simp [BT.inorder], ?_⟩
            · simp [add_walk, he, hname, hcomp, hright]
            · simp only [ins, if_neg hcomp]
              refine Rep.node (e := { e with right := some c }) ?_ ?_ ?_
              · rw [List.getElem?_set_ne (by omega), List.getElem?_set_eq_of_lt _ hilen]
              · refine hl.congr_eq ?_
                intro j hj
                have hjc : j < c := hlt j (by simp [BT.inorder, hj])
                have hji : j ≠ i := fun h => hil (h ▸ hj)
                rw [List.getElem?_set_ne (by omega), List.getElem?_set_ne (Ne.symm hji)]
              · refine Rep.node (e := newrec) ?_ (hnl ▸ Rep.nil) (hnr ▸ Rep.nil)
                rw [List.getElem?_set_eq_of_lt]
                simpa using hc
          | node rl j rr =>
            have hright : e.right = some j := hrr.root_eq
            rw [hright] at hrr
            obtain ⟨p, comp, ep, hw, hep, hp, hrep⟩ :=
              ihr j f hrr (fun x hx => hkeys x (by simp [BT.inorder] at hx ⊢; tauto))
                hndr (fun x hx => hlt x (by simp [BT.inorder] at hx ⊢; tauto)) (by omega)
            refine ⟨p, comp, ep, ?_, hep, by simp [BT.inorder] at hp ⊢; tauto, ?_⟩
            · simp [add_walk, he, hname, hcomp, hright, hw]
            · simp only [ins, if_neg hcomp]
              have hpi : p ≠ i := fun h => hir (h ▸ hp)
              refine Rep.node (e := e) ?_ ?_ (hright ▸ hrep)
              · rw [List.getElem?_set_ne (by omega), List.getElem?_set_ne hpi, he]
              · refine hl.congr_eq ?_
                intro x hx
                have hxc : x < c := hlt x (by simp [BT.inorder, hx])
                have hxp : x ≠ p := fun h => hdis hx (Or.inr (h ▸ hp))
                rw [List.getElem?_set_ne (by omega), List.getElem?_set_ne (Ne.symm hxp)]

theorem name_at_congr {tree tree' : List API_t} {j : Nat}
    (h : (tree'[j]?).map payload = (tree[j]?).map payload) : name_at tree' j = name_at tree j := by
  unfold name_at
  cases h1 : tree'[j]? <;> cases h2 : tree[j]? <;> simp [h1, h2, payload] at h ⊢
  exact h.2.1

theorem Linked.nodup {tree : List API_t} {c : Nat} {key : Nat → List Char} {T : BT}
    (hL : Linked tree c key T) : T.inorder.Nodup :=
  hL.perm.nodup_iff.mpr (List.nodup_range c)

theorem Linked.mem_iff {tree : List API_t} {c : Nat} {key : Nat → List Char} {T : BT}
    (hL : Linked tree c key T) (j : Nat) : j ∈ T.inorder ↔ j < c := by
  rw [hL.perm.mem_iff, List.mem_range]

theorem Linked.size_eq {tree : List API_t} {c : Nat} {key : Nat → List Char} {T : BT}
    (hL : Linked tree c key T) : T.size = c := by
  rw [BT.size_eq_length_inorder, hL.perm.length_eq, List.length_range]

/-- The links and the names decide whether the first slots are linked into a tree. -/
theorem Linked.transfer {tree tree' : List API_t} {c : Nat} {key : Nat → List Char} {T : BT}
    (hL : Linked tree c key T)
    (hl : ∀ j, j < c → (tree'[j]?).map links = (tree[j]?).map links)
    (hn : ∀ j, j < c → name_at tree' j = name_at tree j) : Linked tree' c key T where
  rep := hL.rep.congr (fun j hj => hl j ((hL.mem_iff j).mp hj))
  root := hL.root
  perm := hL.perm
  keys := fun j hj => by rw [hn j hj]; exact hL.keys j hj

/-- One successful `add_interpreter_instruction`: the new record goes to slot `API_cntr`
with both links `NULL`, no other slot changes its payload, and the first slots stay
linked into a tree, now with the new slot inserted. -/
theorem add_spec (N : Nat) (tree : List API_t) (c pc : Nat) (key : Nat → List Char) (T : BT)
    (nm : List Char) (d : Option (List Char)) (f : Option Nat)
    (hlen : tree.length = N) (hc : c < N) (hL : Linked tree c key T) (hk : key c = nm) :
    ∃ tree', add_interpreter_instruction N (some nm) d f ⟨tree, c, pc⟩ = some ⟨tree', c + 1, pc⟩ ∧
      tree'.length = N ∧
      (∀ j, j ≠ c → (tree'[j]?).map payload = (tree[j]?).map payload) ∧
      tree'[c]? = some ⟨0, none, none, some nm, d, f⟩ ∧
      Linked tree' (c + 1) key (ins key nm c T) := by
  have hclen : c < tree.length := by omega
  rcases Nat.eq_zero_or_pos c with hc0 | hcpos
  · -- the first record becomes the root
    subst hc0
    have hT : T = BT.nil := by
      have := hL.perm.length_eq
      cases T with
      | nil => rfl
      | node l i r => simp [BT.inorder] at this
    subst hT
    refine ⟨tree.set 0 ⟨0, none, none, some nm, d, f⟩, ?_, by simpa using hlen, ?_, ?_, ?_⟩
    · simp [add_interpreter_instruction, Nat.not_le.mpr hc]
    · intro j hj
      rw [List.getElem?_set_ne (Ne.symm hj)]
    · rw [List.getElem?_set_eq_of_lt _ hclen]
    · have h0 : (tree.set 0 ⟨0, none, none, some nm, d, f⟩)[0]? =
          some ⟨0, none, none, some nm, d, f⟩ := List.getElem?_set_eq_of_lt _ hclen
      refine ⟨?_, fun _ => rfl, by simp [ins, BT.inorder, List.range_succ], ?_⟩
      · exact Rep.node h0 Rep.nil Rep.nil
      · intro j hj
        have : j = 0 := by omega
        subst this
        simp [name_at, h0, hk]
  · -- the record is linked below an existing one
    have hroot := hL.root hcpos
    have hrep := hL.rep
    rw [hroot] at hrep
    obtain ⟨p, comp, ep, hw, hep, hp, hrep'⟩ :=
      add_walk_spec tree key nm c ⟨0, none, none, some nm, d, f⟩ rfl rfl hclen T 0 N hrep
        (fun j hj => hL.keys j ((hL.mem_iff j).mp hj)) hL.nodup
        (fun j hj => (hL.mem_iff j).mp hj)
        (by have := BT.height_le_size T; have := hL.size_eq; omega)
    have hpc : p < c := (hL.mem_iff p).mp hp
    refine ⟨(tree.set p (if comp > 0 then { ep with left := some c }
        else { ep with right := some c })).set c ⟨0, none, none, some nm, d, f⟩, ?_, ?_, ?_, ?_, ?_⟩
    · have h1 : ¬ N ≤ c := by omega
      have h2 : c ≠ 0 := by omega
      simp [add_interpreter_instruction, h1, h2, hw, hep]
    · simpa using hlen
    · intro j hj
      rw [List.getElem?_set_ne (Ne.symm hj)]
      by_cases hjp : j = p
      · subst hjp
        rw [List.getElem?_set_eq_of_lt _ (by omega), hep]
        split_ifs <;> simp [payload]
      · rw [List.getElem?_set_ne (Ne.symm hjp)]
    · rw [List.getElem?_set_eq_of_lt]
      simpa using hclen
    · have hpay : ∀ j, j ≠ c →
          (((tree.set p (if comp > 0 then { ep with left := some c }
            else { ep with right := some c })).set c ⟨0, none, none, some nm, d, f⟩)[j]?).map payload
            = (tree[j]?).map payload := by
        intro j hj
        rw [List.getElem?_set_ne (Ne.symm hj)]
        by_cases hjp : j = p
        · subst hjp
          rw [List.getElem?_set_eq_of_lt _ (by omega), hep]
          split_ifs <;> simp [payload]
        · rw [List.getElem?_set_ne (Ne.symm hjp)]
      refine ⟨?_, fun _ => ins_root key nm c T 0 hroot, ?_, ?_⟩
      · rw [ins_root key nm c T 0 hroot]
        exact hrep'
      · refine (ins_inorder_perm key nm c T).trans ?_
        rw [List.range_succ]
        exact ((hL.perm.cons c).trans (List.perm_append_singleton c _).symm)
      · intro j hj
        by_cases hjc : j = c
        · subst hjc
          have : ((tree.set p (if comp > 0 then { ep with left := some j }
              else { ep with right := some j })).set j ⟨0, none, none, some nm, d, f⟩)[j]? =
              some ⟨0, none, none, some nm, d, f⟩ := by
            rw [List.getElem?_set_eq_of_lt]
            simpa using hclen
          simp [name_at, this, hk]
        · rw [name_at_congr (hpay j hjc)]
          exact hL.keys j (by omega)

/-! ## Registration and the relink loop -/

theorem linked_empty (tree : List API_t) (key : Nat → List Char) :
    Linked tree 0 key (ins_upto key 0) where
  rep := Rep.nil
  root := fun h => absurd h (Nat.lt_irrefl 0)
  perm := by simp [ins_upto, BT.inorder]
  keys := fun j hj => absurd hj (Nat.not_lt_zero j)

/-- Registration of a list of commands for which there is room: every command is stored
in the next slot, and the slots are linked into the tree of successive insertions. -/
theorem register_spec (N pc : Nat) (key : Nat → List Char) :
    ∀ (cmds : List Command) (tree : List API_t) (c : Nat), tree.length = N →
      c + cmds.length ≤ N → Linked tree c key (ins_upto key c) →
      (∀ idx (h : idx < cmds.length), key (c + idx) = (cmds[idx]).1) →
      ∃ tree', register N cmds ⟨tree, c, pc⟩ = some ⟨tree', c + cmds.length, pc⟩ ∧
        tree'.length = N ∧
        Linked tree' (c + cmds.length) key (ins_upto key (c + cmds.length)) ∧
        (∀ j, j < c ∨ c + cmds.length ≤ j →
          (tree'[j]?).map payload = (tree[j]?).map payload) ∧
        (∀ idx (h : idx < cmds.length), (tree'[c + idx]?).map payload =
          some (0, some (cmds[idx]).1, some (cmds[idx]).2.1, some (cmds[idx]).2.2)) := by
  intro cmds
  induction cmds with
  | nil =>
    intro tree c hlen _ hL _
    exact ⟨tree, rfl, hlen, hL, fun _ _ => rfl, fun idx h => absurd h (Nat.not_lt_zero idx)⟩
  | cons x xs ih =>
    intro tree c hlen hroom hL hkey
    simp only [List.length_cons] at hroom
    have hk0 : key c = x.1 := by simpa using hkey 0 (by simp)
    obtain ⟨tree1, hadd, hlen1, hpay1, hnew1, hL1⟩ :=
      add_spec N tree c pc key (ins_upto key c) x.1 (some x.2.1) (some x.2.2) hlen (by omega)
        hL hk0
    have hL1' : Linked tree1 (c + 1) key (ins_upto key (c + 1)) := by
      simp only [ins_upto]; rw [hk0]; exact hL1
    obtain ⟨tree', hreg, hlen', hL', hpay', hnew'⟩ :=
      ih tree1 (c + 1) hlen1 (by omega) hL1' (fun idx h => by
        have := hkey (idx + 1) (by simpa using h)
        simpa [Nat.add_assoc, Nat.add_comm 1 idx] using this)
    have hcc : c + 1 + xs.length = c + (xs.length + 1) := by omega
    refine ⟨tree', ?_, hlen', ?_, ?_, ?_⟩
    · simp only [register, hadd, Option.bind_eq_bind, Option.some_bind, List.length_cons]
      rw [hreg, hcc]
    · simp only [List.length_cons]; rw [← hcc]; exact hL'
    · intro j hj
      simp only [List.length_cons] at hj
      rw [hpay' j (by omega), hpay1 j (by omega)]
    · intro idx h
      cases idx with
      | zero =>
        rw [Nat.add_zero, hpay' c (by omega), hnew1]
        simp [payload]
      | succ k =>
        have := hnew' k (by simpa using h)
        simpa [Nat.add_assoc, Nat.add_comm 1 k] using this

/-- The relink loop of `optimise_api_tree` on an array whose slots all hold a name: it
completes, keeps the payload of every slot, and links the slots into the tree of
successive insertions in storage order. -/
theorem relink_spec (N pc : Nat) (key : Nat → List Char) :
    ∀ (todo i : Nat) (tree : List API_t), tree.length = N → i + todo = N →
      Linked tree i key (ins_upto key i) →
      (∀ j, i ≤ j → j < N → name_at tree j = some (key j)) →
      ∃ tree', relink_loop N todo i ⟨tree, i, pc⟩ = some ⟨tree', N, pc⟩ ∧
        tree'.length = N ∧ Linked tree' N key (ins_upto key N) ∧
        tree'.map payload = tree.map payload := by
  intro todo
  induction todo with
  | zero =>
    intro i tree hlen hi hL _
    have : i = N := by omega
    subst this
    exact ⟨tree, rfl, hlen, hL, rfl⟩
  | succ t ih =>
    intro i tree hlen hi hL hnames
    have hilen : i < tree.length := by omega
    obtain ⟨buffer, hbuf⟩ : ∃ b, tree[i]? = some b := ⟨tree[i], List.getElem?_eq_getElem hilen⟩
    have hbname : buffer.name = some (key i) :=
      name_of_name_at (hnames i (Nat.le_refl i) (by omega)) hbuf
    obtain ⟨tree1, hadd, hlen1, hpay1, hnew1, hL1⟩ :=
      add_spec N tree i pc key (ins_upto key i) (key i) buffer.desc buffer.func hlen (by omega)
        hL rfl
    have hset : ∀ j : Nat, ((tree1.set i
        { (⟨0, none, none, some (key i), buffer.desc, buffer.func⟩ : API_t) with
          place := buffer.place })[j]?) =
        if j = i then some ⟨buffer.place, none, none, some (key i), buffer.desc, buffer.func⟩
        else tree1[j]? := by
      intro j
      by_cases hj : j = i
      · subst hj
        rw [List.getElem?_set_eq_of_lt _ (by omega)]
        simp
      · rw [List.getElem?_set_ne (Ne.symm hj)]
        simp [hj]
    have hpay2 : ∀ j : Nat, ((tree1.set i
        { (⟨0, none, none, some (key i), buffer.desc, buffer.func⟩ : API_t) with
          place := buffer.place })[j]?).map payload = (tree[j]?).map payload := by
      intro j
      rw [hset j]
      by_cases hj : j = i
      · subst hj
        simp [hbuf, payload, hbname]
      · simp [hj, hpay1 j hj]
    have hL2 : Linked (tree1.set i
        { (⟨0, none, none, some (key i), buffer.desc, buffer.func⟩ : API_t) with
          place := buffer.place }) (i + 1) key (ins_upto key (i + 1)) := by
      refine hL1.transfer ?_ ?_
      · intro j _
        rw [hset j]
        by_cases hj : j = i
        · subst hj
          simp [hnew1, links]
        · simp [hj]
      · intro j _
        unfold name_at
        rw [hset j]
        by_cases hj : j = i
        · subst hj
          simp [hnew1]
        · simp [hj]
    obtain ⟨tree', hloop, hlen', hL', hpay'⟩ :=
      ih (i + 1) _ (by simpa using hlen1) (by omega) hL2 (fun j hj1 hj2 => by
        rw [name_at_congr (hpay2 j)]
        exact hnames j (by omega) hj2)
    refine ⟨tree', ?_, hlen', hL', ?_⟩
    · simp only [relink_loop, hbuf, hbname, hadd, hnew1, Option.bind_eq_bind, Option.some_bind]
      exact hloop
    · rw [hpay']
      apply List.ext_getElem?
      intro j
      rw [List.getElem?_map, List.getElem?_map]
      exact hpay2 j

/-! ## The indexer -/

theorem links_of_unplaced {tree tree' : List API_t} {j : Nat}
    (h : (tree'[j]?).map unplaced = (tree[j]?).map unplaced) :
    (tree'[j]?).map links = (tree[j]?).map links := by
  cases h1 : tree'[j]? <;> cases h2 : tree[j]? <;> simp [h1, h2, unplaced, links] at h ⊢
  exact ⟨h.1, h.2.1⟩

theorem name_at_of_unplaced {tree tree' : List API_t} {j : Nat}
    (h : (tree'[j]?).map unplaced = (tree[j]?).map unplaced) :
    name_at tree' j = name_at tree j := by
  unfold name_at
  cases h1 : tree'[j]? <;> cases h2 : tree[j]? <;> simp [h1, h2, unplaced] at h ⊢
  exact h.2.2.1

/-- The function `recursive_indexer` on links that describe a tree `T` without repeated
slots: it returns, writes nothing but `place` fields, and gives the `k`-th slot of the
in-order traversal the counter value `API_place_cntr + k` (as a `uint16_t`). -/
theorem indexer_spec (c : Nat) :
    ∀ (T : BT) (h : Option Nat) (fuel : Nat) (tree : List API_t) (pc : Nat),
      Rep tree h T → T.inorder.Nodup → T.height < fuel →
      ∃ tree', recursive_indexer fuel h ⟨tree, c, pc⟩ = some ⟨tree', c, pc + T.size⟩ ∧
        (∀ j : Nat, (tree'[j]?).map unplaced = (tree[j]?).map unplaced) ∧
        (∀ (k j : Nat), T.inorder[k]? = some j →
          (tree'[j]?).map (fun e => e.place) = some (to_uint16 (pc + k))) ∧
        (∀ j : Nat, j ∉ T.inorder → tree'[j]? = tree[j]?) := by
  intro T
  induction T with
  | nil =>
    intro h fuel tree pc hr _ hf
    cases hr
    cases fuel with
    | zero => omega
    | succ f => exact ⟨tree, rfl, fun _ => rfl, by simp [BT.inorder], fun _ _ => rfl⟩
  | node l i r ihl ihr =>
    intro h fuel tree pc hr hnd hf
    cases hr with
    | @node _ e _ _ he hl hrr =>
      cases fuel with
      | zero => omega
      | succ f =>
        simp only [BT.height] at hf
        simp only [BT.inorder, List.nodup_append, List.nodup_cons, List.mem_cons,
          List.Disjoint] at hnd
        obtain ⟨hndl, ⟨hir, hndr⟩, hdis⟩ := hnd
        have hil : i ∉ l.inorder := fun h => hdis h (Or.inl rfl)
        have hilen : i < tree.length := (List.getElem?_eq_some.mp he).1
        obtain ⟨tree1, hrun1, hun1, hpl1, hoth1⟩ := ihl e.left f tree pc hl hndl (by omega)
        have he1 : tree1[i]? = some e := by rw [hoth1 i hil, he]
        have hilen1 : i < tree1.length := (List.getElem?_eq_some.mp he1).1
        have hset : ∀ j : Nat,
            (tree1.set i { e with place := to_uint16 (pc + l.size) })[j]? =
              if j = i then some { e with place := to_uint16 (pc + l.size) } else tree1[j]? := by
          intro j
          by_cases hj : j = i
          · subst hj
            rw [List.getElem?_set_eq_of_lt _ hilen1]
            simp
          · rw [List.getElem?_set_ne (Ne.symm hj)]
            simp [hj]
        have hun2 : ∀ j : Nat,
            ((tree1.set i { e with place := to_uint16 (pc + l.size) })[j]?).map unplaced =
              (tree[j]?).map unplaced := by
          intro j
          rw [hset j]
          by_cases hj : j = i
          · subst hj
            simp [he, unplaced]
          · simp [hj, hun1 j]
        have hrr2 : Rep (tree1.set i { e with place := to_uint16 (pc + l.size) }) e.right r :=
          hrr.congr (fun j _ => links_of_unplaced (hun2 j))
        obtain ⟨tree3, hrun3, hun3, hpl3, hoth3⟩ :=
          ihr e.right f _ (pc + l.size + 1) hrr2 hndr (by omega)
        refine ⟨tree3, ?_, ?_, ?_, ?_⟩
        · simp only [recursive_indexer, he, hrun1, he1, Option.bind_eq_bind, Option.some_bind]
          rw [hset i]
          simp only [if_true, Option.some_bind]
          rw [hrun3]
          simp only [BT.size]
          congr 2
          omega
        · intro j
          rw [hun3 j, hun2 j]
        · intro k j hk
          simp only [BT.inorder] at hk
          rcases Nat.lt_or_ge k l.inorder.length with hkl | hkl
          · rw [List.getElem?_append_left hkl] at hk
            have hjl : j ∈ l.inorder := List.getElem?_mem hk
            have hjr : j ∉ r.inorder := fun h => hdis hjl (Or.inr h)
            have hji : j ≠ i := fun h => hil (h ▸ hjl)
            rw [hoth3 j hjr, hset j, if_neg hji]
            exact hpl1 k j hk
          · rw [List.getElem?_append_right hkl] at hk
            cases hk' : k - l.inorder.length with
            | zero =>
              rw [hk'] at hk
              simp at hk
              subst hk
              rw [hoth3 i hir, hset i]
              simp only [if_true, Option.map_some']
              congr 2
              rw [BT.size_eq_length_inorder]
              omega
            | succ m =>
              rw [hk'] at hk
              simp at hk
              rw [hpl3 m j hk]
              congr 2
              rw [BT.size_eq_length_inorder]
              omega
        · intro j hj
          simp only [BT.inorder, List.mem_append, List.mem_cons, not_or] at hj
          rw [hoth3 j hj.2.2, hset j, if_neg hj.2.1, hoth1 j hj.1]

/-! ## The median-split tree -/

theorem med_zero (lo : Nat) : med lo 0 = BT.nil := by
  rw [med]

theorem med_succ (lo n : Nat) :
    med lo (n + 1) = BT.node (med lo (n / 2)) (lo + n / 2) (med (lo + n / 2 + 1) (n - n / 2)) := by
  rw [med]

theorem med_size (n : Nat) : ∀ lo, (med lo n).size = n := by
  induction n using Nat.strong_induction_on with
  | _ n ih =>
    intro lo
    cases n with
    | zero => simp [med_zero, BT.size]
    | succ n =>
      rw [med_succ]
      simp only [BT.size]
      rw [ih (n / 2) (by omega), ih (n - n / 2) (by omega)]
      omega

theorem med_inorder (n : Nat) : ∀ lo, (med lo n).inorder = List.range' lo n := by
  induction n using Nat.strong_induction_on with
  | _ n ih =>
    intro lo
    cases n with
    | zero => simp [med_zero, BT.inorder]
    | succ n =>
      rw [med_succ]
      simp only [BT.inorder]
      rw [ih (n / 2) (by omega), ih (n - n / 2) (by omega)]
      have h : n + 1 = n - n / 2 + 1 + n / 2 := by omega
      have e := List.range'_append_1 lo (n / 2) (n - n / 2 + 1)
      rw [← h] at e
      rw [← e]
      rfl

theorem med_balanced (n : Nat) : ∀ lo, (med lo n).balanced := by
  induction n using Nat.strong_induction_on with
  | _ n ih =>
    intro lo
    cases n with
    | zero => simp [med_zero, BT.balanced]
    | succ n =>
      rw [med_succ]
      simp only [BT.balanced, med_size]
      exact ⟨by omega, ih _ (by omega) _, ih _ (by omega) _⟩

theorem med_mem_preorder (lo n x : Nat) (h : x ∈ (med lo n).preorder) : lo ≤ x ∧ x < lo + n := by
  have := (BT.preorder_perm_inorder (med lo n)).mem_iff.mp h
  rw [med_inorder] at this
  simpa [List.mem_range'_1] using this

theorem BT.length_preorder (T : BT) : T.preorder.length = T.size := by
  rw [(BT.preorder_perm_inorder T).length_eq, BT.size_eq_length_inorder]

/-! ## Swapping two slots -/

theorem swap_perm {α : Type} [DecidableEq α] (l : List α) (a b : Nat) (ha : a < l.length)
    (hb : b < l.length) : ((l.set a l[b]).set b l[a]).Perm l := by
  rw [List.perm_iff_count]
  intro x
  rw [List.count_set _ _ _ _ (by simpa using hb), List.count_set _ _ _ _ ha]
  have hca : (if l[a] = x then 1 else 0) ≤ l.count x := by
    split_ifs with h
    · exact List.count_pos_iff.mpr (h ▸ List.getElem_mem ha)
    · omega
  have hcb : (if l[b] = x then 1 else 0) ≤ l.count x := by
    split_ifs with h
    · exact List.count_pos_iff.mpr (h ▸ List.getElem_mem hb)
    · omega
  by_cases hab : a = b
  · subst hab
    simp only [List.getElem_set_self, beq_iff_eq]
    generalize (if l[a] = x then 1 else 0) = u at *
    omega
  · rw [List.getElem_set_ne hab]
    simp only [beq_iff_eq]
    generalize (if l[a] = x then 1 else 0) = u at *
    generalize (if l[b] = x then 1 else 0) = v at *
    omega

/-! ## `find_api_index_by_place` -/

theorem find_loop_spec (N : Nat) (hN : N < 65536) (tree : List API_t) (hlen : tree.length = N)
    (place : Nat) :
    ∀ (fuel i j : Nat) (e : API_t), i ≤ j → j < N → tree[j]? = some e → e.place = place →
      j < i + fuel →
      ∃ j' e', find_loop N tree place fuel i = some j' ∧ j' < N ∧ tree[j']? = some e' ∧
        e'.place = place := by
  intro fuel
  induction fuel with
  | zero => intro i j e h1 h2 _ _ h5; omega
  | succ f ih =>
    intro i j e hij hj he hp hf
    have hi : i < N := by omega
    obtain ⟨ei, hei⟩ : ∃ b, tree[i]? = some b := ⟨tree[i], List.getElem?_eq_getElem (by omega)⟩
    by_cases hpi : ei.place = place
    · exact ⟨i, ei, by simp [find_loop, hi, hei, hpi], hi, hei, hpi⟩
    · have hne : i ≠ j := by
        intro h
        subst h
        rw [hei] at he
        simp at he
        subst he
        exact hpi hp
      have hmod : to_uint16 (i + 1) = i + 1 := Nat.mod_eq_of_lt (by omega)
      obtain ⟨j', e', hfind, r⟩ := ih (i + 1) j e (by omega) hj he hp (by omega)
      exact ⟨j', e', by simp [find_loop, hi, hei, hpi, hmod, hfind], r⟩

theorem find_spec (N : Nat) (hN : N < 65536) (tree : List API_t) (hlen : tree.length = N)
    (place : Nat) (hex : place ∈ tree.map (fun e => e.place)) :
    ∃ j e, find_api_index_by_place N tree place = some j ∧ j < N ∧ tree[j]? = some e ∧
      e.place = place := by
  obtain ⟨e, hmem, hp⟩ := List.mem_map.mp hex
  obtain ⟨j, hj, hje⟩ := List.mem_iff_getElem.mp hmem
  exact find_loop_spec N hN tree hlen place (N + 1) 0 j e (Nat.zero_le j) (by omega)
    (by rw [List.getElem?_eq_getElem hj, hje]) hp (by omega)

/-- The function `swap_api_elements` when a record with the wanted place exists: it is
exchanged with the record in slot `index`. -/
theorem swap_spec (N : Nat) (hN : N < 65536) (tree : List API_t) (hlen : tree.length = N)
    (c place cn pc : Nat) (hc : c < N) (hex : place ∈ tree.map (fun e => e.place)) :
    ∃ j e ec, swap_api_elements N c place ⟨tree, cn, pc⟩ =
        some ⟨(tree.set c e).set j ec, cn, pc⟩ ∧
      j < N ∧ tree[j]? = some e ∧ e.place = place ∧ tree[c]? = some ec := by
  obtain ⟨j, e, hfind, hj, he, hp⟩ := find_spec N hN tree hlen place hex
  obtain ⟨ec, hec⟩ : ∃ b, tree[c]? = some b := ⟨tree[c], List.getElem?_eq_getElem (by omega)⟩
  exact ⟨j, e, ec, by simp [swap_api_elements, hfind, hec, he], hj, he, hp, hec⟩

/-- The function `recursive_optimiser` on the range of the `n` ranks from `lo` on, when the
places are the ranks `0 .. N-1` and none of the slots already filled holds a rank of the
range: it returns, advances `API_cntr` by `n`, permutes the records, leaves the filled
slots alone, and fills the next `n` slots in the pre-order of the median-split tree. -/
theorem optimiser_spec (N : Nat) (hN : N < 65536) (pc : Nat) :
    ∀ (fuel n lo c : Nat) (tree : List API_t), tree.length = N →
      (tree.map (fun e => e.place)).Perm (List.range N) → lo + n ≤ N → c + n ≤ N →
      (∀ (j : Nat) (e : API_t), j < c → tree[j]? = some e →
        ¬ (lo ≤ e.place ∧ e.place < lo + n)) →
      n < fuel →
      ∃ tree', recursive_optimiser N fuel (lo : Int) ((lo : Int) + (n : Int) - 1) ⟨tree, c, pc⟩
          = some ⟨tree', c + n, pc⟩ ∧
        tree'.Perm tree ∧ (∀ j : Nat, j < c → tree'[j]? = tree[j]?) ∧
        (∀ (k x : Nat), (med lo n).preorder[k]? = some x →
          (tree'[c + k]?).map (fun e => e.place) = some x) := by
  intro fuel
  induction fuel with
  | zero => intro n lo c tree _ _ _ _ _ hf; omega
  | succ f ih =>
    intro n lo c tree hlen hperm hlo hcn hdone hf
    cases n with
    | zero =>
      refine ⟨tree, ?_, List.Perm.refl _, fun _ _ => rfl, ?_⟩
      · have : (lo : Int) > (lo : Int) + ((0 : Nat) : Int) - 1 := by omega
        simp [recursive_optimiser, this]
      · intro k x hk
        simp [med_zero, BT.preorder] at hk
    | succ n' =>
      have hgt : ¬ ((lo : Int) > (lo : Int) + ((n' + 1 : Nat) : Int) - 1) := by omega
      have hmid : Int.tdiv ((lo : Int) + ((lo : Int) + ((n' + 1 : Nat) : Int) - 1)) 2
          = (lo : Int) + ((n' / 2 : Nat) : Int) := by
        rw [Int.tdiv_eq_ediv (by omega) (by omega)]
        omega
      have hmidn : (((lo : Int) + ((n' / 2 : Nat) : Int)) % 65536).toNat = lo + n' / 2 := by
        omega
      have hcu : to_uint16 c = c := Nat.mod_eq_of_lt (by omega)
      have hex : lo + n' / 2 ∈ tree.map (fun e => e.place) :=
        hperm.mem_iff.mpr (List.mem_range.mpr (by omega))
      obtain ⟨j, e, ec, hswap, hj, he, hp, hec⟩ :=
        swap_spec N hN tree hlen c (lo + n' / 2) c pc (by omega) hex
      have hcj : c ≤ j := by
        by_contra hlt
        exact hdone j e (by omega) he (by omega)
      -- the array after the exchange
      have hget1 : ∀ x : Nat, ((tree.set c e).set j ec)[x]? =
          if x = j then some ec else if x = c then some e else tree[x]? := by
        intro x
        by_cases hxj : x = j
        · subst hxj
          rw [List.getElem?_set_eq_of_lt _ (by simpa using (by omega : x < tree.length))]
          simp
        · rw [List.getElem?_set_ne (Ne.symm hxj)]
          by_cases hxc : x = c
          · subst hxc
            rw [List.getElem?_set_eq_of_lt _ (by omega)]
            simp [hxj]
          · rw [List.getElem?_set_ne (Ne.symm hxc)]
            simp [hxj, hxc]
      have hperm1 : ((tree.set c e).set j ec).Perm tree := by
        have h1 := (List.getElem?_eq_some.mp he).2
        have h2 := (List.getElem?_eq_some.mp hec).2
        rw [← h1, ← h2]
        exact swap_perm tree c j (by omega) (by omega)
      have hc1 : (((tree.set c e).set j ec)[c]?).map (fun e => e.place) = some (lo + n' / 2) := by
        rw [hget1 c]
        by_cases hcj' : c = j
        · subst hcj'
          rw [he] at hec
          simp at hec
          subst hec
          simp [hp]
        · simp [hcj', hp]
      -- the left range
      obtain ⟨tree2, hrun2, hperm2, hkeep2, hpre2⟩ :=
        ih (n' / 2) lo (c + 1) ((tree.set c e).set j ec) (by simpa using hlen)
          ((hperm1.map _).trans hperm) (by omega) (by omega)
          (fun x ex hx hex' => by
            rcases Nat.lt_or_ge x c with hxc | hxc
            · rw [hget1 x, if_neg (by omega), if_neg (by omega)] at hex'
              have := hdone x ex hxc hex'
              omega
            · have hxc' : x = c := by omega
              subst hxc'
              rw [hex'] at hc1
              simp at hc1
              omega)
          (by omega)
      -- the right range
      obtain ⟨tree3, hrun3, hperm3, hkeep3, hpre3⟩ :=
        ih (n' - n' / 2) (lo + n' / 2 + 1) (c + 1 + n' / 2) tree2
          (by rw [hperm2.length_eq]; simpa using hlen)
          ((hperm2.map _).trans ((hperm1.map _).trans hperm)) (by omega) (by omega)
          (fun x ex hx hex' => by
            rcases Nat.lt_or_ge x (c + 1) with hxc | hxc
            · rw [hkeep2 x hxc] at hex'
              rcases Nat.lt_or_ge x c with hxc2 | hxc2
              · rw [hget1 x, if_neg (by omega), if_neg (by omega)] at hex'
                have := hdone x ex hxc2 hex'
                omega
              · have hxc' : x = c := by omega
                subst hxc'
                rw [hex'] at hc1
                simp at hc1
                omega
            · obtain ⟨y, hy⟩ : ∃ y, (med lo (n' / 2)).preorder[x - (c + 1)]? = some y := by
                refine ⟨_, List.getElem?_eq_getElem ?_⟩
                rw [BT.length_preorder, med_size]
                omega
              have h1 := hpre2 (x - (c + 1)) y hy
              rw [show c + 1 + (x - (c + 1)) = x by omega, hex'] at h1
              simp at h1
              have := med_mem_preorder lo (n' / 2) y (List.getElem?_mem hy)
              omega)
          (by omega)
      have e2 : ((lo + n' / 2 + 1 : Nat) : Int) + ((n' - n' / 2 : Nat) : Int) - 1
          = (lo : Int) + ((n' + 1 : Nat) : Int) - 1 := by omega
      have e1 : ((lo + n' / 2 + 1 : Nat) : Int) = (lo : Int) + ((n' / 2 : Nat) : Int) + 1 := by
        omega
      rw [e2, e1] at hrun3
      refine ⟨tree3, ?_, hperm3.trans (hperm2.trans hperm1), ?_, ?_⟩
      · simp only [recursive_optimiser, if_neg hgt, hmid, hmidn, hcu, hswap,
          Option.bind_eq_bind, Option.some_bind, hrun2, hrun3]
        congr 2
        omega
      · intro x hx
        rw [hkeep3 x (by omega), hkeep2 x (by omega), hget1 x, if_neg (by omega),
          if_neg (by omega)]
      · intro k x hk
        rw [med_succ] at hk
        simp only [BT.preorder] at hk
        cases k with
        | zero =>
          simp at hk
          subst hk
          rw [Nat.add_zero, hkeep3 c (by omega), hkeep2 c (by omega)]
          exact hc1
        | succ k' =>
          simp only [List.getElem?_cons_succ] at hk
          rcases Nat.lt_or_ge k' (med lo (n' / 2)).preorder.length with hkl | hkl
          · rw [List.getElem?_append_left hkl] at hk
            rw [BT.length_preorder, med_size] at hkl
            rw [hkeep3 (c + (k' + 1)) (by omega)]
            have := hpre2 k' x hk
            rw [show c + 1 + k' = c + (k' + 1) by omega] at this
            exact this
          · rw [List.getElem?_append_right hkl] at hk
            rw [BT.length_preorder, med_size] at hkl hk
            have := hpre3 (k' - n' / 2) x hk
            rw [show c + 1 + n' / 2 + (k' - n' / 2) = c + (k' + 1) by omega] at this
            exact this

/-! ## Insertion keeps the search-tree order -/

theorem ins_mem (key : Nat → List Char) (nm : List Char) (k : Nat) (T : BT) (j : Nat) :
    j ∈ (ins key nm k T).inorder ↔ j = k ∨ j ∈ T.inorder := by
  rw [(ins_inorder_perm key nm k T).mem_iff, List.mem_cons]

theorem ins_bst (key : Nat → List Char) (k : Nat) (T : BT) (h : bst key T) :
    bst key (ins key (key k) k T) := by
  induction T with
  | nil => simp [ins, bst, BT.inorder]
  | node l i r ihl ihr =>
    obtain ⟨h1, h2, h3, h4⟩ := h
    simp only [ins]
    split_ifs with hc
    · refine ⟨?_, h2, ihl h3, h4⟩
      intro j hj
      rcases (ins_mem key (key k) k l j).mp hj with hj | hj
      · subst hj; exact hc
      · exact h1 j hj
    · refine ⟨h1, ?_, h3, ihr h4⟩
      intro j hj
      rcases (ins_mem key (key k) k r j).mp hj with hj | hj
      · subst hj; exact hc
      · exact h2 j hj

theorem ins_upto_bst (key : Nat → List Char) (n : Nat) : bst key (ins_upto key n) := by
  induction n with
  | zero => simp [ins_upto, bst]
  | succ n ih => exact ins_bst key n _ ih

/-- In a search tree whose slots hold pairwise different names, the in-order traversal
meets the names in strictly increasing order. -/
theorem bst_sorted (key : Nat → List Char) (T : BT) (h : bst key T) (hnd : T.inorder.Nodup)
    (hinj : ∀ a ∈ T.inorder, ∀ b ∈ T.inorder, key a = key b → a = b) :
    T.inorder.Pairwise (fun a b => strcmp (key a) (key b) < 0) := by
  induction T with
  | nil => simp [BT.inorder]
  | node l i r ihl ihr =>
    obtain ⟨h1, h2, h3, h4⟩ := h
    simp only [BT.inorder, List.nodup_append, List.nodup_cons, List.mem_cons,
      List.Disjoint] at hnd
    obtain ⟨hndl, ⟨hir, hndr⟩, hdis⟩ := hnd
    have hil : ∀ a ∈ l.inorder, strcmp (key a) (key i) < 0 := fun a ha =>
      (strcmp_pos_iff _ _).mp (h1 a ha)
    have hri : ∀ b ∈ r.inorder, strcmp (key i) (key b) < 0 := by
      intro b hb
      have hne : strcmp (key i) (key b) ≠ 0 := by
        intro h0
        have := hinj i (by simp [BT.inorder]) b (by simp [BT.inorder, hb]) (strcmp_eq_zero h0)
        exact hir (this ▸ hb)
      have := h2 b hb
      omega
    simp only [BT.inorder]
    rw [List.pairwise_append]
    refine ⟨ihl h3 hndl (fun a ha b hb => hinj a (by simp [BT.inorder, ha]) b
        (by simp [BT.inorder, hb])), ?_, ?_⟩
    · rw [List.pairwise_cons]
      exact ⟨hri, ihr h4 hndr (fun a ha b hb => hinj a (by simp [BT.inorder, ha]) b
        (by simp [BT.inorder, hb]))⟩
    · intro a ha b hb
      rcases List.mem_cons.mp hb with hb | hb
      · subst hb; exact hil a ha
      · exact strcmp_trans (hil a ha) (hri b hb)

/-! ## Inserting the pre-order of the median-split tree rebuilds it -/

theorem ins_upto_eq_ins_list (key : Nat → List Char) (n : Nat) :
    ins_upto key n = ins_list key (List.range n) BT.nil := by
  induction n with
  | zero => rfl
  | succ n ih => simp [ins_upto, ins_list, List.range_succ, List.foldl_append, ih]

theorem ins_list_node (key : Nat → List Char) (i : Nat) :
    ∀ (ks1 ks2 : List Nat) (l r : BT),
      (∀ k ∈ ks1, strcmp (key i) (key k) > 0) → (∀ k ∈ ks2, ¬ strcmp (key i) (key k) > 0) →
      ins_list key (ks1 ++ ks2) (BT.node l i r) =
        BT.node (ins_list key ks1 l) i (ins_list key ks2 r) := by
  intro ks1
  induction ks1 with
  | nil =>
    intro ks2
    induction ks2 with
    | nil => intro l r _ _; rfl
    | cons k ks ih =>
      intro l r h1 h2
      have hk := h2 k (by simp)
      have := ih l (ins key (key k) k r) h1 (fun x hx => h2 x (by simp [hx]))
      simpa [ins_list, ins, hk] using this
  | cons k ks ih =>
    intro ks2 l r h1 h2
    have hk := h1 k (by simp)
    have := ih ks2 (ins key (key k) k l) r (fun x hx => h1 x (by simp [hx])) h2
    simpa [ins_list, ins, hk] using this

/-- When the names of the slots compare as their ranks do and the slots hold the ranks in
the pre-order of the median-split tree, successive insertion links them into that tree. -/
theorem ins_list_med (key : Nat → List Char) (rk : Nat → Nat) (n : Nat) :
    ∀ (lo : Nat) (ks : List Nat), ks.map rk = (med lo n).preorder →
      (∀ a ∈ ks, ∀ b ∈ ks, strcmp (key a) (key b) > 0 ↔ rk a > rk b) →
      (ins_list key ks BT.nil).map rk = med lo n := by
  induction n using Nat.strong_induction_on with
  | _ n ih =>
    intro lo ks hks hord
    cases n with
    | zero =>
      rw [med_zero] at hks ⊢
      simp [BT.preorder] at hks
      subst hks
      rfl
    | succ n =>
      rw [med_succ] at hks ⊢
      simp only [BT.preorder] at hks
      cases ks with
      | nil => simp at hks
      | cons k0 ks' =>
        simp only [List.map_cons, List.cons.injEq] at hks
        obtain ⟨hk0, hks'⟩ := hks
        obtain ⟨ks1, ks2, hsplit, hm1, hm2⟩ := List.map_eq_append_iff.mp hks'
        subst hsplit
        have hleft : ∀ k ∈ ks1, strcmp (key k0) (key k) > 0 := by
          intro k hk
          rw [hord k0 (by simp) k (by simp [hk])]
          have : rk k ∈ (med lo (n / 2)).preorder := hm1 ▸ List.mem_map_of_mem rk hk
          have := med_mem_preorder _ _ _ this
          omega
        have hright : ∀ k ∈ ks2, ¬ strcmp (key k0) (key k) > 0 := by
          intro k hk
          rw [hord k0 (by simp) k (by simp [hk])]
          have : rk k ∈ (med (lo + n / 2 + 1) (n - n / 2)).preorder :=
            hm2 ▸ List.mem_map_of_mem rk hk
          have := med_mem_preorder _ _ _ this
          omega
        have hstep : ins_list key (k0 :: (ks1 ++ ks2)) BT.nil =
            ins_list key (ks1 ++ ks2) (BT.node BT.nil k0 BT.nil) := by
          simp [ins_list, ins]
        rw [hstep, ins_list_node key k0 ks1 ks2 _ _ hleft hright]
        simp only [BT.map, hk0]
        rw [ih (n / 2) (by omega) lo ks1 hm1
            (fun a ha b hb => hord a (by simp [ha]) b (by simp [hb])),
          ih (n - n / 2) (by omega) (lo + n / 2 + 1) ks2 hm2
            (fun a ha b hb => hord a (by simp [ha]) b (by simp [hb]))]

/-! ## The build, stage by stage -/

theorem map_eq_map_range {α β : Type} (l : List α) (g : α → β) (d : β) :
    l.map g = (List.range l.length).map (fun j => ((l[j]?).map g).getD d) := by
  apply List.ext_getElem?
  intro k
  rw [List.getElem?_map, List.getElem?_map]
  rcases Nat.lt_or_ge k l.length with hk | hk
  · rw [List.getElem?_range hk]
    simp [List.getElem?_eq_getElem hk]
  · rw [List.getElem?_eq_none hk, List.getElem?_eq_none (by simpa using hk)]
    rfl

theorem place_at_eq {tree : List API_t} {j p : Nat}
    (h : (tree[j]?).map (fun e => e.place) = some p) : place_at tree j = p := by
  simp [place_at, h]

/-- Registration of as many commands as the table has slots, followed by the indexer. -/
theorem register_index_spec (N : Nat) (hN0 : 0 < N) (hN : N < 65536) (cmds : List Command)
    (hlen : cmds.length = N) :
    ∃ tree0 tree,
      register N cmds { initial_state N with API_cntr := 0 } = some ⟨tree0, N, 0⟩ ∧
      index_apis_in_order N (some 0) ⟨tree0, N, 0⟩ = some ⟨tree, N, N⟩ ∧
      tree.length = N ∧
      Linked tree N (name_of cmds) (ins_upto (name_of cmds) N) ∧
      tree.map command_of = cmds.map some ∧
      (∀ (k j : Nat), (ins_upto (name_of cmds) N).inorder[k]? = some j → place_at tree j = k) ∧
      (tree.map (fun e => e.place)).Perm (List.range N) := by
  obtain ⟨tree0, hreg, hlen0, hL0, -, hnew0⟩ :=
    register_spec N 0 (name_of cmds) cmds (List.replicate N zero_API) 0 (by simp)
      (by omega) (linked_empty _ _) (fun idx h => by
        simp [name_of, List.getElem?_eq_getElem h])
  simp only [Nat.zero_add, hlen] at hreg hL0 hnew0
  have hrep0 := hL0.rep
  rw [hL0.root hN0] at hrep0
  obtain ⟨tree, hrun, hun, hpl, -⟩ :=
    indexer_spec N (ins_upto (name_of cmds) N) (some 0) (N + 1) tree0 0 hrep0 hL0.nodup
      (by have := BT.height_le_size (ins_upto (name_of cmds) N); have := hL0.size_eq; omega)
  rw [hL0.size_eq, Nat.zero_add] at hrun
  have hlen1 : tree.length = N := by
    have : (tree.map unplaced).length = (tree0.map unplaced).length := by
      congr 1
      apply List.ext_getElem?
      intro j
      rw [List.getElem?_map, List.getElem?_map]
      exact hun j
    simpa [hlen0] using this
  have hplace : ∀ (k j : Nat), (ins_upto (name_of cmds) N).inorder[k]? = some j →
      place_at tree j = k := by
    intro k j hk
    have hkN : k < N := by
      have := (List.getElem?_eq_some.mp hk).1
      rwa [hL0.perm.length_eq, List.length_range] at this
    have := hpl k j hk
    rw [Nat.zero_add, show to_uint16 k = k from Nat.mod_eq_of_lt (by omega)] at this
    exact place_at_eq this
  refine ⟨tree0, tree, hreg, hrun, hlen1, ?_, ?_, hplace, ?_⟩
  · exact hL0.transfer (fun j _ => links_of_unplaced (hun j))
      (fun j _ => name_at_of_unplaced (hun j))
  · apply List.ext_getElem?
    intro j
    rw [List.getElem?_map, List.getElem?_map]
    rcases Nat.lt_or_ge j N with hj | hj
    · have h1 := hnew0 j (by omega)
      have h2 := hun j
      have hj' : j < cmds.length := by omega
      rw [List.getElem?_eq_getElem hj']
      cases ht : tree[j]? with
      | none =>
        rw [List.getElem?_eq_none_iff] at ht
        omega
      | some e =>
        cases ht0 : tree0[j]? with
        | none =>
          rw [List.getElem?_eq_none_iff] at ht0
          omega
        | some e0 =>
          rw [ht, ht0] at h2
          rw [ht0] at h1
          simp [unplaced] at h2
          simp [payload] at h1
          simp [command_of, h2, h1]
    · rw [List.getElem?_eq_none (by omega), List.getElem?_eq_none (by omega)]
      rfl
  · have h1 : tree.map (fun e => e.place) =
        (List.range N).map (place_at tree) := by
      rw [map_eq_map_range tree (fun e => e.place) 0, hlen1]
      rfl
    have h2 : (ins_upto (name_of cmds) N).inorder.map (place_at tree) = List.range N := by
      apply List.ext_getElem?
      intro k
      rw [List.getElem?_map]
      rcases Nat.lt_or_ge k N with hk | hk
      · have hk' : k < (ins_upto (name_of cmds) N).inorder.length := by
          rw [hL0.perm.length_eq, List.length_range]; exact hk
        rw [List.getElem?_eq_getElem hk', List.getElem?_range hk]
        simp only [Option.map_some', Option.some.injEq]
        exact hplace k _ (List.getElem?_eq_getElem hk')
      · rw [List.getElem?_eq_none (by rw [hL0.perm.length_eq, List.length_range]; exact hk),
          List.getElem?_eq_none (by simpa using hk)]
        rfl
    rw [h1]
    exact ((hL0.perm.map (place_at tree)).symm.trans (by rw [h2]))

theorem slot_of_mem {tree : List API_t} {e : API_t} (h : e ∈ tree) :
    ∃ a, a < tree.length ∧ tree[a]? = some e := by
  obtain ⟨a, ha, hae⟩ := List.mem_iff_getElem.mp h
  exact ⟨a, ha, by rw [List.getElem?_eq_getElem ha, hae]⟩

/-- After the indexer the places order the records as their names are ordered. -/
theorem ranked_of_sorted (tree : List API_t) (N : Nat) (key : Nat → List Char) (T : BT)
    (hlen : tree.length = N) (hperm : T.inorder.Perm (List.range N))
    (hkeys : ∀ j, j < N → name_at tree j = some (key j))
    (hsorted : T.inorder.Pairwise (fun a b => strcmp (key a) (key b) < 0))
    (hplace : ∀ (k j : Nat), T.inorder[k]? = some j → place_at tree j = k) : ranked tree := by
  have hlt : ∀ (ka kb a b : Nat), T.inorder[ka]? = some a → T.inorder[kb]? = some b →
      ka < kb → strcmp (key a) (key b) < 0 := by
    intro ka kb a b ha hb hk
    obtain ⟨h1, h1'⟩ := List.getElem?_eq_some.mp ha
    obtain ⟨h2, h2'⟩ := List.getElem?_eq_some.mp hb
    have := List.pairwise_iff_getElem.mp hsorted ka kb h1 h2 hk
    rwa [h1', h2'] at this
  have hslot : ∀ a b, a < N → b < N →
      (strcmp (key a) (key b) > 0 ↔ place_at tree a > place_at tree b) := by
    intro a b ha hb
    obtain ⟨ka, hka⟩ := List.getElem?_of_mem (hperm.mem_iff.mpr (List.mem_range.mpr ha))
    obtain ⟨kb, hkb⟩ := List.getElem?_of_mem (hperm.mem_iff.mpr (List.mem_range.mpr hb))
    rw [hplace ka a hka, hplace kb b hkb]
    constructor
    · intro hgt
      by_contra hle
      rcases Nat.lt_or_ge ka kb with h | h
      · have := hlt ka kb a b hka hkb h
        omega
      · have hk : ka = kb := by omega
        subst hk
        rw [hka] at hkb
        simp at hkb
        subst hkb
        rw [strcmp_self] at hgt
        omega
    · intro hgt
      exact (strcmp_pos_iff _ _).mpr (hlt kb ka b a hkb hka hgt)
  intro e1 h1 e2 h2 n1 n2 hn1 hn2
  obtain ⟨a, ha, hae⟩ := slot_of_mem h1
  obtain ⟨b, hb, hbe⟩ := slot_of_mem h2
  have hka := name_of_name_at (hkeys a (by omega)) hae
  have hkb := name_of_name_at (hkeys b (by omega)) hbe
  rw [hn1] at hka
  rw [hn2] at hkb
  simp at hka hkb
  have := hslot a b (by omega) (by omega)
  simp only [place_at, hae, hbe, Option.map_some', Option.getD_some] at this
  rw [hka, hkb]
  exact this

theorem ranked_congr {tree tree' : List API_t}
    (h : ∀ p, p ∈ tree'.map payload → p ∈ tree.map payload) (hr : ranked tree) :
    ranked tree' := by
  intro e1 h1 e2 h2 n1 n2 hn1 hn2
  obtain ⟨d1, hd1, hp1⟩ := List.mem_map.mp (h _ (List.mem_map_of_mem payload h1))
  obtain ⟨d2, hd2, hp2⟩ := List.mem_map.mp (h _ (List.mem_map_of_mem payload h2))
  simp only [payload, Prod.mk.injEq] at hp1 hp2
  have := hr d1 hd1 d2 hd2 n1 n2 (by rw [hp1.2.1, hn1]) (by rw [hp2.2.1, hn2])
  rw [hp1.1, hp2.1] at this
  exact this

theorem command_of_eq_payload (e : API_t) :
    command_of e = (fun p : Nat × Option (List Char) × Option (List Char) × Option Nat =>
      p.2.1.bind (fun n => p.2.2.1.bind (fun d => p.2.2.2.bind (fun f => some (n, d, f)))))
      (payload e) := rfl

theorem map_command_of (tree : List API_t) :
    tree.map command_of = (tree.map payload).map
      (fun p : Nat × Option (List Char) × Option (List Char) × Option Nat =>
      p.2.1.bind (fun n => p.2.2.1.bind (fun d => p.2.2.2.bind (fun f => some (n, d, f))))) := by
  rw [List.map_map]
  rfl

theorem map_place_eq (tree : List API_t) :
    tree.map (fun e => e.place) = (tree.map payload).map (fun p => p.1) := by
  rw [List.map_map]
  rfl

theorem key_of_spec {tree : List API_t} {j : Nat} {n : List Char}
    (h : name_at tree j = some n) : key_of tree j = n := by
  simp [key_of, h]

/-- The function `optimise_api_tree` on a full array whose places are the ranks
`0 .. N-1` and whose records all have a name: it completes with `API_cntr = N`, permutes
the payloads, stores the ranks in the pre-order of the median-split tree, and links the
slots into the tree of successive insertions in storage order. -/
theorem optimise_spec (N : Nat) (hN : N < 65536) (tree : List API_t)
    (cn pc : Nat) (hlen : tree.length = N)
    (hperm : (tree.map (fun e => e.place)).Perm (List.range N))
    (hnames : ∀ e ∈ tree, ∃ n, e.name = some n) :
    ∃ tree', optimise_api_tree N ⟨tree, cn, pc⟩ = some ⟨tree', N, pc⟩ ∧
      tree'.length = N ∧
      Linked tree' N (key_of tree') (ins_upto (key_of tree') N) ∧
      (tree'.map payload).Perm (tree.map payload) ∧
      tree'.map (fun e => e.place) = (med 0 N).preorder := by
  obtain ⟨tree2, hrun2, hperm2, -, hpre2⟩ :=
    optimiser_spec N hN pc (N + 1) N 0 0 tree hlen hperm (by omega) (by omega)
      (fun j e hj _ => absurd hj (Nat.not_lt_zero j)) (by omega)
  simp only [Nat.cast_zero, zero_add] at hrun2 hpre2
  have hlen2 : tree2.length = N := by rw [hperm2.length_eq, hlen]
  have hnames2 : ∀ j, 0 ≤ j → j < N → name_at tree2 j = some (key_of tree2 j) := by
    intro j _ hj
    have hj' : j < tree2.length := by omega
    obtain ⟨n, hn⟩ := hnames _ (hperm2.mem_iff.mp (List.getElem_mem hj'))
    have : name_at tree2 j = some n := by
      simp [name_at, List.getElem?_eq_getElem hj', hn]
    rw [this, key_of_spec this]
  obtain ⟨tree3, hrun3, hlen3, hL3, hpay3⟩ :=
    relink_spec N pc (key_of tree2) N 0 tree2 hlen2 (by omega) (linked_empty _ _) hnames2
  have hkey : key_of tree3 = key_of tree2 := by
    funext j
    unfold key_of
    have : (tree3[j]?).map payload = (tree2[j]?).map payload := by
      rw [← List.getElem?_map, ← List.getElem?_map, hpay3]
    rw [name_at_congr this]
  refine ⟨tree3, ?_, hlen3, ?_, ?_, ?_⟩
  · simp only [optimise_api_tree, hrun2, Option.bind_eq_bind, Option.some_bind]
    exact hrun3
  · rw [hkey]; exact hL3
  · rw [hpay3]; exact hperm2.map payload
  · rw [map_place_eq, hpay3, ← map_place_eq]
    apply List.ext_getElem?
    intro k
    rw [List.getElem?_map]
    rcases Nat.lt_or_ge k N with hk | hk
    · have hk' : k < (med 0 N).preorder.length := by
        rw [BT.length_preorder, med_size]; exact hk
      have := hpre2 k _ (List.getElem?_eq_getElem hk')
      rw [this, List.getElem?_eq_getElem hk']
    · rw [List.getElem?_eq_none (by omega), List.getElem?_eq_none
        (by rw [BT.length_preorder, med_size]; exact hk)]
      rfl

theorem name_of_inj (cmds : List Command) (hnd : (cmds.map (fun c => c.1)).Nodup)
    (a b : Nat) (ha : a < cmds.length) (hb : b < cmds.length)
    (h : name_of cmds a = name_of cmds b) : a = b := by
  simp only [name_of, List.getElem?_eq_getElem ha, List.getElem?_eq_getElem hb,
    Option.map_some', Option.getD_some] at h
  have ha' : a < (cmds.map (fun c => c.1)).length := by simpa using ha
  have hb' : b < (cmds.map (fun c => c.1)).length := by simpa using hb
  have h' : (cmds.map (fun c => c.1))[a] = (cmds.map (fun c => c.1))[b] := by
    simpa using h
  exact (hnd.getElem_inj_iff).mp h'

/-- The build on as many commands as the table has slots completes, with both counters at
`N`, in a state described by `Built`. -/
theorem build_spec (N : Nat) (hN0 : 0 < N) (hN : N < 65536) (cmds : List Command)
    (hlen : cmds.length = N) :
    ∃ tree, build N cmds = some ⟨tree, N, N⟩ ∧ Built N cmds tree := by
  obtain ⟨tree0, tree1, hreg, hidx, hlen1, hL1, hcmd1, hplace1, hperm1⟩ :=
    register_index_spec N hN0 hN cmds hlen
  have hnames1 : ∀ e ∈ tree1, ∃ n, e.name = some n := by
    intro e he
    have : command_of e ∈ cmds.map some := hcmd1 ▸ List.mem_map_of_mem command_of he
    obtain ⟨c, -, hc⟩ := List.mem_map.mp this
    cases hn : e.name with
    | none => simp [command_of, hn] at hc
    | some n => exact ⟨n, rfl⟩
  obtain ⟨tree, hopt, hlen3, hL3, hpay3, hpl3⟩ :=
    optimise_spec N hN tree1 N N hlen1 hperm1 hnames1
  refine ⟨tree, ?_, hlen3, hL3, ?_, hpl3, ?_⟩
  · simp only [build, hreg, hidx, Option.bind_eq_bind, Option.some_bind]
    exact hopt
  · rw [map_command_of, ← hcmd1, map_command_of]
    exact hpay3.map _
  · intro hnd
    refine ranked_congr (fun p hp => hpay3.mem_iff.mp hp) ?_
    refine ranked_of_sorted tree1 N (name_of cmds) _ hlen1 hL1.perm hL1.keys ?_ hplace1
    refine bst_sorted _ _ (ins_upto_bst _ _) hL1.nodup ?_
    intro a ha b hb hab
    exact name_of_inj cmds hnd a b (by rw [hlen]; exact (hL1.mem_iff a).mp ha)
      (by rw [hlen]; exact (hL1.mem_iff b).mp hb) hab

/-! ## Consequences for a built table -/

theorem Built.slot_name {N : Nat} {cmds : List Command} {tree : List API_t}
    (hB : Built N cmds tree) (j : Nat) (hj : j < N) :
    name_at tree j = some (key_of tree j) := hB.linked.keys j hj

theorem Built.slot_command {N : Nat} {cmds : List Command} {tree : List API_t}
    (hB : Built N cmds tree) (j : Nat) (hj : j < N) :
    ∃ c ∈ cmds, command_at tree j = some c ∧ key_of tree j = c.1 := by
  have hj' : j < tree.length := by rw [hB.len]; exact hj
  have : command_of tree[j] ∈ cmds.map some :=
    hB.cmds_perm.mem_iff.mp (List.mem_map_of_mem command_of (List.getElem_mem hj'))
  obtain ⟨c, hc, hcc⟩ := List.mem_map.mp this
  refine ⟨c, hc, by simp [command_at, List.getElem?_eq_getElem hj', ← hcc], ?_⟩
  have hn : tree[j].name = some c.1 := by
    cases hn : tree[j].name with
    | none => simp [command_of, hn] at hcc
    | some n =>
      cases hd : tree[j].desc with
      | none => simp [command_of, hn, hd] at hcc
      | some d =>
        cases hf : tree[j].func with
        | none => simp [command_of, hn, hd, hf] at hcc
        | some f =>
          simp [command_of, hn, hd, hf] at hcc
          rw [hcc]
  apply key_of_spec
  simp [name_at, List.getElem?_eq_getElem hj', hn]

theorem Built.names_perm {N : Nat} {cmds : List Command} {tree : List API_t}
    (hB : Built N cmds tree) :
    ((List.range N).map (key_of tree)).Perm (cmds.map (fun c => c.1)) := by
  have h1 : (List.range N).map (key_of tree) =
      (tree.map command_of).map (fun o => ((o.map (fun c : Command => c.1)).getD [])) := by
    apply List.ext_getElem?
    intro j
    simp only [List.getElem?_map]
    rcases Nat.lt_or_ge j N with hj | hj
    · obtain ⟨c, -, hc, hk⟩ := hB.slot_command j hj
      rw [List.getElem?_range hj]
      simp only [command_at] at hc
      have hj' : j < tree.length := by rw [hB.len]; exact hj
      rw [List.getElem?_eq_getElem hj'] at hc ⊢
      simp only [Option.some_bind] at hc
      simp [hc, hk]
    · rw [List.getElem?_eq_none (by simpa using hj),
        List.getElem?_eq_none (by rw [hB.len]; exact hj)]
      rfl
  have h2 : cmds.map (fun c => c.1) =
      (cmds.map some).map (fun o => ((o.map (fun c : Command => c.1)).getD [])) := by
    rw [List.map_map]
    rfl
  rw [h1, h2]
  exact hB.cmds_perm.map _

theorem Built.key_inj {N : Nat} {cmds : List Command} {tree : List API_t}
    (hB : Built N cmds tree) (hnd : (cmds.map (fun c => c.1)).Nodup) (a b : Nat)
    (ha : a < N) (hb : b < N) (h : key_of tree a = key_of tree b) : a = b := by
  have hnd' : ((List.range N).map (key_of tree)).Nodup := hB.names_perm.nodup_iff.mpr hnd
  have ha' : a < ((List.range N).map (key_of tree)).length := by simpa using ha
  have hb' : b < ((List.range N).map (key_of tree)).length := by simpa using hb
  have : ((List.range N).map (key_of tree))[a] = ((List.range N).map (key_of tree))[b] := by
    simpa using h
  exact (hnd'.getElem_inj_iff).mp this

/-- In a built table the in-order traversal meets the names in strictly increasing
order. -/
theorem Built.sorted {N : Nat} {cmds : List Command} {tree : List API_t}
    (hB : Built N cmds tree) (hnd : (cmds.map (fun c => c.1)).Nodup) :
    (ins_upto (key_of tree) N).inorder.Pairwise
      (fun a b => strcmp (key_of tree a) (key_of tree b) < 0) :=
  bst_sorted _ _ (ins_upto_bst _ _) hB.linked.nodup (fun a ha b hb hab =>
    hB.key_inj hnd a b ((hB.linked.mem_iff a).mp ha) ((hB.linked.mem_iff b).mp hb) hab)

/-- In a built table the tree of the links, with every slot replaced by its place, is the
median-split tree of the ranks. -/
theorem Built.med {N : Nat} {cmds : List Command} {tree : List API_t}
    (hB : Built N cmds tree) (hnd : (cmds.map (fun c => c.1)).Nodup) :
    (ins_upto (key_of tree) N).map (place_at tree) = med 0 N := by
  rw [ins_upto_eq_ins_list]
  apply ins_list_med
  · rw [← hB.places, map_eq_map_range tree (fun e => e.place) 0, hB.len]
    rfl
  · intro a ha b hb
    have ha' : a < tree.length := by rw [hB.len]; exact List.mem_range.mp ha
    have hb' : b < tree.length := by rw [hB.len]; exact List.mem_range.mp hb
    have hna := name_of_name_at (hB.slot_name a (List.mem_range.mp ha))
      (List.getElem?_eq_getElem ha')
    have hnb := name_of_name_at (hB.slot_name b (List.mem_range.mp hb))
      (List.getElem?_eq_getElem hb')
    have := hB.ranked hnd _ (List.getElem_mem ha') _ (List.getElem_mem hb') _ _ hna hnb
    simpa [place_at, List.getElem?_eq_getElem ha', List.getElem?_eq_getElem hb'] using this

theorem Built.tree_of {N : Nat} {cmds : List Command} {tree : List API_t}
    (hB : Built N cmds tree) (hN0 : 0 < N) :
    tree_of tree (N + 1) (some 0) = some (ins_upto (key_of tree) N) := by
  have hrep := hB.linked.rep
  rw [hB.linked.root hN0] at hrep
  exact tree_of_of_rep hrep (N + 1)
    (by have := BT.height_le_size (ins_upto (key_of tree) N); have := hB.linked.size_eq; omega)

/-! ## The search of `execute` -/

/-- The search on links that describe a tree whose slots all hold a name, with any
library `strncmp` and whichever way it turns: it stops at a slot of the tree, with the
8-bit result of the comparison made there. -/
theorem search_spec (strncmp : Strncmp) (tree : List API_t) (key : Nat → List Char)
    (cmd : List Char) :
    ∀ (T : BT) (i fuel : Nat), Rep tree (some i) T →
      (∀ j ∈ T.inorder, name_at tree j = some (key j)) → T.height ≤ fuel →
      ∃ p, search strncmp tree cmd fuel i =
          some (p, to_int8 (strncmp (key p) cmd (strlen (key p)))) ∧
        p ∈ T.inorder := by
  intro T
  induction T with
  | nil => intro i fuel hr; cases hr
  | node l i r ihl ihr =>
    intro i1 fuel hr hkeys hfuel
    cases hr with
    | @node _ e _ _ he hl hrr =>
      cases fuel with
      | zero => simp [BT.height] at hfuel
      | succ f =>
        simp only [BT.height] at hfuel
        have hname : e.name = some (key i) :=
          name_of_name_at (hkeys i (by simp [BT.inorder])) he
        by_cases hcomp : to_int8 (strncmp (key i) cmd (strlen (key i))) > 0
        · cases l with
          | nil =>
            have hleft : e.left = none := hl.root_eq
            exact ⟨i, by simp [search, he, hname, hcomp, hleft], by simp [BT.inorder]⟩
          | node ll j lr =>
            have hleft : e.left = some j := hl.root_eq
            rw [hleft] at hl
            obtain ⟨p, hs, hp⟩ := ihl j f hl
              (fun x hx => hkeys x (by simp [BT.inorder] at hx ⊢; tauto)) (by omega)
            have hne : to_int8 (strncmp (key i) cmd (strlen (key i))) ≠ 0 := by omega
            exact ⟨p, by simp [search, he, hname, hcomp, hleft, hne, hs],
              by simp [BT.inorder] at hp ⊢; tauto⟩
        · cases r with
          | nil =>
            have hright : e.right = none := hrr.root_eq
            exact ⟨i, by simp [search, he, hname, hcomp, hright], by simp [BT.inorder]⟩
          | node rl j rr =>
            have hright : e.right = some j := hrr.root_eq
            rw [hright] at hrr
            by_cases hz : to_int8 (strncmp (key i) cmd (strlen (key i))) = 0
            · exact ⟨i, by simp [search, he, hname, hright, hz], by simp [BT.inorder]⟩
            · obtain ⟨p, hs, hp⟩ := ihr j f hrr
                (fun x hx => hkeys x (by simp [BT.inorder] at hx ⊢; tauto)) (by omega)
              exact ⟨p, by simp [search, he, hname, hcomp, hright, hz, hs],
                by simp [BT.inorder] at hp ⊢; tauto⟩

/-- The search for the name of a slot of a search tree arrives at that slot when no name
in the tree is a proper beginning of the name searched for, the library conforms on the
comparisons with the names of the tree, and their results are values of `int8_t`. -/
theorem search_found (strncmp : Strncmp) (tree : List API_t) (key : Nat → List Char)
    (k : Nat) :
    ∀ (T : BT) (i fuel : Nat), Rep tree (some i) T →
      (∀ j ∈ T.inorder, name_at tree j = some (key j)) → T.height ≤ fuel →
      bst key T → k ∈ T.inorder →
      (∀ j ∈ T.inorder, key j = key k → j = k) →
      (∀ j ∈ T.inorder, key j <+: key k → key j = key k) →
      (∀ j ∈ T.inorder, conforms strncmp (key j) (key k) ∧
        fits_int8 strncmp (key j) (key k)) →
      search strncmp tree (key k) fuel i = some (k, 0) := by
  intro T
  induction T with
  | nil => intro i fuel hr; cases hr
  | node l i r ihl ihr =>
    intro i1 fuel hr hkeys hfuel hbst hk hinj hpre hlib
    cases hr with
    | @node _ e _ _ he hl hrr =>
      cases fuel with
      | zero => simp [BT.height] at hfuel
      | succ f =>
        simp only [BT.height] at hfuel
        obtain ⟨hb1, hb2, hb3, hb4⟩ := hbst
        have hmemL : ∀ x, x ∈ l.inorder → x ∈ (BT.node l i r).inorder :=
          fun x hx => by simp [BT.inorder, hx]
        have hmemR : ∀ x, x ∈ r.inorder → x ∈ (BT.node l i r).inorder :=
          fun x hx => by simp [BT.inorder, hx]
        have hname : e.name = some (key i) :=
          name_of_name_at (hkeys i (by simp [BT.inorder])) he
        obtain ⟨hci, hfi⟩ := hlib i (by simp [BT.inorder])
        by_cases hp : key i <+: key k
        · -- the name at this node is the name searched for
          have hik : i = k := hinj i (by simp [BT.inorder]) (hpre i (by simp [BT.inorder]) hp)
          have hz : to_int8 (strncmp (key i) (key k) (strlen (key i))) = 0 :=
            (comp_res_eq_zero_iff hci).mpr hp
          subst hik
          cases hright : e.right <;>
            simp [search, he, hname, hz, hright]
        · have hne : to_int8 (strncmp (key i) (key k) (strlen (key i))) ≠ 0 :=
            fun h0 => hp ((comp_res_eq_zero_iff hci).mp h0)
          have hdir := comp_res_pos_iff hci hfi hp
          have hik : k ≠ i := by
            intro h
            apply hp
            rw [h]
          simp only [BT.inorder, List.mem_append, List.mem_cons] at hk
          by_cases hcomp : strcmp (key i) (key k) > 0
          · have hcomp8 := hdir.mpr hcomp
            have hkl : k ∈ l.inorder := by
              rcases hk with h | h | h
              · exact h
              · exact absurd h hik
              · exact absurd hcomp (hb2 k h)
            cases l with
            | nil => simp [BT.inorder] at hkl
            | node ll j lr =>
              have hleft : e.left = some j := hl.root_eq
              rw [hleft] at hl
              have := ihl j f hl
                (fun x hx => hkeys x (hmemL x hx)) (by omega) hb3 hkl
                (fun x hx => hinj x (hmemL x hx))
                (fun x hx => hpre x (hmemL x hx))
                (fun x hx => hlib x (hmemL x hx))
              simp [search, he, hname, hcomp8, hleft, hne, this]
          · have hcomp8 : ¬ to_int8 (strncmp (key i) (key k) (strlen (key i))) > 0 :=
              fun h => hcomp (hdir.mp h)
            have hkr : k ∈ r.inorder := by
              rcases hk with h | h | h
              · exact absurd (hb1 k h) hcomp
              · exact absurd h hik
              · exact h
            cases r with
            | nil => simp [BT.inorder] at hkr
            | node rl j rr =>
              have hright : e.right = some j := hrr.root_eq
              rw [hright] at hrr
              have := ihr j f hrr
                (fun x hx => hkeys x (hmemR x hx)) (by omega) hb4 hkr
                (fun x hx => hinj x (hmemR x hx))
                (fun x hx => hpre x (hmemR x hx))
                (fun x hx => hlib x (hmemR x hx))
              simp [search, he, hname, hcomp8, hright, hne, this]

/-! ## The tokeniser of `execute` -/

theorem cmd_name_len_append (tok rest : List Char) (h0 : '\x00' ∉ tok) (hs : ' ' ∉ tok)
    (hr : ∀ c ∈ rest.head?, c = '\x00' ∨ c = ' ') :
    cmd_name_len (tok ++ rest) = tok.length := by
  induction tok with
  | nil =>
    cases rest with
    | nil => rfl
    | cons c cs =>
      rcases hr c (by simp) with h | h <;> simp [cmd_name_len, h]
  | cons c cs ih =>
    simp only [List.mem_cons, not_or] at h0 hs
    have h1 : c ≠ '\x00' := fun h => h0.1 h.symm
    have h2 : c ≠ ' ' := fun h => hs.1 h.symm
    simp [cmd_name_len, h1, h2, ih h0.2 hs.2]

theorem takeWhile_no_nul (t : List Char) (h0 : '\x00' ∉ t) :
    t.takeWhile (fun c => c ≠ '\x00') = t := by
  rw [List.takeWhile_eq_self_iff]
  intro c hc
  simp only [ne_eq, decide_not, Bool.not_eq_eq_eq_not, Bool.not_true, decide_eq_false_iff_not]
  intro h
  exact h0 (h ▸ hc)

theorem takeWhile_nul_append (tok t : List Char) (h0 : '\x00' ∉ tok) :
    (tok ++ '\x00' :: t).takeWhile (fun c => c ≠ '\x00') = tok := by
  induction tok with
  | nil => simp
  | cons c cs ih =>
    simp only [List.mem_cons, not_or] at h0
    have h1 : c ≠ '\x00' := fun h => h0.1 h.symm
    have := ih h0.2
    simp only [List.cons_append, List.takeWhile, h1, ne_eq, not_false_eq_true, decide_True]
    exact congrArg (List.cons c) this

/-- A line without a space: the buffer is not changed, the token is the line and the
argument text is empty. -/
theorem tokenise_plain (tok : List Char) (h0 : '\x00' ∉ tok) (hs : ' ' ∉ tok) :
    tokenise tok = (tok, tok.length) ∧ c_str tok 0 = tok ∧ c_str tok tok.length = [] := by
  have hlen : cmd_name_len tok = tok.length := by
    simpa using cmd_name_len_append tok [] h0 hs (by simp)
  refine ⟨?_, ?_, ?_⟩
  · simp [tokenise, hlen]
  · simpa [c_str] using takeWhile_no_nul tok h0
  · simp [c_str]

/-- A line with a token, one space and a text: the space is overwritten by the
terminator, the token is what stands before it and the argument text what stands after. -/
theorem tokenise_args (tok t : List Char) (h0 : '\x00' ∉ tok) (hs : ' ' ∉ tok)
    (ht : '\x00' ∉ t) :
    tokenise (tok ++ ' ' :: t) = (tok ++ '\x00' :: t, tok.length + 1) ∧
      c_str (tok ++ '\x00' :: t) 0 = tok ∧
      c_str (tok ++ '\x00' :: t) (tok.length + 1) = t := by
  have hlen : cmd_name_len (tok ++ ' ' :: t) = tok.length :=
    cmd_name_len_append tok (' ' :: t) h0 hs (by simp)
  refine ⟨?_, ?_, ?_⟩
  · have hget : (tok ++ ' ' :: t)[tok.length]? = some ' ' := by
      rw [List.getElem?_append_right (Nat.le_refl _)]
      simp
    simp [tokenise, hlen, List.getD_eq_getElem?_getD, hget]
  · simpa [c_str] using takeWhile_nul_append tok t h0
  · have : (tok ++ '\x00' :: t).drop (tok.length + 1) = t := by
      rw [List.drop_append_eq_append_drop]
      simp
    simp only [c_str, this]
    exact takeWhile_no_nul t ht

/-! ## Building twice -/

theorem eq_of_unplaced_of_place {e e' : API_t} (h1 : unplaced e = unplaced e')
    (h2 : e.place = e'.place) : e = e' := by
  cases e; cases e'
  simp [unplaced] at h1 h2 ⊢
  exact ⟨h2, h1⟩

theorem eq_of_payload_of_links {e e' : API_t} (h1 : payload e = payload e')
    (h2 : links e = links e') : e = e' := by
  cases e; cases e'
  simp [payload, links] at h1 h2 ⊢
  exact ⟨h1.1, h2.1, h2.2, h1.2⟩

theorem eq_of_perm_of_map_nodup {α β : Type} (f : α → β) (l1 l2 : List α) (hp : l1.Perm l2)
    (hm : l1.map f = l2.map f) (hnd : (l2.map f).Nodup) : l1 = l2 := by
  apply List.ext_getElem hp.length_eq
  intro k h1 h2
  obtain ⟨j, hj, hje⟩ := List.mem_iff_getElem.mp (hp.mem_iff.mp (List.getElem_mem h1))
  have hk1 : k < (l1.map f).length := by simpa using h1
  have hk2 : k < (l2.map f).length := by simpa using h2
  have hj2 : j < (l2.map f).length := by simpa using hj
  have e1 : (l1.map f)[k] = f l1[k] := by simp
  have e2 : (l2.map f)[j] = f l2[j] := by simp
  have e3 : (l1.map f)[k] = (l2.map f)[k] := by
    simp only [hm]
  have : (l2.map f)[j] = (l2.map f)[k] := by
    rw [e2, hje, ← e1, e3]
  have hjk : j = k := (hnd.getElem_inj_iff).mp this
  subst hjk
  exact hje.symm

theorem med_preorder_nodup (lo n : Nat) : (med lo n).preorder.Nodup := by
  rw [(BT.preorder_perm_inorder _).nodup_iff, med_inorder]
  exact List.nodup_range' lo n

/-- A second build of a built table changes nothing. -/
theorem rebuild_spec (N : Nat) (hN0 : 0 < N) (hN : N < 65536) (cmds : List Command)
    (tree : List API_t) (hB : Built N cmds tree) (hnd : (cmds.map (fun c => c.1)).Nodup) :
    rebuild N ⟨tree, N, N⟩ = some ⟨tree, N, N⟩ := by
  have hL := hB.linked
  have hrep := hL.rep
  rw [hL.root hN0] at hrep
  -- the indexer writes the places that are already there
  obtain ⟨tree1, hrun1, hun1, hpl1, -⟩ :=
    indexer_spec N (ins_upto (key_of tree) N) (some 0) (N + 1) tree 0 hrep hL.nodup
      (by have := BT.height_le_size (ins_upto (key_of tree) N); have := hL.size_eq; omega)
  rw [hL.size_eq, Nat.zero_add] at hrun1
  have hmed := hB.med hnd
  have hin : (ins_upto (key_of tree) N).inorder.map (place_at tree) = List.range' 0 N := by
    rw [← BT.inorder_map, hmed, med_inorder]
  have h1 : tree1 = tree := by
    apply List.ext_getElem?
    intro j
    have hu := hun1 j
    rcases Nat.lt_or_ge j N with hj | hj
    · obtain ⟨k, hk⟩ := List.getElem?_of_mem ((hL.mem_iff j).mpr hj)
      have hkN : k < N := by
        have := (List.getElem?_eq_some.mp hk).1
        rwa [hL.perm.length_eq, List.length_range] at this
      have hp1 := hpl1 k j hk
      rw [Nat.zero_add, show to_uint16 k = k from Nat.mod_eq_of_lt (by omega)] at hp1
      have hp0 : place_at tree j = k := by
        have := congrArg (fun l => l[k]?) hin
        simp only [List.getElem?_map, hk, Option.map_some'] at this
        rw [List.getElem?_range' _ _ hkN] at this
        simpa using this
      have hj' : j < tree.length := by rw [hB.len]; exact hj
      rw [List.getElem?_eq_getElem hj'] at hu ⊢
      cases ht : tree1[j]? with
      | none => rw [ht] at hu; simp at hu
      | some e1 =>
        rw [ht] at hu hp1
        simp only [Option.map_some', Option.some.injEq] at hu hp1
        simp only [place_at, List.getElem?_eq_getElem hj', Option.map_some',
          Option.getD_some] at hp0
        rw [eq_of_unplaced_of_place hu (by rw [hp1, hp0])]
    · have hlen1 : tree1.length = tree.length := by
        have : (tree1.map unplaced).length = (tree.map unplaced).length := by
          congr 1
          apply List.ext_getElem?
          intro x
          rw [List.getElem?_map, List.getElem?_map]
          exact hun1 x
        simpa using this
      rw [List.getElem?_eq_none (by rw [hlen1, hB.len]; exact hj),
        List.getElem?_eq_none (by rw [hB.len]; exact hj)]
  subst h1
  -- the optimiser finds every record in its slot, and the relink makes the same links
  have hplaces : (tree1.map (fun e => e.place)).Perm (List.range N) := by
    rw [hB.places]
    refine (BT.preorder_perm_inorder _).trans ?_
    rw [med_inorder, List.range_eq_range']
  have hnames : ∀ e ∈ tree1, ∃ n, e.name = some n := by
    intro e he
    obtain ⟨a, ha, hae⟩ := slot_of_mem he
    exact ⟨_, name_of_name_at (hB.slot_name a (by rw [← hB.len]; exact ha)) hae⟩
  obtain ⟨tree2, hopt, hlen2, hL2, hpay2, hpl2⟩ :=
    optimise_spec N hN tree1 N N hB.len hplaces hnames
  have hpayeq : tree2.map payload = tree1.map payload := by
    refine eq_of_perm_of_map_nodup (fun p => p.1) _ _ hpay2 ?_ ?_
    · rw [← map_place_eq, ← map_place_eq, hpl2, hB.places]
    · rw [← map_place_eq, hB.places]
      exact med_preorder_nodup 0 N
  have hpay : ∀ j : Nat, (tree2[j]?).map payload = (tree1[j]?).map payload := by
    intro j
    rw [← List.getElem?_map, ← List.getElem?_map, hpayeq]
  have hkey : key_of tree2 = key_of tree1 := by
    funext j
    unfold key_of
    rw [name_at_congr (hpay j)]
  rw [hkey] at hL2
  have hrep2 := hL2.rep
  rw [hL.root hN0] at hrep2
  have h2 : tree2 = tree1 := by
    apply List.ext_getElem?
    intro j
    rcases Nat.lt_or_ge j N with hj | hj
    · have hl := hrep.links_unique hrep2 j ((hL.mem_iff j).mpr hj)
      have hp := hpay j
      have hj1 : j < tree1.length := by rw [hB.len]; exact hj
      have hj2 : j < tree2.length := by rw [hlen2]; exact hj
      rw [List.getElem?_eq_getElem hj1, List.getElem?_eq_getElem hj2] at hl hp ⊢
      simp only [Option.map_some', Option.some.injEq] at hl hp
      rw [eq_of_payload_of_links hp hl]
    · rw [List.getElem?_eq_none (by rw [hlen2]; exact hj),
        List.getElem?_eq_none (by rw [hB.len]; exact hj)]
  subst h2
  simp only [rebuild, index_apis_in_order, hrun1, Option.bind_eq_bind, Option.some_bind]
  exact hopt

/-! ## Printing, dispatching and counting on a built table -/

/-- The function `print_apis_in_order` on links that describe a tree whose slots all hold
a name: it prints the slots in in-order, each with its place and its name. -/
theorem print_spec (tree : List API_t) :
    ∀ (T : BT) (h : Option Nat) (fuel : Nat), Rep tree h T →
      (∀ j ∈ T.inorder, name_at tree j = some (key_of tree j)) → T.height < fuel →
      print_apis_in_order tree fuel h =
        some (T.inorder.map (fun j => (place_at tree j, key_of tree j))) := by
  intro T
  induction T with
  | nil =>
    intro h fuel hr _ hf
    cases hr
    cases fuel with
    | zero => omega
    | succ f => rfl
  | node l i r ihl ihr =>
    intro h fuel hr hkeys hf
    cases hr with
    | @node _ e _ _ he hl hrr =>
      cases fuel with
      | zero => omega
      | succ f =>
        simp only [BT.height] at hf
        have hname : e.name = some (key_of tree i) :=
          name_of_name_at (hkeys i (by simp [BT.inorder])) he
        have h1 := ihl e.left f hl (fun x hx => hkeys x (by simp [BT.inorder, hx])) (by omega)
        have h2 := ihr e.right f hrr (fun x hx => hkeys x (by simp [BT.inorder, hx])) (by omega)
        simp [print_apis_in_order, he, h1, h2, hname, BT.inorder, place_at]

theorem line_split (line : List Char) :
    ' ' ∉ command_token line ∧
      (line = command_token line ∨ ∃ rest, line = command_token line ++ ' ' :: rest) := by
  unfold command_token
  induction line with
  | nil => simp
  | cons c cs ih =>
    by_cases hc : c = ' '
    · subst hc
      simp
    · have hc' : ¬ ' ' = c := fun h => hc h.symm
      obtain ⟨h1, h2⟩ := ih
      simp only [List.takeWhile, ne_eq, hc, not_false_eq_true, decide_True, List.mem_cons,
        hc', false_or, List.cons_append, List.cons.injEq, true_and]
      exact ⟨h1, h2⟩

theorem Built.func_at {N : Nat} {cmds : List Command} {tree : List API_t}
    (hB : Built N cmds tree) (j : Nat) (hj : j < N) :
    ∃ e c, tree[j]? = some e ∧ c ∈ cmds ∧ command_of e = some c ∧ e.func = some c.2.2 := by
  obtain ⟨c, hc, hcc, -⟩ := hB.slot_command j hj
  have hj' : j < tree.length := by rw [hB.len]; exact hj
  simp only [command_at, List.getElem?_eq_getElem hj', Option.some_bind] at hcc
  refine ⟨tree[j], c, List.getElem?_eq_getElem hj', hc, hcc, ?_⟩
  cases hn : tree[j].name with
  | none => simp [command_of, hn] at hcc
  | some n =>
    cases hd : tree[j].desc with
    | none => simp [command_of, hn, hd] at hcc
    | some d =>
      cases hf : tree[j].func with
      | none => simp [command_of, hn, hd, hf] at hcc
      | some f =>
        simp [command_of, hn, hd, hf] at hcc
        rw [← hcc]

/-- On a built table `execute` completes for every buffer, with any library `strncmp`: it
stops at the record of one registered command, and it calls the handler of that command
when the 8-bit result of the comparison with its name is zero, and reports the text at
`cmd` as not found otherwise. -/
theorem execute_stops {N : Nat} {cmds : List Command} {tree : List API_t}
    (hB : Built N cmds tree) (hN0 : 0 < N) (strncmp : Strncmp) (cn pc : Nat)
    (buf : List Char) :
    ∃ c ∈ cmds, execute strncmp N ⟨tree, cn, pc⟩ buf =
      some (⟨tree, cn, pc⟩, (tokenise buf).1,
        if to_int8 (strncmp c.1 (c_str (tokenise buf).1 0) (strlen c.1)) = 0 then
          Outcome.invoked c.2.2 (c_str (tokenise buf).1 (tokenise buf).2)
        else Outcome.not_found (c_str (tokenise buf).1 0)) := by
  have hL := hB.linked
  have hrep := hL.rep
  rw [hL.root hN0] at hrep
  obtain ⟨p, hs, hp⟩ := search_spec strncmp tree (key_of tree) (c_str (tokenise buf).1 0)
    _ 0 N hrep (fun j hj => hL.keys j ((hL.mem_iff j).mp hj))
    (by have := BT.height_le_size (ins_upto (key_of tree) N); have := hL.size_eq; omega)
  have hpN : p < N := (hL.mem_iff p).mp hp
  obtain ⟨e, c, he, hc, hcc, hf⟩ := hB.func_at p hpN
  obtain ⟨c', -, hcc', hk⟩ := hB.slot_command p hpN
  have hcc'' : c' = c := by
    simp only [command_at, he, Option.some_bind] at hcc'
    rw [hcc] at hcc'
    exact (Option.some.inj hcc').symm
  subst hcc''
  refine ⟨c', hc, ?_⟩
  rw [← hk]
  by_cases hz : to_int8 (strncmp (key_of tree p) (c_str (tokenise buf).1 0)
      (strlen (key_of tree p))) = 0
  · simp [execute, hs, hz, he, hf]
  · simp [execute, hs, hz]

/-- On a built table, with a library that conforms on the comparisons of the registered
names with the text at `cmd`, `execute` calls the handler of a command whose name begins
that text, or it reports that text as not found. -/
theorem execute_built {N : Nat} {cmds : List Command} {tree : List API_t}
    (hB : Built N cmds tree) (hN0 : 0 < N) (strncmp : Strncmp) (cn pc : Nat)
    (buf : List Char)
    (hlib : ∀ c ∈ cmds, conforms strncmp c.1 (c_str (tokenise buf).1 0)) :
    (∃ c ∈ cmds, c.1 <+: c_str (tokenise buf).1 0 ∧
      execute strncmp N ⟨tree, cn, pc⟩ buf = some (⟨tree, cn, pc⟩, (tokenise buf).1,
        Outcome.invoked c.2.2 (c_str (tokenise buf).1 (tokenise buf).2))) ∨
    ((∃ c ∈ cmds, ¬ c.1 <+: c_str (tokenise buf).1 0) ∧
      execute strncmp N ⟨tree, cn, pc⟩ buf = some (⟨tree, cn, pc⟩, (tokenise buf).1,
        Outcome.not_found (c_str (tokenise buf).1 0))) := by
  obtain ⟨c, hc, hex⟩ := execute_stops hB hN0 strncmp cn pc buf
  have hz := comp_res_eq_zero_iff (hlib c hc)
  by_cases hp : c.1 <+: c_str (tokenise buf).1 0
  · left
    rw [if_pos (hz.mpr hp)] at hex
    exact ⟨c, hc, hp, hex⟩
  · right
    rw [if_neg (fun h => hp (hz.mp h))] at hex
    exact ⟨⟨c, hc, hp⟩, hex⟩

/-- In a built table the place of a slot is the number of registered names that are
smaller than its name. -/
theorem Built.place_count {N : Nat} {cmds : List Command} {tree : List API_t}
    (hB : Built N cmds tree) (hnd : (cmds.map (fun c => c.1)).Nodup) (j : Nat) (hj : j < N) :
    place_at tree j = cmds.countP (fun c => strcmp c.1 (key_of tree j) < 0) := by
  have hL := hB.linked
  have hsorted := hB.sorted hnd
  have hin : (ins_upto (key_of tree) N).inorder.map (place_at tree) = List.range' 0 N := by
    rw [← BT.inorder_map, hB.med hnd, med_inorder]
  obtain ⟨k, hk⟩ := List.getElem?_of_mem ((hL.mem_iff j).mpr hj)
  obtain ⟨hklen, hkj⟩ := List.getElem?_eq_some.mp hk
  have hkN : k < N := by rwa [hL.perm.length_eq, List.length_range] at hklen
  have hp0 : place_at tree j = k := by
    have := congrArg (fun l => l[k]?) hin
    simp only [List.getElem?_map, hk, Option.map_some'] at this
    rw [List.getElem?_range' _ _ hkN] at this
    simpa using this
  have hcount : cmds.countP (fun c => strcmp c.1 (key_of tree j) < 0) =
      (ins_upto (key_of tree) N).inorder.countP
        (fun a => strcmp (key_of tree a) (key_of tree j) < 0) := by
    have h1 : cmds.countP (fun c => strcmp c.1 (key_of tree j) < 0) =
        (cmds.map (fun c => c.1)).countP (fun n => strcmp n (key_of tree j) < 0) := by
      rw [List.countP_map]; rfl
    have h2 : (ins_upto (key_of tree) N).inorder.countP
        (fun a => strcmp (key_of tree a) (key_of tree j) < 0) =
        ((ins_upto (key_of tree) N).inorder.map (key_of tree)).countP
          (fun n => strcmp n (key_of tree j) < 0) := by
      rw [List.countP_map]; rfl
    rw [h1, h2]
    exact ((hL.perm.map (key_of tree)).trans hB.names_perm).symm.countP_eq _
  rw [hp0, hcount]
  have hsplit : (ins_upto (key_of tree) N).inorder =
      (ins_upto (key_of tree) N).inorder.take k ++
        j :: (ins_upto (key_of tree) N).inorder.drop (k + 1) := by
    rw [← hkj, ← List.drop_eq_getElem_cons hklen, List.take_append_drop]
  rw [hsplit] at hsorted
  rw [List.pairwise_append] at hsorted
  obtain ⟨-, h2, h3⟩ := hsorted
  rw [List.pairwise_cons] at h2
  have hlen : ((ins_upto (key_of tree) N).inorder.take k).length = k := by
    rw [List.length_take]; omega
  rw [hsplit, List.countP_append, List.countP_cons]
  have e1 : ((ins_upto (key_of tree) N).inorder.take k).countP
      (fun a => strcmp (key_of tree a) (key_of tree j) < 0) = k := by
    rw [List.countP_eq_length.mpr, hlen]
    intro a ha
    simpa using h3 a ha j (by simp)
  have e2 : ((ins_upto (key_of tree) N).inorder.drop (k + 1)).countP
      (fun a => strcmp (key_of tree a) (key_of tree j) < 0) = 0 := by
    rw [List.countP_eq_zero]
    intro a ha
    have := h2.1 a ha
    rw [strcmp_swap (key_of tree j) (key_of tree a)]
    simp only [decide_eq_true_eq]
    omega
  rw [e1, e2, strcmp_self]
  simp

/-! ## The claims -/

theorem visited_of_perm {α : Type} (L : List (Option α)) (cmds : List α)
    (h : L.Perm (cmds.map some)) : ∃ visited : List α, L = visited.map some ∧ visited.Perm cmds := by
  refine ⟨L.filterMap id, ?_, ?_⟩
  · have hall : ∀ o ∈ L, ∃ c, o = some c := by
      intro o ho
      obtain ⟨c, -, hc⟩ := List.mem_map.mp (h.mem_iff.mp ho)
      exact ⟨c, hc.symm⟩
    clear h
    induction L with
    | nil => rfl
    | cons o os ih =>
      obtain ⟨c, hc⟩ := hall o (by simp)
      subst hc
      simp only [List.filterMap_cons, id_eq, List.map_cons, List.cons.injEq, true_and]
      exact ih (fun x hx => hall x (by simp [hx]))
  · have := h.filterMap id
    simpa [List.filterMap_map] using this

/-- C1, as stated, fails when fewer commands are registered than the table has slots:
with `NUM_OF_API_FUNCS = 8`, the value in `interpreter.h`, the build of the four distinct
commands of `init_interpreter` does not complete (the relink loop reads the name of an
empty slot through a `NULL` pointer), so no traversal of a built tree exists. -/
theorem C1_counterexample :
    example_commands ≠ [] ∧ (example_commands.map (fun c => c.1)).Nodup ∧
      example_commands.length ≤ 8 ∧ build 8 example_commands = none := by
  decide

/-- C1, amended: for `N = NUM_OF_API_FUNCS` commands with pairwise different names
(`1 ≤ N < 2^16`), the build completes, and the in-order traversal from `API_tree[0]`
along `left` and `right` visits exactly the registered commands, each once, with names
in strictly increasing `strcmp` order; `print_apis_in_order` prints these names in this
order. -/
theorem C1_inorder_sorted (N : Nat) (cmds : List Command) (hN0 : 0 < N) (hN : N < 65536)
    (hlen : cmds.length = N) (hnd : (cmds.map (fun c => c.1)).Nodup) :
    ∃ (s : State) (T : BT) (visited : List Command) (printed : List (Nat × List Char)), build N cmds = some s ∧
      tree_of s.API_tree (N + 1) (some 0) = some T ∧
      T.inorder.map (command_at s.API_tree) = visited.map some ∧
      visited.Perm cmds ∧
      (visited.map (fun c => c.1)).Pairwise (fun a b => strcmp a b < 0) ∧
      print_apis_in_order s.API_tree (N + 1) (some 0) = some printed ∧
      printed.map (fun p => p.2) = visited.map (fun c => c.1) := by
  obtain ⟨tree, hbuild, hB⟩ := build_spec N hN0 hN cmds hlen
  have hL := hB.linked
  have hrep := hL.rep
  rw [hL.root hN0] at hrep
  have hperm : ((ins_upto (key_of tree) N).inorder.map (command_at tree)).Perm
      (cmds.map some) := by
    refine (hL.perm.map _).trans ?_
    have : (List.range N).map (command_at tree) = tree.map command_of := by
      rw [map_eq_map_range tree command_of none, hB.len]
      apply List.map_congr_left
      intro j _
      cases h : tree[j]? <;> simp [command_at, h]
    rw [this]
    exact hB.cmds_perm
  obtain ⟨visited, hvis, hvperm⟩ := visited_of_perm _ _ hperm
  have hnames : visited.map (fun c => c.1) =
      (ins_upto (key_of tree) N).inorder.map (key_of tree) := by
    have h1 : visited.map (fun c => c.1) = (visited.map some).map
        (fun o => ((o.map (fun c : Command => c.1)).getD [])) := by
      rw [List.map_map]; rfl
    rw [h1, ← hvis, List.map_map]
    apply List.map_congr_left
    intro j hj
    obtain ⟨c, -, hc, hk⟩ := hB.slot_command j ((hL.mem_iff j).mp hj)
    simp [hc, hk]
  refine ⟨⟨tree, N, N⟩, ins_upto (key_of tree) N, visited,
    (ins_upto (key_of tree) N).inorder.map (fun j => (place_at tree j, key_of tree j)),
    hbuild, hB.tree_of hN0, hvis, hvperm, ?_, ?_, ?_⟩
  · rw [hnames, List.pairwise_map]
    exact hB.sorted hnd
  · exact print_spec tree _ (some 0) (N + 1) hrep
      (fun j hj => hL.keys j ((hL.mem_iff j).mp hj))
      (by have := BT.height_le_size (ins_upto (key_of tree) N); have := hL.size_eq; omega)
  · rw [hnames, List.map_map]
    rfl

/-- C1, amended, at the four commands of `init_interpreter` with `NUM_OF_API_FUNCS = 4`. -/
theorem C1_inorder_sorted_witness :
    (0 < 4 ∧ 4 < 65536 ∧ example_commands.length = 4 ∧
      (example_commands.map (fun c => c.1)).Nodup) ∧
    ∃ (s : State) (T : BT) (visited : List Command) (printed : List (Nat × List Char)), build 4 example_commands = some s ∧
      tree_of s.API_tree (4 + 1) (some 0) = some T ∧
      T.inorder.map (command_at s.API_tree) = visited.map some ∧
      visited.Perm example_commands ∧
      (visited.map (fun c => c.1)).Pairwise (fun a b => strcmp a b < 0) ∧
      print_apis_in_order s.API_tree (4 + 1) (some 0) = some printed ∧
      printed.map (fun p => p.2) = visited.map (fun c => c.1) :=
  ⟨by decide, C1_inorder_sorted 4 example_commands (by decide) (by decide) (by decide)
    (by decide)⟩

/-- C2: for every build of a table filled with exactly `NUM_OF_API_FUNCS = N` commands of
pairwise different names (`1 ≤ N < 2^16`, the range of the `uint16_t` slot indices), the
tree rooted at `API_tree[0]` contains every slot, and at every node the numbers of records
in the left and in the right subtree differ by at most one. -/
theorem C2_balanced (N : Nat) (cmds : List Command) (hN0 : 0 < N) (hN : N < 65536)
    (hlen : cmds.length = N) (hnd : (cmds.map (fun c => c.1)).Nodup) :
    ∃ s T, build N cmds = some s ∧ tree_of s.API_tree (N + 1) (some 0) = some T ∧
      T.inorder.Perm (List.range N) ∧ T.balanced := by
  obtain ⟨tree, hbuild, hB⟩ := build_spec N hN0 hN cmds hlen
  refine ⟨⟨tree, N, N⟩, ins_upto (key_of tree) N, hbuild, hB.tree_of hN0, hB.linked.perm, ?_⟩
  rw [← BT.balanced_map (place_at tree), hB.med hnd]
  exact med_balanced N 0

/-- C2 at the four commands of `init_interpreter` with `NUM_OF_API_FUNCS = 4`. -/
theorem C2_balanced_witness :
    (0 < 4 ∧ 4 < 65536 ∧ example_commands.length = 4 ∧
      (example_commands.map (fun c => c.1)).Nodup) ∧
    ∃ s T, build 4 example_commands = some s ∧
      tree_of s.API_tree (4 + 1) (some 0) = some T ∧
      T.inorder.Perm (List.range 4) ∧ T.balanced :=
  ⟨by decide, C2_balanced 4 example_commands (by decide) (by decide) (by decide) (by decide)⟩

theorem Built.slot_of_command {N : Nat} {cmds : List Command} {tree : List API_t}
    (hB : Built N cmds tree) (c : Command) (hc : c ∈ cmds) :
    ∃ k e, k < N ∧ tree[k]? = some e ∧ key_of tree k = c.1 ∧ e.func = some c.2.2 := by
  have : some c ∈ tree.map command_of :=
    hB.cmds_perm.mem_iff.mpr (List.mem_map_of_mem some hc)
  obtain ⟨e, he, hec⟩ := List.mem_map.mp this
  obtain ⟨k, hk, hke⟩ := slot_of_mem he
  have hkN : k < N := by rw [← hB.len]; exact hk
  obtain ⟨e', c', he', -, hcc', hf'⟩ := hB.func_at k hkN
  obtain ⟨c'', -, hcc'', hkey⟩ := hB.slot_command k hkN
  rw [hke] at he'
  simp only [Option.some.injEq] at he'
  subst he'
  rw [hec] at hcc'
  simp only [Option.some.injEq] at hcc'
  subst hcc'
  simp only [command_at, hke, Option.some_bind, hec, Option.some.injEq] at hcc''
  subst hcc''
  exact ⟨k, e, hkN, hke, hkey, hf'⟩

/-- The library that returns the difference of the bytes conforms on strings of 7-bit
characters, and its results are values of `int8_t`. -/
theorem diff_conforms (a : List Char) :
    ∀ (b : List Char) (n : Nat), (∀ c ∈ a, 0 < c.toNat ∧ c.toNat < 128) →
      (∀ c ∈ b, 0 < c.toNat ∧ c.toNat < 128) →
      (strncmp_diff a b n > 0 ↔ strncmp_sign a b n > 0) ∧
      (strncmp_diff a b n < 0 ↔ strncmp_sign a b n < 0) ∧
      -127 ≤ strncmp_diff a b n ∧ strncmp_diff a b n ≤ 127 := by
  induction a with
  | nil =>
    intro b n _ hb
    cases n with
    | zero => simp [strncmp_diff, strncmp_sign]
    | succ m =>
      cases b with
      | nil => simp [strncmp_diff, strncmp_sign]
      | cons y ys =>
        have := hb y (by simp)
        simp only [strncmp_diff, strncmp_sign]
        omega
  | cons x xs ih =>
    intro b n ha hb
    have hx := ha x (by simp)
    cases n with
    | zero => simp [strncmp_diff, strncmp_sign]
    | succ m =>
      cases b with
      | nil =>
        simp only [strncmp_diff, strncmp_sign]
        omega
      | cons y ys =>
        have hy := hb y (by simp)
        simp only [strncmp_diff, strncmp_sign]
        by_cases hxy : x = y
        · subst hxy
          simp only [if_true, Nat.lt_irrefl, if_false]
          exact ih ys m (fun c hc => ha c (by simp [hc])) (fun c hc => hb c (by simp [hc]))
        · have hne : x.toNat ≠ y.toNat := fun h => hxy (char_toNat_inj h)
          rw [if_neg hxy]
          split_ifs <;> omega

/-- The dispatch of a registered name of which no other registered name is a beginning,
on a built table, with a library that conforms on the comparisons of the registered names
with that name and whose results there are values of `int8_t`. -/
theorem dispatch_spec {N : Nat} {cmds : List Command} {tree : List API_t}
    (hB : Built N cmds tree) (hN0 : 0 < N) (hnd : (cmds.map (fun c => c.1)).Nodup)
    (strncmp : Strncmp)
    (X d : List Char) (f : Nat) (hX : (X, d, f) ∈ cmds) (h0 : '\x00' ∉ X) (hs : ' ' ∉ X)
    (hpre : ∀ c ∈ cmds, c.1 <+: X → c.1 = X)
    (hlib : ∀ c ∈ cmds, conforms strncmp c.1 X ∧ fits_int8 strncmp c.1 X) (cn pc : Nat) :
    execute strncmp N ⟨tree, cn, pc⟩ X = some (⟨tree, cn, pc⟩, X, Outcome.invoked f []) ∧
      ∀ t, '\x00' ∉ t → execute strncmp N ⟨tree, cn, pc⟩ (X ++ ' ' :: t) =
        some (⟨tree, cn, pc⟩, X ++ '\x00' :: t, Outcome.invoked f t) := by
  have hL := hB.linked
  have hrep := hL.rep
  rw [hL.root hN0] at hrep
  obtain ⟨k, e, hk, hke, hkey, hf⟩ := hB.slot_of_command (X, d, f) hX
  simp only at hkey hf
  have hfound := search_found strncmp tree (key_of tree) k (ins_upto (key_of tree) N) 0 N
    hrep (fun j hj => hL.keys j ((hL.mem_iff j).mp hj))
    (by have := BT.height_le_size (ins_upto (key_of tree) N); have := hL.size_eq; omega)
    (ins_upto_bst _ _) ((hL.mem_iff k).mpr hk)
    (fun j hj h => hB.key_inj hnd j k ((hL.mem_iff j).mp hj) hk h)
    (fun j hj h => by
      obtain ⟨c, hc, -, hkc⟩ := hB.slot_command j ((hL.mem_iff j).mp hj)
      rw [hkey] at h ⊢
      rw [hkc] at h ⊢
      exact hpre c hc h)
    (fun j hj => by
      obtain ⟨c, hc, -, hkc⟩ := hB.slot_command j ((hL.mem_iff j).mp hj)
      rw [hkey, hkc]
      exact hlib c hc)
  rw [hkey] at hfound
  refine ⟨?_, ?_⟩
  · obtain ⟨h1, h2, h3⟩ := tokenise_plain X h0 hs
    simp [execute, h1, h2, h3, hfound, hke, hf]
  · intro t ht
    obtain ⟨h1, h2, h3⟩ := tokenise_args X t h0 hs ht
    simp [execute, h1, h2, h3, hfound, hke, hf]

/-- C3, as stated, fails when a registered name is the beginning of another one: after
the build of the commands `a` (handler 1) and `ab` (handler 2), `execute` on the line
`ab` calls handler 1, the handler of `a`, with a library that returns the sign and with
one that returns the difference of the bytes. -/
theorem C3_counterexample :
    (("ab".toList, "second".toList, 2) : Command) ∈ nested_commands ∧
      (nested_commands.map (fun c => c.1)).Nodup ∧
      (build 2 nested_commands).bind
        (fun s => (execute strncmp_sign 2 s "ab".toList).map (fun r => r.2.2)) =
          some (Outcome.invoked 1 []) ∧
      (build 2 nested_commands).bind
        (fun s => (execute strncmp_diff 2 s "ab".toList).map (fun r => r.2.2)) =
          some (Outcome.invoked 1 []) := by
  decide

/-- C3, amended: after the build of `N = NUM_OF_API_FUNCS` commands with pairwise
different names (`1 ≤ N < 2^16`), for every registered name `X` that contains no space and
of which no other registered name is a beginning, and for every library `strncmp` that
conforms on the comparisons of the registered names with `X` (the result has the sign that
the standard fixes and is at most a byte difference) and whose results there are values of
`int8_t`, `execute` on the line `X` calls the handler registered for `X` with an empty
argument text, and on the line `X`, one space, `t` it calls that handler with the argument
text `t`; the table is not changed, and the buffer has the space overwritten by the
terminator. The condition on the library holds for every comparison of the library that
returns the sign, and for every comparison of strings of 7-bit characters of the library
that returns the difference of the bytes. -/
theorem C3_dispatch (strncmp : Strncmp) (N : Nat) (cmds : List Command) (hN0 : 0 < N)
    (hN : N < 65536)
    (hlen : cmds.length = N) (hnd : (cmds.map (fun c => c.1)).Nodup)
    (X d : List Char) (f : Nat) (hX : (X, d, f) ∈ cmds) (h0 : '\x00' ∉ X) (hs : ' ' ∉ X)
    (hpre : ∀ c ∈ cmds, c.1 <+: X → c.1 = X)
    (hlib : ∀ c ∈ cmds, conforms strncmp c.1 X ∧ fits_int8 strncmp c.1 X) :
    (∃ s, build N cmds = some s ∧
      execute strncmp N s X = some (s, X, Outcome.invoked f []) ∧
      ∀ t, '\x00' ∉ t →
        execute strncmp N s (X ++ ' ' :: t) =
          some (s, X ++ '\x00' :: t, Outcome.invoked f t)) ∧
    (∀ a b : List Char, conforms strncmp_sign a b ∧ fits_int8 strncmp_sign a b) ∧
    (∀ a b : List Char, (∀ c ∈ a, 0 < c.toNat ∧ c.toNat < 128) →
      (∀ c ∈ b, 0 < c.toNat ∧ c.toNat < 128) →
      conforms strncmp_diff a b ∧ fits_int8 strncmp_diff a b) := by
  obtain ⟨tree, hbuild, hB⟩ := build_spec N hN0 hN cmds hlen
  obtain ⟨h1, h2⟩ := dispatch_spec hB hN0 hnd strncmp X d f hX h0 hs hpre hlib N N
  refine ⟨⟨⟨tree, N, N⟩, hbuild, h1, h2⟩, conforms_sign, ?_⟩
  intro a b ha hb
  obtain ⟨p1, p2, p3, p4⟩ := diff_conforms a b (strlen a) ha hb
  exact ⟨⟨p1, p2, by omega, by omega⟩, by omega, by omega⟩

/-- C3, amended, at the command `left` of `init_interpreter` with `NUM_OF_API_FUNCS = 4`
and the library that returns the difference of the bytes. -/
theorem C3_dispatch_witness :
    (0 < 4 ∧ 4 < 65536 ∧ example_commands.length = 4 ∧
      (example_commands.map (fun c => c.1)).Nodup ∧
      ("left".toList, "command used to turn left".toList, 3) ∈ example_commands ∧
      '\x00' ∉ "left".toList ∧ ' ' ∉ "left".toList ∧
      (∀ c ∈ example_commands, c.1 <+: "left".toList → c.1 = "left".toList) ∧
      ∀ c ∈ example_commands, conforms strncmp_diff c.1 "left".toList ∧
        fits_int8 strncmp_diff c.1 "left".toList) ∧
    ∃ s, build 4 example_commands = some s ∧
      execute strncmp_diff 4 s "left".toList = some (s, "left".toList, Outcome.invoked 3 []) ∧
      ∀ t, '\x00' ∉ t →
        execute strncmp_diff 4 s ("left".toList ++ ' ' :: t) =
          some (s, "left".toList ++ '\x00' :: t, Outcome.invoked 3 t) :=
  ⟨by decide, (C3_dispatch strncmp_diff 4 example_commands (by decide) (by decide)
    (by decide) (by decide)
    "left".toList "command used to turn left".toList 3 (by decide) (by decide) (by decide)
    (by decide) (by decide)).1⟩

/-- C4, as stated, fails for a token that begins with a registered name: after the build
of the four commands of `init_interpreter` the token `starter` equals no registered name,
and `execute` calls handler 2, the handler of `start`, instead of reporting not-found,
with a library that returns the sign and with one that returns the difference of the
bytes. -/
theorem C4_counterexample :
    command_token "starter".toList ∉ example_commands.map (fun c => c.1) ∧
      (build 4 example_commands).bind
        (fun s => (execute strncmp_sign 4 s "starter".toList).map (fun r => r.2.2)) =
          some (Outcome.invoked 2 []) ∧
      (build 4 example_commands).bind
        (fun s => (execute strncmp_diff 4 s "starter".toList).map (fun r => r.2.2)) =
          some (Outcome.invoked 2 []) := by
  decide

/-- C4, amended: after the build of `N = NUM_OF_API_FUNCS` commands (`1 ≤ N < 2^16`), for
every line of which no registered name is a beginning of the command token, and for every
library `strncmp` that conforms on the comparisons of the registered names with the token
(the result has the sign that the standard fixes and is at most a byte difference),
`execute` calls no handler and reports not-found, and the report names exactly the command
token; the table is not changed. -/
theorem C4_not_found (strncmp : Strncmp) (N : Nat) (cmds : List Command) (hN0 : 0 < N)
    (hN : N < 65536)
    (hlen : cmds.length = N) (line : List Char) (h0 : '\x00' ∉ line)
    (hno : ∀ c ∈ cmds, ¬ c.1 <+: command_token line)
    (hlib : ∀ c ∈ cmds, conforms strncmp c.1 (command_token line)) :
    ∃ s buf, build N cmds = some s ∧
      execute strncmp N s line = some (s, buf, Outcome.not_found (command_token line)) := by
  obtain ⟨tree, hbuild, hB⟩ := build_spec N hN0 hN cmds hlen
  obtain ⟨hsp, hsplit⟩ := line_split line
  obtain ⟨tok, htok⟩ : ∃ tok, tok = command_token line := ⟨_, rfl⟩
  rw [← htok] at hsp hsplit hno hlib ⊢
  have hcstr : c_str (tokenise line).1 0 = tok := by
    rcases hsplit with h | ⟨rest, h⟩
    · subst h
      obtain ⟨h1, h2, -⟩ := tokenise_plain line h0 hsp
      rw [h1]; exact h2
    · subst h
      simp only [List.mem_append, List.mem_cons, not_or] at h0
      obtain ⟨h1, h2, -⟩ := tokenise_args tok rest h0.1 hsp h0.2.2
      rw [h1]; exact h2
  refine ⟨⟨tree, N, N⟩, (tokenise line).1, hbuild, ?_⟩
  rcases execute_built hB hN0 strncmp N N line (by rw [hcstr]; exact hlib) with
    ⟨c, hc, hpre, -⟩ | ⟨-, hex⟩
  · rw [hcstr] at hpre
    exact absurd hpre (hno c hc)
  · rw [hcstr] at hex
    exact hex

/-- C4, amended, at the line `lef 1`, the four commands of `init_interpreter` and the
library that returns the difference of the bytes. -/
theorem C4_not_found_witness :
    (0 < 4 ∧ 4 < 65536 ∧ example_commands.length = 4 ∧ '\x00' ∉ "lef 1".toList ∧
      (∀ c ∈ example_commands, ¬ c.1 <+: command_token "lef 1".toList) ∧
      ∀ c ∈ example_commands, conforms strncmp_diff c.1 (command_token "lef 1".toList)) ∧
    ∃ s buf, build 4 example_commands = some s ∧
      execute strncmp_diff 4 s "lef 1".toList =
        some (s, buf, Outcome.not_found (command_token "lef 1".toList)) :=
  ⟨by decide, C4_not_found strncmp_diff 4 example_commands (by decide) (by decide)
    (by decide) "lef 1".toList (by decide) (by decide) (by decide)⟩

/-- Registration of as many commands as the table has slots: slot `j` holds the `j`-th
command. -/
theorem register_full_spec (N : Nat) (cmds : List Command) (hlen : cmds.length = N) :
    ∃ tree0, register N cmds { initial_state N with API_cntr := 0 } = some ⟨tree0, N, 0⟩ ∧
      tree0.length = N ∧ tree0.map command_of = cmds.map some := by
  obtain ⟨tree0, hreg, hlen0, -, -, hnew0⟩ :=
    register_spec N 0 (name_of cmds) cmds (List.replicate N zero_API) 0 (by simp)
      (by omega) (linked_empty _ _) (fun idx h => by
        simp [name_of, List.getElem?_eq_getElem h])
  simp only [Nat.zero_add, hlen] at hreg hnew0
  refine ⟨tree0, hreg, hlen0, ?_⟩
  apply List.ext_getElem?
  intro j
  rw [List.getElem?_map, List.getElem?_map]
  rcases Nat.lt_or_ge j N with hj | hj
  · have h1 := hnew0 j hj
    have hj' : j < cmds.length := by omega
    rw [List.getElem?_eq_getElem hj']
    cases ht0 : tree0[j]? with
    | none => rw [ht0] at h1; simp at h1
    | some e0 =>
      rw [ht0] at h1
      simp [payload] at h1
      simp [command_of, h1]
  · rw [List.getElem?_eq_none (by omega), List.getElem?_eq_none (by omega)]
    rfl

/-- C5: on a table filled by the registration of `N = NUM_OF_API_FUNCS` commands
(`1 ≤ N < 2^16`), the build (`index_apis_in_order`, then `optimise_api_tree`) completes
and only permutes the records: the (name, description, handler) triples in the slots
afterwards are a permutation of the triples before, which are the registered commands. -/
theorem C5_build_permutes (N : Nat) (cmds : List Command) (hN0 : 0 < N) (hN : N < 65536)
    (hlen : cmds.length = N) :
    ∃ s1 s2, register N cmds { initial_state N with API_cntr := 0 } = some s1 ∧
      rebuild N s1 = some s2 ∧
      s1.API_tree.map command_of = cmds.map some ∧
      (s2.API_tree.map command_of).Perm (s1.API_tree.map command_of) := by
  obtain ⟨tree0, hreg, -, hcmd0⟩ := register_full_spec N cmds hlen
  obtain ⟨tree, hbuild, hB⟩ := build_spec N hN0 hN cmds hlen
  have hreb : rebuild N ⟨tree0, N, 0⟩ = some ⟨tree, N, N⟩ := by
    simp only [build, hreg, Option.bind_eq_bind, Option.some_bind] at hbuild
    exact hbuild
  exact ⟨⟨tree0, N, 0⟩, ⟨tree, N, N⟩, hreg, hreb, hcmd0, by
    rw [hcmd0]; exact hB.cmds_perm⟩

/-- C5 at the four commands of `init_interpreter` with `NUM_OF_API_FUNCS = 4`. -/
theorem C5_build_permutes_witness :
    (0 < 4 ∧ 4 < 65536 ∧ example_commands.length = 4) ∧
    ∃ s1 s2, register 4 example_commands { initial_state 4 with API_cntr := 0 } = some s1 ∧
      rebuild 4 s1 = some s2 ∧
      s1.API_tree.map command_of = example_commands.map some ∧
      (s2.API_tree.map command_of).Perm (s1.API_tree.map command_of) :=
  ⟨by decide, C5_build_permutes 4 example_commands (by decide) (by decide) (by decide)⟩

theorem register_full (N : Nat) (cmds : List Command) (s : State) (h : N ≤ s.API_cntr) :
    register N cmds s = some s := by
  induction cmds with
  | nil => rfl
  | cons c cs ih => simp [register, add_interpreter_instruction, h, ih]

theorem register_append (N : Nat) (l1 l2 : List Command) (s : State) :
    register N (l1 ++ l2) s = (register N l1 s).bind (register N l2) := by
  induction l1 generalizing s with
  | nil => rfl
  | cons c cs ih =>
    simp only [List.cons_append, register, Option.bind_eq_bind]
    cases add_interpreter_instruction N (some c.1) (some c.2.1) (some c.2.2) s with
    | none => rfl
    | some s1 => simp [ih]

/-- C6: when `API_cntr` equals `NUM_OF_API_FUNCS`, `add_interpreter_instruction` returns
with every slot and the counter unchanged; registering any list of commands from the
empty table completes with `API_cntr` the smaller of the length of the list and
`NUM_OF_API_FUNCS`, so never more than `NUM_OF_API_FUNCS`; and it produces the same table
as registering only the first `NUM_OF_API_FUNCS` commands of the list. -/
theorem C6_overflow (N : Nat) (s : State) (name desc : Option (List Char)) (func : Option Nat)
    (cmds : List Command) (hfull : s.API_cntr = N) :
    add_interpreter_instruction N name desc func s = some s ∧
    (∃ s', register N cmds { initial_state N with API_cntr := 0 } = some s' ∧
      s'.API_cntr = min cmds.length N ∧ s'.API_cntr ≤ N) ∧
    register N cmds { initial_state N with API_cntr := 0 } =
      register N (cmds.take N) { initial_state N with API_cntr := 0 } := by
  have htake : ∃ tree', register N (cmds.take N) { initial_state N with API_cntr := 0 } =
      some ⟨tree', min cmds.length N, 0⟩ := by
    obtain ⟨tree', hreg, -⟩ :=
      register_spec N 0 (name_of (cmds.take N)) (cmds.take N) (List.replicate N zero_API) 0
        (by simp) (by simp) (linked_empty _ _) (fun idx h => by
          simp [name_of, List.getElem?_eq_getElem h])
    refine ⟨tree', ?_⟩
    simp only [Nat.zero_add, List.length_take] at hreg
    rw [Nat.min_comm]
    exact hreg
  obtain ⟨tree', hreg⟩ := htake
  have hall : register N cmds { initial_state N with API_cntr := 0 } =
      register N (cmds.take N) { initial_state N with API_cntr := 0 } := by
    rcases Nat.lt_or_ge N cmds.length with h | h
    · conv_lhs => rw [← List.take_append_drop N cmds]
      rw [register_append, hreg]
      simp only [Option.some_bind]
      exact register_full N _ _ (by simp; omega)
    · rw [List.take_of_length_le h]
  refine ⟨?_, ⟨⟨tree', min cmds.length N, 0⟩, ?_, rfl, Nat.min_le_right _ _⟩, hall⟩
  · simp [add_interpreter_instruction, hfull]
  · rw [hall, hreg]

/-- C6 at the built table of `init_interpreter` and a list of five commands, with
`NUM_OF_API_FUNCS = 4`. -/
theorem C6_overflow_witness :
    example_table.API_cntr = 4 ∧
    (add_interpreter_instruction 4 (some "extra".toList) none (some 5) example_table =
        some example_table ∧
      (∃ s', register 4 (example_commands ++ [("extra".toList, [], 5)])
          { initial_state 4 with API_cntr := 0 } = some s' ∧
        s'.API_cntr = min (example_commands ++ [("extra".toList, [], 5)]).length 4 ∧
        s'.API_cntr ≤ 4) ∧
      register 4 (example_commands ++ [("extra".toList, [], 5)])
          { initial_state 4 with API_cntr := 0 } =
        register 4 ((example_commands ++ [("extra".toList, [], 5)]).take 4)
          { initial_state 4 with API_cntr := 0 }) :=
  ⟨rfl, C6_overflow 4 example_table (some "extra".toList) none (some 5)
    (example_commands ++ [("extra".toList, [], 5)]) rfl⟩

/-- C7: for `N = NUM_OF_API_FUNCS` commands with pairwise different names
(`1 ≤ N < 2^16`), running `index_apis_in_order` and `optimise_api_tree` again on the built
table completes and leaves the whole state as it was: the storage order, every place and
every link are the same. -/
theorem C7_rebuild_idempotent (N : Nat) (cmds : List Command) (hN0 : 0 < N) (hN : N < 65536)
    (hlen : cmds.length = N) (hnd : (cmds.map (fun c => c.1)).Nodup) :
    ∃ s, build N cmds = some s ∧ rebuild N s = some s := by
  obtain ⟨tree, hbuild, hB⟩ := build_spec N hN0 hN cmds hlen
  exact ⟨⟨tree, N, N⟩, hbuild, rebuild_spec N hN0 hN cmds tree hB hnd⟩

/-- C7 at the four commands of `init_interpreter` with `NUM_OF_API_FUNCS = 4`. -/
theorem C7_rebuild_idempotent_witness :
    (0 < 4 ∧ 4 < 65536 ∧ example_commands.length = 4 ∧
      (example_commands.map (fun c => c.1)).Nodup) ∧
    ∃ s, build 4 example_commands = some s ∧ rebuild 4 s = some s :=
  ⟨by decide, C7_rebuild_idempotent 4 example_commands (by decide) (by decide) (by decide)
    (by decide)⟩

/-- C8, as stated, fails for the program as it is: with `NUM_OF_API_FUNCS = 8`, the value
in `interpreter.h`, `init_interpreter` registers its four commands, and the build does
not complete (the relink loop reads the name of an empty slot through a `NULL` pointer),
so no root record `right` results. -/
theorem C8_counterexample :
    example_commands.map (fun c => c.1) =
        ["stop".toList, "start".toList, "left".toList, "right".toList] ∧
      init_interpreter 8 = none := by
  decide

/-- C8, amended: after the build of `N = NUM_OF_API_FUNCS` commands with pairwise
different names (`1 ≤ N < 2^16`), the root slot `API_tree[0]` holds a registered command
whose place is `(N - 1) / 2`, and exactly `(N - 1) / 2` registered names are smaller than
its name. With `NUM_OF_API_FUNCS = 4`, `init_interpreter` builds the table
`example_table`, prints `left`, `right`, `start`, `stop` with the places 0, 1, 2, 3 and
no mismatch message, and the root is the record of `right`, of place 1. -/
theorem C8_root (N : Nat) (cmds : List Command) (hN0 : 0 < N) (hN : N < 65536)
    (hlen : cmds.length = N) (hnd : (cmds.map (fun c => c.1)).Nodup) :
    (∃ s root, build N cmds = some s ∧ root ∈ cmds ∧
      command_at s.API_tree 0 = some root ∧ place_at s.API_tree 0 = (N - 1) / 2 ∧
      cmds.countP (fun c => strcmp c.1 root.1 < 0) = (N - 1) / 2) ∧
    (init_interpreter 4 = some (example_table,
        [(0, "left".toList), (1, "right".toList), (2, "start".toList), (3, "stop".toList)],
        false) ∧
      command_at example_table.API_tree 0 =
        some ("right".toList, "command used to turn right".toList, 4) ∧
      place_at example_table.API_tree 0 = 1) := by
  refine ⟨?_, by decide⟩
  obtain ⟨tree, hbuild, hB⟩ := build_spec N hN0 hN cmds hlen
  obtain ⟨root, hroot, hcmd, hkey⟩ := hB.slot_command 0 hN0
  have hplace : place_at tree 0 = (N - 1) / 2 := by
    have h := congrArg (fun l => l[0]?) hB.places
    obtain ⟨n, rfl⟩ : ∃ n, N = n + 1 := ⟨N - 1, by omega⟩
    simp only [List.getElem?_map, med_succ, BT.preorder, List.getElem?_cons_zero] at h
    simp only [place_at, h, Option.getD_some]
    omega
  refine ⟨⟨tree, N, N⟩, root, hbuild, hroot, hcmd, hplace, ?_⟩
  rw [← hkey, ← hB.place_count hnd 0 hN0, hplace]

/-- C8, amended, at the four commands of `init_interpreter` with `NUM_OF_API_FUNCS = 4`. -/
theorem C8_root_witness :
    (0 < 4 ∧ 4 < 65536 ∧ example_commands.length = 4 ∧
      (example_commands.map (fun c => c.1)).Nodup) ∧
    ∃ s root, build 4 example_commands = some s ∧ root ∈ example_commands ∧
      command_at s.API_tree 0 = some root ∧ place_at s.API_tree 0 = (4 - 1) / 2 ∧
      example_commands.countP (fun c => strcmp c.1 root.1 < 0) = (4 - 1) / 2 :=
  ⟨by decide, (C8_root 4 example_commands (by decide) (by decide) (by decide)
    (by decide)).1⟩

/-- The buffer after the tokeniser: the first space of the text at `cmd`, if there is
one, is overwritten by the terminator, and nothing else is changed. -/
theorem tokenise_buffer (buf : List Char) :
    (tokenise buf).1 =
      if ' ' ∈ c_str buf 0 then buf.set ((c_str buf 0).indexOf ' ') '\x00' else buf := by
  induction buf with
  | nil => simp [tokenise, cmd_name_len, c_str]
  | cons c cs ih =>
    by_cases h0 : c = '\x00'
    · subst h0
      simp [tokenise, cmd_name_len, c_str]
    · by_cases hs : c = ' '
      · subst hs
        simp [tokenise, cmd_name_len, c_str]
      · have hs' : ¬ ' ' = c := fun h => hs h.symm
        have hlen : cmd_name_len (c :: cs) = cmd_name_len cs + 1 := by
          simp [cmd_name_len, h0, hs]
        have hcs : c_str (c :: cs) 0 = c :: c_str cs 0 := by
          simp [c_str, List.takeWhile, h0]
        have htok : (tokenise (c :: cs)).1 = c :: (tokenise cs).1 := by
          simp only [tokenise, hlen, List.getD_cons_succ]
          split_ifs <;> simp
        rw [htok, ih, hcs]
        simp only [List.mem_cons, hs', false_or]
        split_ifs with h
        · rw [List.indexOf_cons_ne _ hs]
          simp
        · rfl

/-- C9: whenever `execute` completes, the buffer afterwards is the buffer before with the
first space of the line (the text at `cmd`, up to its terminator) overwritten by the
terminator, and it is the buffer before when the line contains no space; every other
character is unchanged. On a built table `execute` completes for every buffer. This holds
with every library `strncmp`. -/
theorem C9_buffer (strncmp : Strncmp) (N : Nat) (s : State) (buf : List Char)
    (r : State × List Char × Outcome) (h : execute strncmp N s buf = some r) :
    r.2.1 = (if ' ' ∈ c_str buf 0 then buf.set ((c_str buf 0).indexOf ' ') '\x00' else buf) ∧
    (' ' ∉ c_str buf 0 → r.2.1 = buf) ∧
    (∀ i, i ≠ (c_str buf 0).indexOf ' ' → r.2.1[i]? = buf[i]?) ∧
    (∀ (cmds : List Command) (line : List Char), 0 < N → N < 65536 → cmds.length = N →
      build N cmds = some s → ∃ r', execute strncmp N s line = some r') := by
  have hbuf : r.2.1 = (tokenise buf).1 := by
    simp only [execute, Option.bind_eq_bind] at h
    cases hs : search strncmp s.API_tree (c_str (tokenise buf).1 0) N 0 with
    | none => simp [hs] at h
    | some pc =>
      simp only [hs, Option.some_bind] at h
      split_ifs at h
      · cases hn : s.API_tree[pc.1]? with
        | none => simp [hn] at h
        | some node =>
          cases hf : node.func with
          | none => simp [hn, hf] at h
          | some f =>
            simp [hn, hf] at h
            rw [← h]
      · simp at h
        rw [← h]
  rw [hbuf, tokenise_buffer]
  refine ⟨rfl, ?_, ?_, ?_⟩
  · intro hns
    rw [if_neg hns]
  · intro i hi
    split_ifs
    · rw [List.getElem?_set_ne (Ne.symm hi)]
    · rfl
  · intro cmds line hN0 hN hlen hbuild
    obtain ⟨tree, hbuild', hB⟩ := build_spec N hN0 hN cmds hlen
    rw [hbuild] at hbuild'
    simp only [Option.some.injEq] at hbuild'
    subst hbuild'
    obtain ⟨c, -, hex⟩ := execute_stops hB hN0 strncmp N N line
    exact ⟨_, hex⟩

/-- C9 at the built table of `init_interpreter`, the line `left 10 20` and the library that
returns the difference of the bytes. -/
theorem C9_buffer_witness :
    execute strncmp_diff 4 example_table "left 10 20".toList =
        some (example_table, "left\x0010 20".toList, Outcome.invoked 3 "10 20".toList) ∧
    ("left\x0010 20".toList =
        (if ' ' ∈ c_str "left 10 20".toList 0 then
          "left 10 20".toList.set ((c_str "left 10 20".toList 0).indexOf ' ') '\x00'
        else "left 10 20".toList) ∧
      (' ' ∉ c_str "left 10 20".toList 0 → "left\x0010 20".toList = "left 10 20".toList) ∧
      (∀ i, i ≠ (c_str "left 10 20".toList 0).indexOf ' ' →
        "left\x0010 20".toList[i]? = "left 10 20".toList[i]?) ∧
      (∀ (cmds : List Command) (line : List Char), 0 < 4 → 4 < 65536 → cmds.length = 4 →
        build 4 cmds = some example_table → ∃ r', execute strncmp_diff 4 example_table line = some r')) :=
  ⟨by decide, C9_buffer strncmp_diff 4 example_table "left 10 20".toList
    (example_table, "left\x0010 20".toList, Outcome.invoked 3 "10 20".toList) (by decide)⟩

/-- C10: whenever `execute` completes, whether it calls a handler or reports not-found,
its own steps leave `API_tree` and both counters as they were, and `execute` on a buffer
of the same content against the table afterwards has the same result (the same handler
and argument text, or the same report). On a built table `execute` completes for every
buffer. This holds with every library `strncmp`. -/
theorem C10_stateless (strncmp : Strncmp) (N : Nat) (s : State) (buf : List Char)
    (r : State × List Char × Outcome) (h : execute strncmp N s buf = some r) :
    r.1 = s ∧ execute strncmp N r.1 buf = some r ∧
    (∀ (cmds : List Command) (line : List Char), 0 < N → N < 65536 → cmds.length = N →
      build N cmds = some s → ∃ buf' o, execute strncmp N s line = some (s, buf', o)) := by
  have hs : r.1 = s := by
    simp only [execute, Option.bind_eq_bind] at h
    cases hs : search strncmp s.API_tree (c_str (tokenise buf).1 0) N 0 with
    | none => simp [hs] at h
    | some pc =>
      simp only [hs, Option.some_bind] at h
      split_ifs at h
      · cases hn : s.API_tree[pc.1]? with
        | none => simp [hn] at h
        | some node =>
          cases hf : node.func with
          | none => simp [hn, hf] at h
          | some f =>
            simp [hn, hf] at h
            rw [← h]
      · simp at h
        rw [← h]
  refine ⟨hs, by rw [hs]; exact h, ?_⟩
  intro cmds line hN0 hN hlen hbuild
  obtain ⟨tree, hbuild', hB⟩ := build_spec N hN0 hN cmds hlen
  rw [hbuild] at hbuild'
  simp only [Option.some.injEq] at hbuild'
  subst hbuild'
  obtain ⟨c, -, hex⟩ := execute_stops hB hN0 strncmp N N line
  exact ⟨_, _, hex⟩

/-- C10 at the built table of `init_interpreter`, the line `stop now` and the library that
returns the difference of the bytes. -/
theorem C10_stateless_witness :
    execute strncmp_diff 4 example_table "stop now".toList =
        some (example_table, "stop\x00now".toList, Outcome.invoked 1 "now".toList) ∧
    (example_table = example_table ∧
      execute strncmp_diff 4 example_table "stop now".toList =
        some (example_table, "stop\x00now".toList, Outcome.invoked 1 "now".toList) ∧
      (∀ (cmds : List Command) (line : List Char), 0 < 4 → 4 < 65536 → cmds.length = 4 →
        build 4 cmds = some example_table →
        ∃ buf' o, execute strncmp_diff 4 example_table line = some (example_table, buf', o))) :=
  ⟨by decide, C10_stateless strncmp_diff 4 example_table "stop now".toList
    (example_table, "stop\x00now".toList, Outcome.invoked 1 "now".toList) (by decide)⟩

/-! ## The cost of a lookup -/

theorem BT.height_map (f : Nat → Nat) (T : BT) : (T.map f).height = T.height := by
  induction T with
  | nil => rfl
  | node l i r ihl ihr => simp [BT.map, BT.height, ihl, ihr]

theorem med_height_le (k : Nat) : ∀ (n lo : Nat), n < 2 ^ k → (med lo n).height ≤ k := by
  induction k with
  | zero =>
    intro n lo hn
    have : n = 0 := by simpa using hn
    subst this
    simp [med_zero, BT.height]
  | succ k ih =>
    intro n lo hn
    cases n with
    | zero => simp [med_zero, BT.height]
    | succ n =>
      rw [med_succ]
      simp only [BT.height]
      have hp : 2 ^ (k + 1) = 2 * 2 ^ k := by rw [pow_succ]; omega
      have h1 := ih (n / 2) lo (by omega)
      have h2 := ih (n - n / 2) (lo + n / 2 + 1) (by omega)
      omega

/-- The search on links that describe a tree whose slots all hold a name compares, with
any library `strncmp` and whichever way it turns, at most as many names as the longest
path from the root has nodes. -/
theorem search_comparisons_le (strncmp : Strncmp) (tree : List API_t)
    (key : Nat → List Char) (cmd : List Char) :
    ∀ (T : BT) (i fuel : Nat), Rep tree (some i) T →
      (∀ j ∈ T.inorder, name_at tree j = some (key j)) → T.height ≤ fuel →
      ∃ k, search_comparisons strncmp tree cmd fuel i = some k ∧ k ≤ T.height := by
  intro T
  induction T with
  | nil => intro i fuel hr; cases hr
  | node l i r ihl ihr =>
    intro i1 fuel hr hkeys hfuel
    cases hr with
    | @node _ e _ _ he hl hrr =>
      cases fuel with
      | zero => simp [BT.height] at hfuel
      | succ f =>
        simp only [BT.height] at hfuel ⊢
        have hname : e.name = some (key i) :=
          name_of_name_at (hkeys i (by simp [BT.inorder])) he
        by_cases hcomp : to_int8 (strncmp (key i) cmd (strlen (key i))) > 0
        · cases l with
          | nil =>
            have hleft : e.left = none := hl.root_eq
            exact ⟨1, by simp [search_comparisons, he, hname, hcomp, hleft],
              by omega⟩
          | node ll j lr =>
            have hleft : e.left = some j := hl.root_eq
            rw [hleft] at hl
            obtain ⟨k, hs, hk⟩ := ihl j f hl
              (fun x hx => hkeys x (by simp [BT.inorder] at hx ⊢; tauto)) (by omega)
            have hne : to_int8 (strncmp (key i) cmd (strlen (key i))) ≠ 0 := by omega
            exact ⟨k + 1,
              by simp [search_comparisons, he, hname, hcomp, hleft, hne, hs],
              by omega⟩
        · cases r with
          | nil =>
            have hright : e.right = none := hrr.root_eq
            exact ⟨1, by simp [search_comparisons, he, hname, hcomp, hright],
              by omega⟩
          | node rl j rr =>
            have hright : e.right = some j := hrr.root_eq
            rw [hright] at hrr
            by_cases hz : to_int8 (strncmp (key i) cmd (strlen (key i))) = 0
            · exact ⟨1, by simp [search_comparisons, he, hname, hright, hz],
                by omega⟩
            · obtain ⟨k, hs, hk⟩ := ihr j f hrr
                (fun x hx => hkeys x (by simp [BT.inorder] at hx ⊢; tauto)) (by omega)
              exact ⟨k + 1,
                by simp [search_comparisons, he, hname, hcomp, hright, hz, hs],
                by omega⟩

/-- C11: for a table filled with `N = NUM_OF_API_FUNCS` commands of pairwise different
names (`1 ≤ N < 2^16`) and built, the longest path from the root `API_tree[0]` has at most
`floor(log2 N) + 1` nodes, and for every buffer and every library `strncmp` the search of
`execute` completes after at most `floor(log2 N) + 1` calls of `strncmp`. -/
theorem C11_lookup_cost (N : Nat) (cmds : List Command) (hN0 : 0 < N) (hN : N < 65536)
    (hlen : cmds.length = N) (hnd : (cmds.map (fun c => c.1)).Nodup) :
    ∃ s T, build N cmds = some s ∧ tree_of s.API_tree (N + 1) (some 0) = some T ∧
      T.inorder.Perm (List.range N) ∧ T.height ≤ Nat.log 2 N + 1 ∧
      ∀ (strncmp : Strncmp) (buf : List Char), ∃ k,
        search_comparisons strncmp s.API_tree (c_str (tokenise buf).1 0) N 0 = some k ∧
        k ≤ Nat.log 2 N + 1 := by
  obtain ⟨tree, hbuild, hB⟩ := build_spec N hN0 hN cmds hlen
  have hL := hB.linked
  have hrep := hL.rep
  rw [hL.root hN0] at hrep
  have hh : (ins_upto (key_of tree) N).height ≤ Nat.log 2 N + 1 := by
    rw [← BT.height_map (place_at tree), hB.med hnd]
    exact med_height_le _ N 0 (Nat.lt_pow_succ_log_self (by omega) N)
  refine ⟨⟨tree, N, N⟩, ins_upto (key_of tree) N, hbuild, hB.tree_of hN0, hL.perm, hh, ?_⟩
  intro strncmp buf
  obtain ⟨k, hs, hk⟩ := search_comparisons_le strncmp tree (key_of tree)
    (c_str (tokenise buf).1 0)
    _ 0 N hrep (fun j hj => hL.keys j ((hL.mem_iff j).mp hj))
    (by have := BT.height_le_size (ins_upto (key_of tree) N); have := hL.size_eq; omega)
  exact ⟨k, hs, by omega⟩

/-- C11 at the four commands of `init_interpreter` with `NUM_OF_API_FUNCS = 4`. -/
theorem C11_lookup_cost_witness :
    (0 < 4 ∧ 4 < 65536 ∧ example_commands.length = 4 ∧
      (example_commands.map (fun c => c.1)).Nodup) ∧
    ∃ s T, build 4 example_commands = some s ∧
      tree_of s.API_tree (4 + 1) (some 0) = some T ∧
      T.inorder.Perm (List.range 4) ∧ T.height ≤ Nat.log 2 4 + 1 ∧
      ∀ (strncmp : Strncmp) (buf : List Char), ∃ k,
        search_comparisons strncmp s.API_tree (c_str (tokenise buf).1 0) 4 0 = some k ∧
        k ≤ Nat.log 2 4 + 1 :=
  ⟨by decide, C11_lookup_cost 4 example_commands (by decide) (by decide) (by decide)
    (by decide)⟩

/-! ## Registered tables -/

theorem command_at_fields {tree : List API_t} {j : Nat} {cm : Command}
    (h : command_at tree j = some cm) :
    ∃ e, tree[j]? = some e ∧ e.name = some cm.1 ∧ e.desc = some cm.2.1 ∧
      e.func = some cm.2.2 := by
  unfold command_at at h
  cases he : tree[j]? with
  | none => simp [he] at h
  | some e =>
    simp only [he, Option.some_bind] at h
    refine ⟨e, rfl, ?_⟩
    cases hn : e.name with
    | none => simp [command_of, hn] at h
    | some n =>
      cases hd : e.desc with
      | none => simp [command_of, hn, hd] at h
      | some d =>
        cases hf : e.func with
        | none => simp [command_of, hn, hd, hf] at h
        | some f =>
          simp [command_of, hn, hd, hf] at h
          subst h
          exact ⟨rfl, rfl, rfl⟩

/-- Registration of a list of commands for which the table has room, from the empty
table: the commands are stored in the first slots in their order, with place 0, and the
slots are linked into the tree of successive insertions. -/
theorem register_linked (N : Nat) (cmds : List Command) (hlen : cmds.length ≤ N) :
    ∃ tree, register N cmds { initial_state N with API_cntr := 0 } =
        some ⟨tree, cmds.length, 0⟩ ∧
      tree.length = N ∧
      Linked tree cmds.length (name_of cmds) (ins_upto (name_of cmds) cmds.length) ∧
      (∀ j (h : j < cmds.length), command_at tree j = some cmds[j] ∧
        name_of cmds j = (cmds[j]).1 ∧ place_at tree j = 0) := by
  obtain ⟨tree, hreg, hlen0, hL, -, hnew⟩ :=
    register_spec N 0 (name_of cmds) cmds (List.replicate N zero_API) 0 (by simp)
      (by omega) (linked_empty _ _) (fun idx h => by
        simp [name_of, List.getElem?_eq_getElem h])
  simp only [Nat.zero_add] at hreg hL hnew
  refine ⟨tree, hreg, hlen0, hL, ?_⟩
  intro j h
  have h1 := hnew j h
  cases ht : tree[j]? with
  | none => rw [ht] at h1; simp at h1
  | some e =>
    rw [ht] at h1
    simp [payload] at h1
    refine ⟨by simp [command_at, ht, command_of, h1], ?_, by simp [place_at, ht, h1]⟩
    simp [name_of, List.getElem?_eq_getElem h]

/-- On a table whose first slots are linked into a tree and hold commands, with a library
that conforms on the comparisons of their names with the text at `cmd`, `execute`
completes for every buffer: it calls the handler of a command whose name begins that text,
or it reports that text as not found. -/
theorem execute_linked {N c : Nat} {tree : List API_t} {key : Nat → List Char} {T : BT}
    {cmds : List Command} (hL : Linked tree c key T) (hc0 : 0 < c) (hcN : c ≤ N)
    (hcmd : ∀ j, j < c → ∃ cm ∈ cmds, command_at tree j = some cm ∧ key j = cm.1)
    (strncmp : Strncmp) (cn pc : Nat) (buf : List Char)
    (hlib : ∀ cm ∈ cmds, conforms strncmp cm.1 (c_str (tokenise buf).1 0)) :
    (∃ cm ∈ cmds, cm.1 <+: c_str (tokenise buf).1 0 ∧
      execute strncmp N ⟨tree, cn, pc⟩ buf = some (⟨tree, cn, pc⟩, (tokenise buf).1,
        Outcome.invoked cm.2.2 (c_str (tokenise buf).1 (tokenise buf).2))) ∨
    execute strncmp N ⟨tree, cn, pc⟩ buf = some (⟨tree, cn, pc⟩, (tokenise buf).1,
      Outcome.not_found (c_str (tokenise buf).1 0)) := by
  have hrep := hL.rep
  rw [hL.root hc0] at hrep
  obtain ⟨p, hs, hp⟩ := search_spec strncmp tree key (c_str (tokenise buf).1 0) _ 0 N hrep
    (fun j hj => hL.keys j ((hL.mem_iff j).mp hj))
    (by have := BT.height_le_size T; have := hL.size_eq; omega)
  obtain ⟨cm, hcm, hat, hk⟩ := hcmd p ((hL.mem_iff p).mp hp)
  obtain ⟨e, he, -, -, hf⟩ := command_at_fields hat
  have hzp := comp_res_eq_zero_iff (hlib cm hcm)
  rw [← hk] at hzp
  by_cases hz : to_int8 (strncmp (key p) (c_str (tokenise buf).1 0) (strlen (key p))) = 0
  · left
    refine ⟨cm, hcm, ?_, ?_⟩
    · rw [← hk]
      exact hzp.mp hz
    · simp [execute, hs, hz, he, hf]
  · right
    simp [execute, hs, hz]

/-- One round of the search of `execute`: it stops at a node when the 8-bit result of the
comparison is zero; otherwise it takes the left link when that result is positive and the
right link when it is not, and it stops when that link is `NULL`. -/
theorem search_step (strncmp : Strncmp) (tree : List API_t) (cmd : List Char)
    (fuel prev : Nat) (e : API_t)
    (nm : List Char) (he : tree[prev]? = some e) (hn : e.name = some nm) :
    search strncmp tree cmd (fuel + 1) prev =
      if to_int8 (strncmp nm cmd (strlen nm)) = 0 then some (prev, 0)
      else match (if to_int8 (strncmp nm cmd (strlen nm)) > 0 then e.left else e.right) with
        | none => some (prev, to_int8 (strncmp nm cmd (strlen nm)))
        | some next => search strncmp tree cmd fuel next := by
  simp only [search, he, hn, Option.bind_eq_bind, Option.some_bind]
  by_cases hz : to_int8 (strncmp nm cmd (strlen nm)) = 0
  · simp only [hz, if_true]
    cases e.right <;> simp
  · simp only [hz, if_false]
    cases (if to_int8 (strncmp nm cmd (strlen nm)) > 0 then e.left else e.right) <;>
      simp [hz]

/-! ## The claims about the dispatcher -/

/-- C12: for a line `tok`, one space, `rest`, where `tok` contains no space, `execute`
searches for the token `tok` and, when it calls a handler, hands it exactly `rest`,
further spaces included, after overwriting the one space by the terminator; for a line
`tok` without a space it searches for `tok`, hands an empty argument text and leaves the
buffer as it is. A not-found report names `tok` in both cases. (The texts are C strings:
they contain no terminator.) This holds with every library `strncmp`. -/
theorem C12_tokenisation (strncmp : Strncmp) (N : Nat) (s : State) (tok rest : List Char)
    (h0 : '\x00' ∉ tok) (hs : ' ' ∉ tok) (hr : '\x00' ∉ rest) :
    (tokenise (tok ++ ' ' :: rest) = (tok ++ '\x00' :: rest, tok.length + 1) ∧
      c_str (tok ++ '\x00' :: rest) 0 = tok ∧
      c_str (tok ++ '\x00' :: rest) (tok.length + 1) = rest ∧
      execute strncmp N s (tok ++ ' ' :: rest) =
        (search strncmp s.API_tree tok N 0).bind (fun r =>
          if r.2 = 0 then
            (s.API_tree[r.1]?).bind (fun node => node.func.bind (fun f =>
              some (s, tok ++ '\x00' :: rest, Outcome.invoked f rest)))
          else some (s, tok ++ '\x00' :: rest, Outcome.not_found tok))) ∧
    (tokenise tok = (tok, tok.length) ∧ c_str tok 0 = tok ∧ c_str tok tok.length = [] ∧
      execute strncmp N s tok =
        (search strncmp s.API_tree tok N 0).bind (fun r =>
          if r.2 = 0 then
            (s.API_tree[r.1]?).bind (fun node => node.func.bind (fun f =>
              some (s, tok, Outcome.invoked f [])))
          else some (s, tok, Outcome.not_found tok))) := by
  obtain ⟨a1, a2, a3⟩ := tokenise_args tok rest h0 hs hr
  obtain ⟨p1, p2, p3⟩ := tokenise_plain tok h0 hs
  refine ⟨⟨a1, a2, a3, ?_⟩, ⟨p1, p2, p3, ?_⟩⟩
  · simp only [execute, a1, a2, a3, Option.bind_eq_bind]
  · simp only [execute, p1, p2, p3, Option.bind_eq_bind]

/-- C12 at the built table of `init_interpreter`, the token `left`, an argument text
with spaces at both ends, and the library that returns the difference of the bytes. -/
theorem C12_tokenisation_witness :
    ('\x00' ∉ "left".toList ∧ ' ' ∉ "left".toList ∧ '\x00' ∉ " 10  20 ".toList) ∧
    ((tokenise ("left".toList ++ ' ' :: " 10  20 ".toList) =
        ("left".toList ++ '\x00' :: " 10  20 ".toList, "left".toList.length + 1) ∧
      c_str ("left".toList ++ '\x00' :: " 10  20 ".toList) 0 = "left".toList ∧
      c_str ("left".toList ++ '\x00' :: " 10  20 ".toList) ("left".toList.length + 1) =
        " 10  20 ".toList ∧
      execute strncmp_diff 4 example_table ("left".toList ++ ' ' :: " 10  20 ".toList) =
        (search strncmp_diff example_table.API_tree "left".toList 4 0).bind (fun r =>
          if r.2 = 0 then
            (example_table.API_tree[r.1]?).bind (fun node => node.func.bind (fun f =>
              some (example_table, "left".toList ++ '\x00' :: " 10  20 ".toList,
                Outcome.invoked f " 10  20 ".toList)))
          else some (example_table, "left".toList ++ '\x00' :: " 10  20 ".toList,
            Outcome.not_found "left".toList))) ∧
    (tokenise "left".toList = ("left".toList, "left".toList.length) ∧
      c_str "left".toList 0 = "left".toList ∧
      c_str "left".toList "left".toList.length = [] ∧
      execute strncmp_diff 4 example_table "left".toList =
        (search strncmp_diff example_table.API_tree "left".toList 4 0).bind (fun r =>
          if r.2 = 0 then
            (example_table.API_tree[r.1]?).bind (fun node => node.func.bind (fun f =>
              some (example_table, "left".toList, Outcome.invoked f [])))
          else some (example_table, "left".toList, Outcome.not_found "left".toList)))) :=
  ⟨by decide, C12_tokenisation strncmp_diff 4 example_table "left".toList " 10  20 ".toList
    (by decide) (by decide) (by decide)⟩

/-- C13 at an input on which the code does not do what the claim says: the table built from
the two one-byte names `A` (code 65) and `é` (code 233), the token `é`, and the library
that returns the difference of the bytes. At the root, which holds `A`, the comparison
bounded by the length of the stored name returns `65 - 233 = -168`: the stored name
compares smaller than the token, and the claim sends the search right, where the record of
`é` is. Stored in the `int8_t` `comp_res` the result is `88 > 0`, so the search takes the
left link, which is `NULL`, and stops at the root with a non-zero result; with the `int`
of the library, which is what `add_interpreter_instruction` keeps, it would not. With the
library that returns the sign the same search goes right and stops at the record of
`é`. -/
theorem C13_failing_input :
    build 2 accent_commands =
        some ⟨[⟨0, none, some 1, some ['A'], some "first".toList, some 1⟩,
          ⟨1, none, none, some ['\xe9'], some "second".toList, some 2⟩], 2, 2⟩ ∧
      strncmp_diff ['A'] ['\xe9'] (strlen ['A']) = -168 ∧
      strncmp_sign ['A'] ['\xe9'] (strlen ['A']) = -1 ∧
      to_int8 (strncmp_diff ['A'] ['\xe9'] (strlen ['A'])) = 88 ∧
      (build 2 accent_commands).bind (fun s => search strncmp_diff s.API_tree ['\xe9'] 2 0) =
        some (0, 88) ∧
      (build 2 accent_commands).bind (fun s => search strncmp_sign s.API_tree ['\xe9'] 2 0) =
        some (1, 0) := by
  decide

/-- C14 at an input on which the code does not do what the claim says: the table is filled
with the two commands of the one-byte names `A` (code 65) and `é` (code 233) and built, the
names are different, neither contains a space or begins the other, and the library returns
the difference of the bytes. `execute` on the line `é` and on the line `é 1` reports
not-found instead of calling handler 2, the handler registered for `é`: at the root `A` the
result `-168` of the comparison becomes `88` in the `int8_t` `comp_res`, the opposite of
the direction of the `strcmp` order in which the tree was built. With the library that
returns the sign the handler is called. -/
theorem C14_failing_input :
    accent_commands.length = 2 ∧ (accent_commands.map (fun c => c.1)).Nodup ∧
      ((['\xe9'], "second".toList, 2) : Command) ∈ accent_commands ∧
      '\x00' ∉ ['\xe9'] ∧ ' ' ∉ ['\xe9'] ∧
      (∀ c ∈ accent_commands, c.1 <+: ['\xe9'] → c.1 = ['\xe9']) ∧
      strcmp ['A'] ['\xe9'] = -1 ∧
      (build 2 accent_commands).bind
        (fun s => (execute strncmp_diff 2 s ['\xe9']).map (fun r => r.2.2)) =
          some (Outcome.not_found ['\xe9']) ∧
      (build 2 accent_commands).bind
        (fun s => (execute strncmp_diff 2 s (['\xe9'] ++ " 1".toList)).map (fun r => r.2.2)) =
          some (Outcome.not_found ['\xe9']) ∧
      (build 2 accent_commands).bind
        (fun s => (execute strncmp_sign 2 s ['\xe9']).map (fun r => r.2.2)) =
          some (Outcome.invoked 2 []) := by
  decide

/-! ## The indexer after a registration -/

/-- When the in-order traversal meets the names in strictly increasing order and gives
its `k`-th slot the place `k`, the place of a slot is the number of names smaller than
its own. -/
theorem place_count_sorted (tree : List API_t) (key : Nat → List Char) (T : BT)
    (names : List (List Char)) (hnames : (T.inorder.map key).Perm names)
    (hsorted : T.inorder.Pairwise (fun a b => strcmp (key a) (key b) < 0))
    (hplace : ∀ (k j : Nat), T.inorder[k]? = some j → place_at tree j = k)
    (j : Nat) (hj : j ∈ T.inorder) :
    place_at tree j = names.countP (fun n => strcmp n (key j) < 0) := by
  obtain ⟨k, hk⟩ := List.getElem?_of_mem hj
  obtain ⟨hklen, hkj⟩ := List.getElem?_eq_some.mp hk
  rw [hplace k j hk, ← hnames.countP_eq, List.countP_map]
  have hsplit : T.inorder = T.inorder.take k ++ j :: T.inorder.drop (k + 1) := by
    rw [← hkj, ← List.drop_eq_getElem_cons hklen, List.take_append_drop]
  rw [hsplit] at hsorted
  rw [List.pairwise_append] at hsorted
  obtain ⟨-, h2, h3⟩ := hsorted
  rw [List.pairwise_cons] at h2
  have hlen : (T.inorder.take k).length = k := by
    rw [List.length_take]; omega
  have e1 : (T.inorder.take k).countP
      ((fun n => decide (strcmp n (key j) < 0)) ∘ key) = k := by
    rw [List.countP_eq_length.mpr, hlen]
    intro a ha
    simpa using h3 a ha j (by simp)
  have e2 : (T.inorder.drop (k + 1)).countP
      ((fun n => decide (strcmp n (key j) < 0)) ∘ key) = 0 := by
    rw [List.countP_eq_zero]
    intro a ha
    have := h2.1 a ha
    simp only [Function.comp_apply, decide_eq_true_eq]
    rw [strcmp_swap (key j) (key a)]
    omega
  conv_lhs => rw [← hlen]
  conv_rhs => rw [hsplit]
  rw [List.countP_append, List.countP_cons, e1, e2, hlen]
  simp [strcmp_self]

theorem command_of_unplaced (e : API_t) : command_of (unplaced e) = command_of e := rfl

/-- C15: after the registration of `k ≥ 1` commands with pairwise different names into the
empty table (`k ≤ NUM_OF_API_FUNCS < 2^16`), `index_apis_in_order(&API_tree[0])`
completes with `API_place_cntr = k`, one count for each record; the commands stay in their
slots, the place of every registered record is the number of registered names that are
smaller than its name, and the places of the `k` records are `0 .. k-1`, each once. -/
theorem C15_indexer (N : Nat) (cmds : List Command) (hne : cmds ≠ [])
    (hlen : cmds.length ≤ N) (hN : N < 65536) (hnd : (cmds.map (fun c => c.1)).Nodup) :
    ∃ s1 s2, register N cmds { initial_state N with API_cntr := 0 } = some s1 ∧
      index_apis_in_order N (some 0) s1 = some s2 ∧
      s2.API_place_cntr = cmds.length ∧
      (∀ j (h : j < cmds.length), command_at s2.API_tree j = some cmds[j] ∧
        place_at s2.API_tree j = cmds.countP (fun c => strcmp c.1 (cmds[j]).1 < 0)) ∧
      ((List.range cmds.length).map (place_at s2.API_tree)).Perm
        (List.range cmds.length) := by
  have hpos : 0 < cmds.length := List.length_pos.mpr hne
  obtain ⟨tree0, hreg, hlen0, hL0, hcmd0⟩ := register_linked N cmds hlen
  have hrep0 := hL0.rep
  rw [hL0.root hpos] at hrep0
  obtain ⟨tree, hrun, hun, hpl, -⟩ :=
    indexer_spec cmds.length (ins_upto (name_of cmds) cmds.length) (some 0) (N + 1) tree0 0
      hrep0 hL0.nodup
      (by have := BT.height_le_size (ins_upto (name_of cmds) cmds.length)
          have := hL0.size_eq; omega)
  rw [hL0.size_eq, Nat.zero_add] at hrun
  have hplace : ∀ (k j : Nat), (ins_upto (name_of cmds) cmds.length).inorder[k]? = some j →
      place_at tree j = k := by
    intro k j hk
    have hkN : k < cmds.length := by
      have := (List.getElem?_eq_some.mp hk).1
      rwa [hL0.perm.length_eq, List.length_range] at this
    have := hpl k j hk
    rw [Nat.zero_add, show to_uint16 k = k from Nat.mod_eq_of_lt (by omega)] at this
    exact place_at_eq this
  have hsorted := bst_sorted (name_of cmds) _ (ins_upto_bst _ cmds.length) hL0.nodup
    (fun a ha b hb hab => name_of_inj cmds hnd a b ((hL0.mem_iff a).mp ha)
      ((hL0.mem_iff b).mp hb) hab)
  have hnames : ((ins_upto (name_of cmds) cmds.length).inorder.map (name_of cmds)).Perm
      (cmds.map (fun c => c.1)) := by
    refine (hL0.perm.map _).trans ?_
    have : (List.range cmds.length).map (name_of cmds) = cmds.map (fun c => c.1) := by
      rw [map_eq_map_range cmds (fun c => c.1) []]
      rfl
    rw [this]
  refine ⟨⟨tree0, cmds.length, 0⟩, ⟨tree, cmds.length, cmds.length⟩, hreg, hrun, rfl, ?_, ?_⟩
  · intro j h
    obtain ⟨hc, hk, -⟩ := hcmd0 j h
    refine ⟨?_, ?_⟩
    · have hu := hun j
      unfold command_at at hc ⊢
      cases ht : tree[j]? with
      | none =>
        rw [ht] at hu
        cases ht0 : tree0[j]? with
        | none => rw [ht0] at hc; simp at hc
        | some e0 => rw [ht0] at hu; simp at hu
      | some e =>
        cases ht0 : tree0[j]? with
        | none => rw [ht0] at hc; simp at hc
        | some e0 =>
          rw [ht, ht0] at hu
          rw [ht0] at hc
          simp only [Option.map_some', Option.some.injEq] at hu
          simp only [Option.some_bind] at hc ⊢
          rw [← command_of_unplaced e, hu, command_of_unplaced, hc]
    · have := place_count_sorted tree (name_of cmds) _ _ hnames hsorted hplace j
        ((hL0.mem_iff j).mpr h)
      rw [this, List.countP_map, hk]
      rfl
  · have h2 : (ins_upto (name_of cmds) cmds.length).inorder.map (place_at tree) =
        List.range cmds.length := by
      apply List.ext_getElem?
      intro k
      rw [List.getElem?_map]
      rcases Nat.lt_or_ge k cmds.length with hk | hk
      · have hk' : k < (ins_upto (name_of cmds) cmds.length).inorder.length := by
          rw [hL0.perm.length_eq, List.length_range]; exact hk
        rw [List.getElem?_eq_getElem hk', List.getElem?_range hk]
        simp only [Option.map_some', Option.some.injEq]
        exact hplace k _ (List.getElem?_eq_getElem hk')
      · rw [List.getElem?_eq_none (by rw [hL0.perm.length_eq, List.length_range]; exact hk),
          List.getElem?_eq_none (by simpa using hk)]
        rfl
    exact ((hL0.perm.map (place_at tree)).symm.trans (by rw [h2]))

/-- C15 at three of the commands of `init_interpreter` in a table of four slots. -/
theorem C15_indexer_witness :
    (example_commands.take 3 ≠ [] ∧ (example_commands.take 3).length ≤ 4 ∧ 4 < 65536 ∧
      ((example_commands.take 3).map (fun c => c.1)).Nodup) ∧
    ∃ s1 s2, register 4 (example_commands.take 3) { initial_state 4 with API_cntr := 0 } =
        some s1 ∧
      index_apis_in_order 4 (some 0) s1 = some s2 ∧
      s2.API_place_cntr = (example_commands.take 3).length ∧
      (∀ j (h : j < (example_commands.take 3).length),
        command_at s2.API_tree j = some (example_commands.take 3)[j] ∧
        place_at s2.API_tree j = (example_commands.take 3).countP
          (fun c => strcmp c.1 ((example_commands.take 3)[j]).1 < 0)) ∧
      ((List.range (example_commands.take 3).length).map (place_at s2.API_tree)).Perm
        (List.range (example_commands.take 3).length) :=
  ⟨by decide, C15_indexer 4 (example_commands.take 3) (by decide) (by decide) (by decide)
    (by decide)⟩

/-! ## The reference shapes of the specification -/

theorem pre_eq_med (n : Nat) : ∀ lo : Nat,
    pre (lo : Int) ((lo : Int) + (n : Int) - 1) = (med lo n).preorder.map (fun x : Nat => (x : Int)) := by
  induction n using Nat.strong_induction_on with
  | _ n ih =>
    intro lo
    cases n with
    | zero =>
      rw [pre, med_zero]
      simp [BT.preorder]
    | succ n =>
      have hgt : ¬ ((lo : Int) > (lo : Int) + ((n + 1 : Nat) : Int) - 1) := by omega
      have hmid : ((lo : Int) + ((lo : Int) + ((n + 1 : Nat) : Int) - 1)) / 2 =
          (lo : Int) + ((n / 2 : Nat) : Int) := by omega
      have e1 : (lo : Int) + ((n / 2 : Nat) : Int) + 1 = ((lo + n / 2 + 1 : Nat) : Int) := by
        omega
      have e2 : (lo : Int) + ((n + 1 : Nat) : Int) - 1 =
          ((lo + n / 2 + 1 : Nat) : Int) + ((n - n / 2 : Nat) : Int) - 1 := by omega
      rw [pre, dif_neg hgt, hmid, ih (n / 2) (by omega) lo, e1, e2,
        ih (n - n / 2) (by omega) (lo + n / 2 + 1), med_succ]
      simp [BT.preorder]

theorem split_tree_eq_med (n : Nat) : ∀ lo : Nat,
    split_tree (lo : Int) ((lo : Int) + (n : Int) - 1) = med lo n := by
  induction n using Nat.strong_induction_on with
  | _ n ih =>
    intro lo
    cases n with
    | zero =>
      rw [split_tree, med_zero]
      simp
    | succ n =>
      have hgt : ¬ ((lo : Int) > (lo : Int) + ((n + 1 : Nat) : Int) - 1) := by omega
      have hmid : ((lo : Int) + ((lo : Int) + ((n + 1 : Nat) : Int) - 1)) / 2 =
          (lo : Int) + ((n / 2 : Nat) : Int) := by omega
      have hnat : ((lo : Int) + ((n / 2 : Nat) : Int)).toNat = lo + n / 2 := by omega
      have e1 : (lo : Int) + ((n / 2 : Nat) : Int) + 1 = ((lo + n / 2 + 1 : Nat) : Int) := by
        omega
      have e2 : (lo : Int) + ((n + 1 : Nat) : Int) - 1 =
          ((lo + n / 2 + 1 : Nat) : Int) + ((n - n / 2 : Nat) : Int) - 1 := by omega
      rw [split_tree, dif_neg hgt, hmid, hnat, ih (n / 2) (by omega) lo, e1, e2,
        ih (n - n / 2) (by omega) (lo + n / 2 + 1), med_succ]

theorem pre_zero (N : Nat) :
    pre 0 ((N : Int) - 1) = (med 0 N).preorder.map (fun x : Nat => (x : Int)) := by
  have := pre_eq_med N 0
  simpa using this

theorem split_tree_zero (N : Nat) : split_tree 0 ((N : Int) - 1) = med 0 N := by
  have := split_tree_eq_med N 0
  simpa using this

/-- C16: given `N = NUM_OF_API_FUNCS < 2^16` records whose place fields are a permutation
of `0 .. N-1`, stored at any positions, `recursive_optimiser(0, N-1)` started with
`API_cntr = 0` completes with `API_cntr = N`, permutes the records, and leaves in slot
`i` the record whose place is the `i`-th element of the reference sequence
`pre(0, N-1)`. -/
theorem C16_placement (N : Nat) (tree : List API_t) (pc : Nat) (hN : N < 65536)
    (hlen : tree.length = N)
    (hperm : (tree.map (fun e => e.place)).Perm (List.range N)) :
    ∃ tree', recursive_optimiser N (N + 1) 0 ((N : Int) - 1) ⟨tree, 0, pc⟩ =
        some ⟨tree', N, pc⟩ ∧
      tree'.Perm tree ∧
      tree'.map (fun e => (e.place : Int)) = pre 0 ((N : Int) - 1) ∧
      ∀ i, i < N → ∃ e, tree'[i]? = some e ∧ e ∈ tree ∧
        (pre 0 ((N : Int) - 1))[i]? = some (e.place : Int) := by
  obtain ⟨tree', hrun, hperm', -, hpre⟩ :=
    optimiser_spec N hN pc (N + 1) N 0 0 tree hlen hperm (by omega) (by omega)
      (fun j e hj _ => absurd hj (Nat.not_lt_zero j)) (by omega)
  simp only [Nat.cast_zero, zero_add] at hrun hpre
  have hlen' : tree'.length = N := by rw [hperm'.length_eq, hlen]
  have hplaces : tree'.map (fun e => e.place) = (med 0 N).preorder := by
    apply List.ext_getElem?
    intro k
    rw [List.getElem?_map]
    rcases Nat.lt_or_ge k N with hk | hk
    · have hk' : k < (med 0 N).preorder.length := by
        rw [BT.length_preorder, med_size]; exact hk
      have := hpre k _ (List.getElem?_eq_getElem hk')
      rw [this, List.getElem?_eq_getElem hk']
    · rw [List.getElem?_eq_none (by omega), List.getElem?_eq_none
        (by rw [BT.length_preorder, med_size]; exact hk)]
      rfl
  have hint : tree'.map (fun e => (e.place : Int)) = pre 0 ((N : Int) - 1) := by
    rw [pre_zero, ← hplaces, List.map_map]
    rfl
  refine ⟨tree', hrun, hperm', hint, ?_⟩
  intro i hi
  have hi' : i < tree'.length := by omega
  refine ⟨tree'[i], List.getElem?_eq_getElem hi', hperm'.mem_iff.mp (List.getElem_mem hi'), ?_⟩
  rw [← hint, List.getElem?_map, List.getElem?_eq_getElem hi']
  rfl

/-- C16 at the records of the built table of `init_interpreter`. -/
theorem C16_placement_witness :
    (4 < 65536 ∧ example_table.API_tree.length = 4 ∧
      (example_table.API_tree.map (fun e => e.place)).Perm (List.range 4)) ∧
    ∃ tree', recursive_optimiser 4 (4 + 1) 0 (((4 : Nat) : Int) - 1)
          ⟨example_table.API_tree, 0, 7⟩ = some ⟨tree', 4, 7⟩ ∧
      tree'.Perm example_table.API_tree ∧
      tree'.map (fun e => (e.place : Int)) = pre 0 (((4 : Nat) : Int) - 1) ∧
      ∀ i, i < 4 → ∃ e, tree'[i]? = some e ∧ e ∈ example_table.API_tree ∧
        (pre 0 (((4 : Nat) : Int) - 1))[i]? = some (e.place : Int) :=
  ⟨by decide, C16_placement 4 example_table.API_tree 7 (by decide) (by decide) (by decide)⟩

/-- C17: on an array of `N = NUM_OF_API_FUNCS` records that all have a name, whose places
are stored in the order of the reference sequence `pre(0, N-1)` and order the records as
`strcmp` orders their names, the relink loop of `optimise_api_tree` completes, keeps the
place, name, description and handler of every slot, and links the slots into a tree
rooted at `API_tree[0]` that contains every slot and that, with every slot replaced by
its place, is the median-split tree of the ranks `0 .. N-1`. -/
theorem C17_relink (N : Nat) (tree : List API_t) (pc : Nat) (hN0 : 0 < N)
    (hlen : tree.length = N) (hnames : ∀ i, i < N → name_at tree i ≠ none)
    (hpre : tree.map (fun e => (e.place : Int)) = pre 0 ((N : Int) - 1))
    (hrank : ∀ i, i < N → ∀ j, j < N →
      (strcmp (key_of tree i) (key_of tree j) > 0 ↔ place_at tree i > place_at tree j)) :
    ∃ tree' T, relink_loop N N 0 ⟨tree, 0, pc⟩ = some ⟨tree', N, pc⟩ ∧
      tree'.map payload = tree.map payload ∧
      tree_of tree' (N + 1) (some 0) = some T ∧
      T.inorder.Perm (List.range N) ∧
      T.map (place_at tree') = split_tree 0 ((N : Int) - 1) := by
  have hkeys : ∀ j, 0 ≤ j → j < N → name_at tree j = some (key_of tree j) := by
    intro j _ hj
    cases hn : name_at tree j with
    | none => exact absurd hn (hnames j hj)
    | some n => rw [key_of_spec hn]
  obtain ⟨tree', hrun, hlen', hL, hpay⟩ :=
    relink_spec N pc (key_of tree) N 0 tree hlen (by omega) (linked_empty _ _) hkeys
  have hplace : place_at tree' = place_at tree := by
    funext j
    have : (tree'[j]?).map payload = (tree[j]?).map payload := by
      rw [← List.getElem?_map, ← List.getElem?_map, hpay]
    unfold place_at
    cases h1 : tree'[j]? <;> cases h2 : tree[j]? <;> simp [h1, h2, payload] at this ⊢
    exact this.1
  have hnat : tree.map (fun e => e.place) = (med 0 N).preorder := by
    rw [pre_zero] at hpre
    have hinj : Function.Injective (fun x : Nat => (x : Int)) := fun a b h => by
      simpa using h
    apply List.map_injective_iff.mpr hinj
    rw [List.map_map]
    exact hpre
  have hmed : (ins_upto (key_of tree) N).map (place_at tree) = med 0 N := by
    rw [ins_upto_eq_ins_list]
    apply ins_list_med
    · rw [← hnat, map_eq_map_range tree (fun e => e.place) 0, hlen]
      rfl
    · intro a ha b hb
      exact hrank a (List.mem_range.mp ha) b (List.mem_range.mp hb)
  have hrep := hL.rep
  rw [hL.root hN0] at hrep
  refine ⟨tree', ins_upto (key_of tree) N, hrun, hpay, ?_, hL.perm, ?_⟩
  · exact tree_of_of_rep hrep (N + 1)
      (by have := BT.height_le_size (ins_upto (key_of tree) N); have := hL.size_eq; omega)
  · rw [hplace, hmed, split_tree_zero]

/-- C17 at the records of the built table of `init_interpreter`. -/
theorem C17_relink_witness :
    (0 < 4 ∧ example_table.API_tree.length = 4 ∧
      (∀ i, i < 4 → name_at example_table.API_tree i ≠ none) ∧
      example_table.API_tree.map (fun e => (e.place : Int)) = pre 0 (((4 : Nat) : Int) - 1) ∧
      ∀ i, i < 4 → ∀ j, j < 4 →
        (strcmp (key_of example_table.API_tree i) (key_of example_table.API_tree j) > 0 ↔
          place_at example_table.API_tree i > place_at example_table.API_tree j)) ∧
    ∃ tree' T, relink_loop 4 4 0 ⟨example_table.API_tree, 0, 4⟩ = some ⟨tree', 4, 4⟩ ∧
      tree'.map payload = example_table.API_tree.map payload ∧
      tree_of tree' (4 + 1) (some 0) = some T ∧
      T.inorder.Perm (List.range 4) ∧
      T.map (place_at tree') = split_tree 0 (((4 : Nat) : Int) - 1) :=
  have hpre : example_table.API_tree.map (fun e => (e.place : Int)) =
      pre 0 (((4 : Nat) : Int) - 1) := by
    rw [pre_zero]
    simp [med_succ, med_zero, BT.preorder, example_table]
  ⟨⟨by decide, by decide, by decide, hpre, by decide⟩,
    C17_relink 4 example_table.API_tree 4 (by decide) (by decide) (by decide) hpre
      (by decide)⟩

/-! ## Insertion: the invariant and the tie-break -/

/-- One round of the descent of `add_interpreter_instruction`: it takes the left link
when the new name is smaller than the name of the node, and the right link when it is
equal or greater; it stops when that link is `NULL`. -/
theorem add_walk_step (tree : List API_t) (nm : List Char) (fuel prev : Nat) (e : API_t)
    (pn : List Char) (he : tree[prev]? = some e) (hn : e.name = some pn) :
    add_walk tree nm (fuel + 1) prev =
      match (if strcmp nm pn < 0 then e.left else e.right) with
      | none => some (prev, strcmp pn nm)
      | some next => add_walk tree nm fuel next := by
  simp only [add_walk, he, hn, Option.bind_eq_bind, Option.some_bind]
  have : (strcmp pn nm > 0) ↔ (strcmp nm pn < 0) := strcmp_pos_iff pn nm
  by_cases h : strcmp nm pn < 0
  · simp only [this.mpr h, h, if_true]
  · have h' : ¬ strcmp pn nm > 0 := fun hh => h (this.mp hh)
    simp only [h', h, if_false]

/-- The descent stops at a node whose link on the side of the comparison is `NULL`. -/
theorem add_walk_stop (tree : List API_t) (nm : List Char) :
    ∀ (fuel i p : Nat) (comp : Int), add_walk tree nm fuel i = some (p, comp) →
      ∃ e pn, tree[p]? = some e ∧ e.name = some pn ∧ comp = strcmp pn nm ∧
        (if comp > 0 then e.left else e.right) = none := by
  intro fuel
  induction fuel with
  | zero => intro i p comp h; simp [add_walk] at h
  | succ f ih =>
    intro i p comp h
    simp only [add_walk, Option.bind_eq_bind] at h
    cases he : tree[i]? with
    | none => simp [he] at h
    | some e =>
      cases hn : e.name with
      | none => simp [he, hn] at h
      | some pn =>
        simp only [he, hn, Option.some_bind] at h
        cases hl : (if strcmp pn nm > 0 then e.left else e.right) with
        | none =>
          rw [hl] at h
          simp only [Option.some.injEq, Prod.mk.injEq] at h
          obtain ⟨h1, h2⟩ := h
          subst h1 h2
          exact ⟨e, pn, he, hn, rfl, hl⟩
        | some next =>
          rw [hl] at h
          exact ih next p comp h

theorem ins_upto_perm (key : Nat → List Char) (n : Nat) :
    (ins_upto key n).inorder.Perm (List.range n) := by
  induction n with
  | zero => simp [ins_upto, BT.inorder]
  | succ n ih =>
    simp only [ins_upto]
    refine (ins_inorder_perm key (key n) n _).trans ?_
    rw [List.range_succ]
    exact ((ih.cons n).trans (List.perm_append_singleton n _).symm)

/-- C18: starting from the empty table, after every successful
`add_interpreter_instruction` (the registration of a command `x` after the commands
`cmds`, with room left), the first `API_cntr` slots are one binary tree rooted at
`API_tree[0]` in which, at every node, every name in the left subtree is smaller than the
name of the node and no name in the right subtree is smaller than it; the new record is
in the slot that `API_cntr` pointed to, with place 0 and both links `NULL`; and the only
other change is that one `NULL` link of one earlier slot now points to the new slot (no
other change at all for the first record). -/
theorem C18_insert_invariant (N : Nat) (cmds : List Command) (x : Command)
    (hlen : cmds.length < N) :
    ∃ s s' T, register N cmds { initial_state N with API_cntr := 0 } = some s ∧
      s.API_cntr = cmds.length ∧
      add_interpreter_instruction N (some x.1) (some x.2.1) (some x.2.2) s = some s' ∧
      s'.API_cntr = cmds.length + 1 ∧
      tree_of s'.API_tree (N + 1) (some 0) = some T ∧
      T.inorder.Perm (List.range (cmds.length + 1)) ∧
      (∀ j, j < cmds.length + 1 →
        name_at s'.API_tree j = some (name_of (cmds ++ [x]) j)) ∧
      bst (name_of (cmds ++ [x])) T ∧
      s'.API_tree[cmds.length]? = some ⟨0, none, none, some x.1, some x.2.1, some x.2.2⟩ ∧
      (cmds = [] → ∀ j, j ≠ 0 → s'.API_tree[j]? = s.API_tree[j]?) ∧
      (cmds ≠ [] → ∃ p e, p < cmds.length ∧ s.API_tree[p]? = some e ∧
        ((e.left = none ∧ s'.API_tree[p]? = some { e with left := some cmds.length }) ∨
          (e.right = none ∧ s'.API_tree[p]? = some { e with right := some cmds.length })) ∧
        ∀ j, j ≠ p → j ≠ cmds.length → s'.API_tree[j]? = s.API_tree[j]?) := by
  obtain ⟨tree, hreg, hlen0, hL, -⟩ := register_linked N cmds (by omega)
  obtain ⟨tree', hreg', hlen', hL', -⟩ := register_linked N (cmds ++ [x])
    (by simp; omega)
  simp only [List.length_append, List.length_singleton] at hreg' hL'
  have hadd : add_interpreter_instruction N (some x.1) (some x.2.1) (some x.2.2)
      ⟨tree, cmds.length, 0⟩ = some ⟨tree', cmds.length + 1, 0⟩ := by
    rw [register_append, hreg] at hreg'
    simp only [Option.some_bind, register, Option.bind_eq_bind] at hreg'
    cases h : add_interpreter_instruction N (some x.1) (some x.2.1) (some x.2.2)
        ⟨tree, cmds.length, 0⟩ with
    | none => rw [h] at hreg'; simp at hreg'
    | some s1 =>
      rw [h] at hreg'
      simpa using hreg'
  have hrep' := hL'.rep
  rw [hL'.root (by omega)] at hrep'
  have htree : tree_of tree' (N + 1) (some 0) =
      some (ins_upto (name_of (cmds ++ [x])) (cmds.length + 1)) :=
    tree_of_of_rep hrep' (N + 1) (by
      have := BT.height_le_size (ins_upto (name_of (cmds ++ [x])) (cmds.length + 1))
      have := hL'.size_eq
      omega)
  have hclen : cmds.length < tree.length := by omega
  refine ⟨⟨tree, cmds.length, 0⟩, ⟨tree', cmds.length + 1, 0⟩, _, hreg, rfl, hadd, rfl,
    htree, hL'.perm, hL'.keys, ins_upto_bst _ _, ?_, ?_, ?_⟩
  · -- the new record
    rcases Nat.eq_zero_or_pos cmds.length with h0 | hpos
    · have hN : ¬ N ≤ 0 := by omega
      simp only [add_interpreter_instruction, h0, ge_iff_le, hN, if_false, if_true,
        Option.some.injEq, State.mk.injEq] at hadd
      rw [h0, ← hadd.1, List.getElem?_set_eq_of_lt _ (by omega)]
    · have hN : ¬ N ≤ cmds.length := by omega
      have hne : cmds.length ≠ 0 := by omega
      simp only [add_interpreter_instruction, ge_iff_le, hN, if_false, hne,
        Option.bind_eq_bind, Option.some_bind] at hadd
      cases hw : add_walk tree x.1 N 0 with
      | none => simp [hw] at hadd
      | some pc =>
        simp only [hw, Option.some_bind] at hadd
        cases hp : tree[pc.1]? with
        | none => simp [hp] at hadd
        | some e =>
          simp only [hp, Option.some_bind, Option.some.injEq, State.mk.injEq] at hadd
          rw [← hadd.1, List.getElem?_set_eq_of_lt]
          simpa using hclen
  · -- the first record
    intro hnil j hj
    have h0 : cmds.length = 0 := by simp [hnil]
    have hN : ¬ N ≤ 0 := by omega
    simp only [add_interpreter_instruction, h0, ge_iff_le, hN, if_false, if_true,
      Option.some.injEq, State.mk.injEq] at hadd
    show tree'[j]? = tree[j]?
    rw [← hadd.1, List.getElem?_set_ne (Ne.symm hj)]
  · -- a later record
    intro hne
    have hpos : 0 < cmds.length := List.length_pos.mpr hne
    have hN : ¬ N ≤ cmds.length := by omega
    have hne0 : cmds.length ≠ 0 := by omega
    have hrep := hL.rep
    rw [hL.root hpos] at hrep
    obtain ⟨p, comp, e, hw, hep, hp, -⟩ :=
      add_walk_spec tree (name_of cmds) x.1 cmds.length
        ⟨0, none, none, some x.1, some x.2.1, some x.2.2⟩ rfl rfl hclen _ 0 N hrep
        (fun j hj => hL.keys j ((hL.mem_iff j).mp hj)) hL.nodup
        (fun j hj => (hL.mem_iff j).mp hj)
        (by have := BT.height_le_size (ins_upto (name_of cmds) cmds.length)
            have := hL.size_eq; omega)
    have hpc : p < cmds.length := (hL.mem_iff p).mp hp
    obtain ⟨e', pn, hep', -, -, hnull⟩ := add_walk_stop tree x.1 N 0 p comp hw
    rw [hep] at hep'
    simp only [Option.some.injEq] at hep'
    subst hep'
    simp only [add_interpreter_instruction, ge_iff_le, hN, if_false, hne0,
      Option.bind_eq_bind, Option.some_bind, hw, hep, Option.some.injEq,
      State.mk.injEq] at hadd
    have htree' := hadd.1
    refine ⟨p, e, hpc, hep, ?_, ?_⟩
    · show (e.left = none ∧ tree'[p]? = _) ∨ (e.right = none ∧ tree'[p]? = _)
      rw [← htree', List.getElem?_set_ne (by omega),
        List.getElem?_set_eq_of_lt _ (by omega)]
      by_cases hc : comp > 0
      · left
        simp only [hc, if_true] at hnull ⊢
        exact ⟨hnull, trivial⟩
      · right
        simp only [hc, if_false] at hnull ⊢
        exact ⟨hnull, trivial⟩
    · intro j hjp hjc
      show tree'[j]? = tree[j]?
      rw [← htree', List.getElem?_set_ne (Ne.symm hjc), List.getElem?_set_ne (Ne.symm hjp)]

/-- C18 at the first three commands of `init_interpreter` followed by the fourth, with
`NUM_OF_API_FUNCS = 4`. -/
theorem C18_insert_invariant_witness :
    (example_commands.take 3).length < 4 ∧
    ∃ s s' T, register 4 (example_commands.take 3) { initial_state 4 with API_cntr := 0 } =
        some s ∧
      s.API_cntr = (example_commands.take 3).length ∧
      add_interpreter_instruction 4 (some "right".toList)
        (some "command used to turn right".toList) (some 4) s = some s' ∧
      s'.API_cntr = (example_commands.take 3).length + 1 ∧
      tree_of s'.API_tree (4 + 1) (some 0) = some T ∧
      T.inorder.Perm (List.range ((example_commands.take 3).length + 1)) ∧
      (∀ j, j < (example_commands.take 3).length + 1 →
        name_at s'.API_tree j = some (name_of (example_commands.take 3 ++
          [("right".toList, "command used to turn right".toList, 4)]) j)) ∧
      bst (name_of (example_commands.take 3 ++
        [("right".toList, "command used to turn right".toList, 4)])) T ∧
      s'.API_tree[(example_commands.take 3).length]? =
        some ⟨0, none, none, some "right".toList,
          some "command used to turn right".toList, some 4⟩ ∧
      (example_commands.take 3 = [] → ∀ j, j ≠ 0 → s'.API_tree[j]? = s.API_tree[j]?) ∧
      (example_commands.take 3 ≠ [] →
        ∃ p e, p < (example_commands.take 3).length ∧ s.API_tree[p]? = some e ∧
          ((e.left = none ∧ s'.API_tree[p]? =
              some { e with left := some (example_commands.take 3).length }) ∨
            (e.right = none ∧ s'.API_tree[p]? =
              some { e with right := some (example_commands.take 3).length })) ∧
          ∀ j, j ≠ p → j ≠ (example_commands.take 3).length →
            s'.API_tree[j]? = s.API_tree[j]?) :=
  ⟨by decide, C18_insert_invariant 4 (example_commands.take 3)
    ("right".toList, "command used to turn right".toList, 4) (by decide)⟩

/-! ## The tie-breaks -/

theorem BT.right_heavy_map (f : Nat → Nat) (T : BT) :
    (T.map f).right_heavy ↔ T.right_heavy := by
  induction T with
  | nil => simp [BT.map, BT.right_heavy]
  | node l i r ihl ihr => simp [BT.map, BT.right_heavy, BT.size_map, ihl, ihr]

theorem med_right_heavy (n : Nat) : ∀ lo, (med lo n).right_heavy := by
  induction n using Nat.strong_induction_on with
  | _ n ih =>
    intro lo
    cases n with
    | zero => simp [med_zero, BT.right_heavy]
    | succ n =>
      rw [med_succ]
      simp only [BT.right_heavy, med_size]
      exact ⟨by omega, ih _ (by omega) _, ih _ (by omega) _⟩

theorem split_tree_size (lo hi : Int) (hlo : 0 ≤ lo) (hhi : lo ≤ hi + 1) :
    (split_tree lo hi).size = (hi - lo + 1).toNat := by
  have h1 : lo = ((lo.toNat : Nat) : Int) := by omega
  have h2' : lo + (((hi - lo + 1).toNat : Nat) : Int) - 1 = hi := by omega
  have h3 := split_tree_eq_med (hi - lo + 1).toNat lo.toNat
  rw [← h1] at h3
  rw [h2'] at h3
  rw [h3, med_size]

/-- C19, as stated, fails: in the tree built from the four commands of `init_interpreter`
(`NUM_OF_API_FUNCS = 4`) the root has one record in its left subtree and two in its
right subtree, so the sizes differ and it is not the left subtree that holds the extra
node. -/
theorem C19_counterexample :
    (build 4 example_commands).bind (fun s => tree_of s.API_tree 5 (some 0)) =
        some (BT.node (BT.node BT.nil 1 BT.nil) 0
          (BT.node BT.nil 2 (BT.node BT.nil 3 BT.nil))) ∧
      (BT.node BT.nil 1 BT.nil).size ≠ (BT.node BT.nil 2 (BT.node BT.nil 3 BT.nil)).size ∧
      (BT.node BT.nil 1 BT.nil).size ≠
        (BT.node BT.nil 2 (BT.node BT.nil 3 BT.nil)).size + 1 := by
  decide

/-- C19, amended: in the tree built from `N = NUM_OF_API_FUNCS` commands with pairwise
different names (`1 ≤ N < 2^16`), at every node the two subtrees have the same size or
the right subtree holds one node more, `size(right) = size(left) + 1`. The tree, with
every slot replaced by its place, is the median-split tree of `0 .. N-1`, and in the
median-split tree of a range `lo .. hi` the right subtree of the root has as many nodes
as the left one when `lo + hi` is even and one more when `lo + hi` is odd, `mid`
rounding down. -/
theorem C19_tie_break (N : Nat) (cmds : List Command) (hN0 : 0 < N) (hN : N < 65536)
    (hlen : cmds.length = N) (hnd : (cmds.map (fun c => c.1)).Nodup) :
    ∃ s T, build N cmds = some s ∧ tree_of s.API_tree (N + 1) (some 0) = some T ∧
      T.right_heavy ∧
      T.map (place_at s.API_tree) = split_tree 0 ((N : Int) - 1) ∧
      ∀ lo hi : Int, 0 ≤ lo → lo ≤ hi →
        (split_tree ((lo + hi) / 2 + 1) hi).size =
          (split_tree lo ((lo + hi) / 2 - 1)).size + ((lo + hi) % 2).toNat := by
  obtain ⟨tree, hbuild, hB⟩ := build_spec N hN0 hN cmds hlen
  refine ⟨⟨tree, N, N⟩, ins_upto (key_of tree) N, hbuild, hB.tree_of hN0, ?_, ?_, ?_⟩
  · rw [← BT.right_heavy_map (place_at tree), hB.med hnd]
    exact med_right_heavy N 0
  · rw [hB.med hnd, split_tree_zero]
  · intro lo hi hlo hhi
    rw [split_tree_size _ _ (by omega) (by omega), split_tree_size _ _ hlo (by omega)]
    omega

/-- C19, amended, at the four commands of `init_interpreter` with `NUM_OF_API_FUNCS = 4`. -/
theorem C19_tie_break_witness :
    (0 < 4 ∧ 4 < 65536 ∧ example_commands.length = 4 ∧
      (example_commands.map (fun c => c.1)).Nodup) ∧
    ∃ s T, build 4 example_commands = some s ∧
      tree_of s.API_tree (4 + 1) (some 0) = some T ∧
      T.right_heavy ∧
      T.map (place_at s.API_tree) = split_tree 0 (((4 : Nat) : Int) - 1) ∧
      ∀ lo hi : Int, 0 ≤ lo → lo ≤ hi →
        (split_tree ((lo + hi) / 2 + 1) hi).size =
          (split_tree lo ((lo + hi) / 2 - 1)).size + ((lo + hi) % 2).toNat :=
  ⟨by decide, C19_tie_break 4 example_commands (by decide) (by decide) (by decide)
    (by decide)⟩

theorem ins_right_of (key : Nat → List Char) (nm : List Char) (c i : Nat) (T : BT)
    (hb : bst key T) (hi : i ∈ T.inorder) (hk : key i = nm) :
    c ∈ (ins key nm c T).right_of i := by
  induction T with
  | nil => simp [BT.inorder] at hi
  | node l j r ihl ihr =>
    obtain ⟨h1, h2, h3, h4⟩ := hb
    by_cases hji : j = i
    · subst hji
      have hz : ¬ strcmp (key j) nm > 0 := by rw [hk, strcmp_self]; omega
      simp only [ins, if_neg hz, BT.right_of, if_true]
      exact (ins_mem key nm c r c).mpr (Or.inl rfl)
    · simp only [BT.inorder, List.mem_append, List.mem_cons] at hi
      by_cases hc : strcmp (key j) nm > 0
      · have hil : i ∈ l.inorder := by
          rcases hi with h | h | h
          · exact h
          · exact absurd h.symm hji
          · exact absurd (hk ▸ hc) (h2 i h)
        simp only [ins, if_pos hc, BT.right_of, if_neg hji, List.mem_append]
        exact Or.inl (ihl h3 hil)
      · have hir : i ∈ r.inorder := by
          rcases hi with h | h | h
          · exact absurd (hk ▸ h1 i h) hc
          · exact absurd h.symm hji
          · exact h
        simp only [ins, if_neg hc, BT.right_of, if_neg hji, List.mem_append]
        exact Or.inr (ihr h4 hir)

/-- C20, as stated, fails: after the registration of two commands with the same name
`a`, the second record hangs on the right link of the first; the left link of the first
is `NULL`. -/
theorem C20_counterexample :
    (register 2 twin_commands { initial_state 2 with API_cntr := 0 }).map
        (fun s => s.API_tree.map links) = some [(none, some 1), (none, none)] := by
  decide

/-- C20, amended: in `add_interpreter_instruction` the new record descends left at a
node exactly when its name is smaller than the name of the node (`comp_res > 0`), and
right when it is equal or greater. So when a command `x` is registered after the
commands `cmds` (with room left) and has the name of the command in slot `i`, the new
slot is in the right subtree of slot `i`: right holds 'not smaller'. -/
theorem C20_insert_tie_break (N : Nat) (cmds : List Command) (x : Command) (i : Nat)
    (hlen : cmds.length < N) (hi : i < cmds.length) (hname : name_of cmds i = x.1) :
    (∃ s T, register N (cmds ++ [x]) { initial_state N with API_cntr := 0 } = some s ∧
      tree_of s.API_tree (N + 1) (some 0) = some T ∧
      cmds.length ∈ T.right_of i) ∧
    (∀ (tree : List API_t) (nm : List Char) (fuel prev : Nat) (e : API_t) (pn : List Char),
      tree[prev]? = some e → e.name = some pn →
      add_walk tree nm (fuel + 1) prev =
        match (if strcmp nm pn < 0 then e.left else e.right) with
        | none => some (prev, strcmp pn nm)
        | some next => add_walk tree nm fuel next) := by
  refine ⟨?_, fun tree nm fuel prev e pn he hn => add_walk_step tree nm fuel prev e pn he hn⟩
  obtain ⟨tree', hreg', -, hL', -⟩ := register_linked N (cmds ++ [x]) (by simp; omega)
  simp only [List.length_append, List.length_singleton] at hreg' hL'
  have hrep' := hL'.rep
  rw [hL'.root (by omega)] at hrep'
  refine ⟨⟨tree', cmds.length + 1, 0⟩, _, hreg', tree_of_of_rep hrep' (N + 1) (by
    have := BT.height_le_size (ins_upto (name_of (cmds ++ [x])) (cmds.length + 1))
    have := hL'.size_eq
    omega), ?_⟩
  have hkc : name_of (cmds ++ [x]) cmds.length = x.1 := by
    simp [name_of]
  have hki : name_of (cmds ++ [x]) i = x.1 := by
    rw [← hname]
    simp [name_of, List.getElem?_append_left hi]
  simp only [ins_upto]
  rw [hkc]
  exact ins_right_of _ _ _ i _ (ins_upto_bst _ _)
    ((ins_upto_perm _ _).mem_iff.mpr (List.mem_range.mpr hi)) hki

/-- C20, amended, at two commands with the same name in a table of two slots. -/
theorem C20_insert_tie_break_witness :
    (([("a".toList, "first".toList, 1)] : List Command).length < 2 ∧
      0 < ([("a".toList, "first".toList, 1)] : List Command).length ∧
      name_of [("a".toList, "first".toList, 1)] 0 =
        (("a".toList, "second".toList, 2) : Command).1) ∧
    ∃ s T, register 2 ([("a".toList, "first".toList, 1)] ++
          [("a".toList, "second".toList, 2)]) { initial_state 2 with API_cntr := 0 } =
        some s ∧
      tree_of s.API_tree (2 + 1) (some 0) = some T ∧
      ([("a".toList, "first".toList, 1)] : List Command).length ∈ T.right_of 0 :=
  ⟨by decide, (C20_insert_tie_break 2 [("a".toList, "first".toList, 1)]
    ("a".toList, "second".toList, 2) 0 (by decide) (by decide) (by decide)).1⟩

/-! ## Links point to later slots -/

/-- The descent of `add_interpreter_instruction` stays among the linked slots. -/
theorem add_walk_lt (tree : List API_t) (nm : List Char) (c : Nat) (h : ascending tree c) :
    ∀ (fuel prev p : Nat) (r : Int), prev < c → add_walk tree nm fuel prev = some (p, r) →
      p < c := by
  intro fuel
  induction fuel with
  | zero => intro prev p r _ hw; simp [add_walk] at hw
  | succ f ih =>
    intro prev p r hp hw
    simp only [add_walk, Option.bind_eq_bind, Option.bind_eq_some] at hw
    obtain ⟨node, hnode, pn, hpn, hw⟩ := hw
    cases hl : (if strcmp pn nm > 0 then node.left else node.right) with
    | none =>
      rw [hl] at hw
      simp only [Option.some.injEq, Prod.mk.injEq] at hw
      omega
    | some next =>
      rw [hl] at hw
      have hnext : node.left = some next ∨ node.right = some next := by
        split_ifs at hl
        · exact Or.inl hl
        · exact Or.inr hl
      exact ih next p r (h prev node next hp hnode hnext).2 hw

/-- One call of `add_interpreter_instruction` that returns: the counter advances by one
while there is room, the slots behind the new one are left alone, and the links of the
slots in use still point to later slots in use. -/
theorem add_ascending (N : Nat) (name d : Option (List Char)) (f : Option Nat) (s s1 : State)
    (h : add_interpreter_instruction N name d f s = some s1)
    (hasc : ascending s.API_tree s.API_cntr) :
    ascending s1.API_tree s1.API_cntr ∧ s1.API_tree.length = s.API_tree.length ∧
      s1.API_cntr = (if s.API_cntr ≥ N then s.API_cntr else s.API_cntr + 1) ∧
      s1.API_place_cntr = s.API_place_cntr ∧
      (∀ j, s.API_cntr < j → s1.API_tree[j]? = s.API_tree[j]?) ∧
      (s.API_cntr ≥ N → s1 = s) := by
  unfold add_interpreter_instruction at h
  by_cases hfull : s.API_cntr ≥ N
  · rw [if_pos hfull] at h
    simp only [Option.some.injEq] at h
    subst h
    simp [hfull, hasc]
  rw [if_neg hfull] at h
  by_cases hzero : s.API_cntr = 0
  · rw [if_pos hzero] at h
    simp only [Option.some.injEq] at h
    subst h
    refine ⟨?_, by simp, by simp [hfull], rfl, ?_, fun hc => absurd hc hfull⟩
    · intro i e j hi he hj
      simp only [hzero] at hi he
      have hi0 : i = 0 := by omega
      subst hi0
      rw [List.getElem?_set, if_pos rfl] at he
      by_cases hlt : 0 < s.API_tree.length
      · rw [if_pos hlt] at he
        simp only [Option.some.injEq] at he
        subst he
        simp at hj
      · rw [if_neg hlt] at he
        exact absurd he (by simp)
    · intro j hj
      simp only
      rw [List.getElem?_set_ne (by omega)]
  · rw [if_neg hzero] at h
    simp only [Option.bind_eq_bind, Option.bind_eq_some] at h
    obtain ⟨nm, hname, ⟨prev, comp⟩, hwalk, p, hp, h⟩ := h
    simp only [Option.some.injEq] at h
    subst h
    have hprev : prev < s.API_cntr :=
      add_walk_lt s.API_tree nm s.API_cntr hasc N 0 prev comp (by omega) hwalk
    have hplen : prev < s.API_tree.length := (List.getElem?_eq_some.mp hp).1
    refine ⟨?_, by simp, by simp [hfull], rfl, ?_, fun hc => absurd hc hfull⟩
    · intro i e j hi he hj
      show i < j ∧ j < s.API_cntr + 1
      simp only at hi he
      by_cases hic : i = s.API_cntr
      · subst hic
        rw [List.getElem?_set, if_pos rfl] at he
        by_cases hlt : s.API_cntr < (s.API_tree.set prev
            (if comp > 0 then { p with left := some s.API_cntr }
              else { p with right := some s.API_cntr })).length
        · rw [if_pos hlt] at he
          simp only [Option.some.injEq] at he
          subst he
          simp at hj
        · rw [if_neg hlt] at he
          exact absurd he (by simp)
      · rw [List.getElem?_set_ne (Ne.symm hic)] at he
        by_cases hip : i = prev
        · subst hip
          rw [List.getElem?_set_eq_of_lt _ hplen] at he
          simp only [Option.some.injEq] at he
          subst he
          have hold := hasc i p j hprev hp
          by_cases hcomp : comp > 0
          · rw [if_pos hcomp] at hj
            rcases hj with hj | hj
            · simp only [Option.some.injEq] at hj
              omega
            · have := hold (Or.inr hj)
              omega
          · rw [if_neg hcomp] at hj
            rcases hj with hj | hj
            · have := hold (Or.inl hj)
              omega
            · simp only [Option.some.injEq] at hj
              omega
        · rw [List.getElem?_set_ne (Ne.symm hip)] at he
          have := hasc i e j (by omega) he hj
          omega
    · intro j hj
      simp only
      rw [List.getElem?_set_ne (by omega), List.getElem?_set_ne (by omega)]

/-- Registration keeps the links ascending and leaves the slots behind the counter alone;
the counter ends at the number of commands when there is room for them. -/
theorem register_ascending (N : Nat) :
    ∀ (cmds : List Command) (s s1 : State), register N cmds s = some s1 →
      ascending s.API_tree s.API_cntr →
      ascending s1.API_tree s1.API_cntr ∧ s.API_cntr ≤ s1.API_cntr ∧
        (∀ j, s1.API_cntr ≤ j → N ≤ s1.API_cntr ∨ s1.API_tree[j]? = s.API_tree[j]?) := by
  intro cmds
  induction cmds with
  | nil =>
    intro s s1 h hasc
    simp only [register, Option.some.injEq] at h
    subst h
    exact ⟨hasc, Nat.le_refl _, fun j _ => Or.inr rfl⟩
  | cons c cs ih =>
    intro s s1 h hasc
    simp only [register, Option.bind_eq_bind, Option.bind_eq_some] at h
    obtain ⟨s0, hadd, hreg⟩ := h
    obtain ⟨hasc0, -, hc0, -, hfr0, hsame⟩ := add_ascending N _ _ _ s s0 hadd hasc
    obtain ⟨hasc1, hle, hfr1⟩ := ih s0 s1 hreg hasc0
    refine ⟨hasc1, ?_, ?_⟩
    · split_ifs at hc0 <;> omega
    · intro j hj
      rcases hfr1 j hj with hN | hj1
      · exact Or.inl hN
      · by_cases hfull : s.API_cntr ≥ N
        · left
          rw [if_pos hfull] at hc0
          omega
        · right
          rw [hj1]
          apply hfr0
          rw [if_neg hfull] at hc0
          omega

/-- The relink loop of `optimise_api_tree`, whenever it returns: the counter has advanced
by one per round and the links of the relinked slots point to later slots. -/
theorem relink_ascending (N : Nat) :
    ∀ (todo i : Nat) (s s1 : State), relink_loop N todo i s = some s1 → s.API_cntr = i →
      i + todo ≤ N → ascending s.API_tree i →
      s1.API_cntr = i + todo ∧ ascending s1.API_tree (i + todo) ∧
        s1.API_place_cntr = s.API_place_cntr ∧ s1.API_tree.length = s.API_tree.length := by
  intro todo
  induction todo with
  | zero =>
    intro i s s1 h hc _ hasc
    simp only [relink_loop, Option.some.injEq] at h
    subst h
    exact ⟨hc, hasc, rfl, rfl⟩
  | succ t ih =>
    intro i s s1 h hc hi hasc
    simp only [relink_loop, Option.bind_eq_bind, Option.bind_eq_some] at h
    obtain ⟨buffer, -, s0, hadd, e, he, hloop⟩ := h
    obtain ⟨hasc0, hlen0, hc0, hpc0, -, -⟩ :=
      add_ascending N _ _ _ s s0 hadd (by rw [hc]; exact hasc)
    rw [if_neg (by omega)] at hc0
    have hilen : i < s0.API_tree.length := (List.getElem?_eq_some.mp he).1
    obtain ⟨h1, h2, h3, h4⟩ := ih (i + 1) _ s1 hloop (by simp only; omega) (by omega) (by
      intro a ea j ha hea hj
      simp only at hea
      by_cases hai : a = i
      · subst hai
        rw [List.getElem?_set_eq_of_lt _ hilen] at hea
        simp only [Option.some.injEq] at hea
        subst hea
        have := hasc0 a e j (by omega) he hj
        omega
      · rw [List.getElem?_set_ne (Ne.symm hai)] at hea
        have := hasc0 a ea j (by omega) hea hj
        omega)
    refine ⟨by omega, ?_, ?_, ?_⟩
    · rw [show i + (t + 1) = i + 1 + t by omega]
      exact h2
    · rw [h3]
      exact hpc0
    · rw [h4]
      simp [hlen0]

/-- Whenever `optimise_api_tree` returns, `API_cntr` is `NUM_OF_API_FUNCS` and every link
points to a later slot. -/
theorem optimise_ascending (N : Nat) (s s1 : State) (h : optimise_api_tree N s = some s1) :
    s1.API_cntr = N ∧ ascending s1.API_tree N := by
  simp only [optimise_api_tree, Option.bind_eq_bind, Option.bind_eq_some] at h
  obtain ⟨s0, -, hloop⟩ := h
  obtain ⟨h1, h2, -, -⟩ := relink_ascending N N 0 _ s1 hloop rfl (by omega)
    (fun i e j hi _ _ => absurd hi (Nat.not_lt_zero i))
  simp only [Nat.zero_add] at h1 h2
  exact ⟨h1, h2⟩

/-! ## The edge cases of the balancer -/

/-- C21, as stated, fails when the table has more slots than registered records: with
`NUM_OF_API_FUNCS = 8`, the value in `interpreter.h`, and no record registered,
`optimise_api_tree` does not complete (before or after the indexer has run), and with the
one record `stop` registered it does not complete either: the relink loop reaches an empty
slot and reads its name through a `NULL` pointer. -/
theorem C21_counterexample :
    register 8 [] { initial_state 8 with API_cntr := 0 } = some (initial_state 8) ∧
      optimise_api_tree 8 (initial_state 8) = none ∧
      (index_apis_in_order 8 (some 0) (initial_state 8)).bind (optimise_api_tree 8) = none ∧
      (example_commands.take 1).length = 1 ∧
      (register 8 (example_commands.take 1) { initial_state 8 with API_cntr := 0 }).bind
        (optimise_api_tree 8) = none ∧
      build 8 (example_commands.take 1) = none := by
  decide

/-- C21, amended: on a table without slots (`NUM_OF_API_FUNCS = 0`) `optimise_api_tree`
returns and changes nothing but `API_cntr`, which it clears; on a table of one slot
(`NUM_OF_API_FUNCS = 1`) and no registered record it returns (directly, or after the
indexer as in the build), the slot is unchanged, with `NULL` name and `NULL` links, and only
`API_cntr` becomes `1`; on a table of one slot with one registered record `c` it returns
(directly, or after the indexer as in the build) and slot `0` holds `c` with both links
`NULL`. -/
theorem C21_edge_cases (c : Command) :
    (∀ s : State, optimise_api_tree 0 s = some { s with API_cntr := 0 }) ∧
      (initial_state 0).API_tree = [] ∧
      (register 1 [] { initial_state 1 with API_cntr := 0 }).bind (optimise_api_tree 1) =
        some { initial_state 1 with API_cntr := 1 } ∧
      build 1 [] = some { initial_state 1 with API_cntr := 1, API_place_cntr := 1 } ∧
      (initial_state 1).API_tree = [⟨0, none, none, none, none, none⟩] ∧
      (register 1 [c] { initial_state 1 with API_cntr := 0 }).bind (optimise_api_tree 1) =
        some ⟨[⟨0, none, none, some c.1, some c.2.1, some c.2.2⟩], 1, 0⟩ ∧
      build 1 [c] = some ⟨[⟨0, none, none, some c.1, some c.2.1, some c.2.2⟩], 1, 1⟩ :=
  ⟨fun _ => rfl, rfl, rfl, rfl, rfl, rfl, rfl⟩

/-! ## The in-order recursions on a linked table -/

/-- On a table whose first `c ≥ 1` slots are linked into a tree, the links unfold to that
tree, `print_apis_in_order` prints one line per slot of its in-order sequence, and
`index_apis_in_order` returns after `c` counts, the `k`-th visited slot receiving `k`. -/
theorem traversal_linked {N c : Nat} {tree : List API_t} {key : Nat → List Char} {T : BT}
    (hL : Linked tree c key T) (hc0 : 0 < c) (hcN : c ≤ N) (cn pc : Nat) :
    tree_of tree (N + 1) (some 0) = some T ∧
      print_apis_in_order tree (N + 1) (some 0) =
        some (T.inorder.map (fun j => (place_at tree j, key_of tree j))) ∧
      ∃ s1, index_apis_in_order N (some 0) ⟨tree, cn, pc⟩ = some s1 ∧
        s1.API_place_cntr = c ∧
        ∀ k j, T.inorder[k]? = some j → place_at s1.API_tree j = to_uint16 k := by
  have hrep := hL.rep
  rw [hL.root hc0] at hrep
  have hh : T.height < N + 1 := by
    have := BT.height_le_size T
    have := hL.size_eq
    omega
  refine ⟨tree_of_of_rep hrep _ hh, ?_, ?_⟩
  · exact print_spec tree T (some 0) (N + 1) hrep
      (fun j hj => by
        have := hL.keys j ((hL.mem_iff j).mp hj)
        rw [key_of_spec this]
        exact this) hh
  · obtain ⟨tree1, hrun, -, hpl, -⟩ :=
      indexer_spec cn T (some 0) (N + 1) tree 0 hrep hL.nodup hh
    refine ⟨⟨tree1, cn, 0 + T.size⟩, hrun, ?_, ?_⟩
    · simp only [Nat.zero_add]
      exact hL.size_eq
    · intro k j hk
      have := hpl k j hk
      rw [Nat.zero_add] at this
      exact place_at_eq this

/-- C22: on every table that holds at least one registered command (after the registration
of `cmds` into the empty table when there is room for them, or after the build of a full
table of fewer than `2^16` slots), every `left` or `right` link of a slot points to a slot
of strictly larger index that holds a record. The links from `API_tree[0]` therefore
unfold to a finite tree `T`, whose in-order sequence contains every slot that holds a
record exactly once, and these slots hold exactly the registered commands.
`print_apis_in_order(&API_tree[0])` returns after one line for each slot of that sequence,
and `index_apis_in_order(&API_tree[0])` returns after as many counts as there are records,
the `k`-th visited slot receiving the (16-bit) count `k`. The depth that the model allows
the recursions is `NUM_OF_API_FUNCS + 1`. -/
theorem C22_traversal (N : Nat) (cmds : List Command) (s : State) (hne : cmds ≠ [])
    (hs : (cmds.length ≤ N ∧ register N cmds { initial_state N with API_cntr := 0 } = some s) ∨
      (cmds.length = N ∧ N < 65536 ∧ build N cmds = some s)) :
    (∀ i e j, s.API_tree[i]? = some e → (e.left = some j ∨ e.right = some j) →
      i < j ∧ j < cmds.length) ∧
    ∃ T, tree_of s.API_tree (N + 1) (some 0) = some T ∧
      T.inorder.Perm (List.range cmds.length) ∧
      (T.inorder.map (command_at s.API_tree)).Perm (cmds.map some) ∧
      print_apis_in_order s.API_tree (N + 1) (some 0) =
        some (T.inorder.map (fun j => (place_at s.API_tree j, key_of s.API_tree j))) ∧
      ∃ s1, index_apis_in_order N (some 0) s = some s1 ∧
        s1.API_place_cntr = cmds.length ∧
        ∀ k j, T.inorder[k]? = some j → place_at s1.API_tree j = to_uint16 k := by
  have hpos : 0 < cmds.length := List.length_pos.mpr hne
  rcases hs with ⟨hlen, hreg⟩ | ⟨hlen, hN, hbuild⟩
  · obtain ⟨tree, hreg1, hlen0, hL, hcmd⟩ := register_linked N cmds hlen
    obtain ⟨hasc, -, hfresh⟩ := register_ascending N cmds _ s hreg
      (fun i e j hi _ _ => absurd hi (Nat.not_lt_zero i))
    rw [hreg] at hreg1
    simp only [Option.some.injEq] at hreg1
    subst hreg1
    simp only at hasc hfresh
    refine ⟨?_, ins_upto (name_of cmds) cmds.length, ?_⟩
    · intro i e j he hj
      simp only at he
      rcases Nat.lt_or_ge i cmds.length with hi | hi
      · exact hasc i e j hi he hj
      · exfalso
        rcases hfresh i hi with hfull | hsame
        · have := (List.getElem?_eq_some.mp he).1
          omega
        · rw [hsame] at he
          have hz : e = zero_API := by
            have := List.getElem?_eq_some.mp he
            obtain ⟨h1, h2⟩ := this
            rw [← h2]
            simp [initial_state]
          subst hz
          simp [zero_API] at hj
    · obtain ⟨h1, h2, h3⟩ := traversal_linked hL hpos hlen cmds.length 0
      refine ⟨h1, hL.perm, ?_, h2, h3⟩
      refine (hL.perm.map _).trans ?_
      have : (List.range cmds.length).map (command_at tree) = cmds.map some := by
        apply List.ext_getElem (by simp)
        intro k hk1 hk2
        simp only [List.length_map, List.length_range] at hk1
        simp [(hcmd k hk1).1]
      rw [this]
  · obtain ⟨tree, hbuild1, hB⟩ := build_spec N (by omega) hN cmds hlen
    have hopt : ∃ s0, optimise_api_tree N s0 = some s := by
      simp only [build, Option.bind_eq_bind, Option.bind_eq_some] at hbuild
      obtain ⟨s1, -, s2, -, h⟩ := hbuild
      exact ⟨s2, h⟩
    obtain ⟨s0, hopt⟩ := hopt
    obtain ⟨-, hasc⟩ := optimise_ascending N s0 s hopt
    rw [hbuild] at hbuild1
    simp only [Option.some.injEq] at hbuild1
    subst hbuild1
    simp only at hasc
    have hL := hB.linked
    refine ⟨?_, ins_upto (key_of tree) N, ?_⟩
    · intro i e j he hj
      simp only at he
      have hi : i < N := by
        have := (List.getElem?_eq_some.mp he).1
        have := hB.len
        omega
      rw [hlen]
      exact hasc i e j hi he hj
    · obtain ⟨h1, h2, h3⟩ := traversal_linked hL (by omega) (Nat.le_refl N) N N
      rw [hlen]
      refine ⟨h1, hL.perm, ?_, h2, h3⟩
      refine (hL.perm.map _).trans ?_
      have : (List.range N).map (command_at tree) = tree.map command_of := by
        rw [map_eq_map_range tree command_of none, hB.len]
        apply List.map_congr_left
        intro j _
        cases h : tree[j]? <;> simp [command_at, h]
      rw [this]
      exact hB.cmds_perm

/-- C22 at the table that `init_interpreter` builds when `NUM_OF_API_FUNCS` is `4`. -/
theorem C22_traversal_witness :
    (example_commands ≠ [] ∧
      ((example_commands.length ≤ 4 ∧
          register 4 example_commands { initial_state 4 with API_cntr := 0 } =
            some example_table) ∨
        (example_commands.length = 4 ∧ 4 < 65536 ∧
          build 4 example_commands = some example_table))) ∧
    ((∀ i e j, example_table.API_tree[i]? = some e → (e.left = some j ∨ e.right = some j) →
      i < j ∧ j < example_commands.length) ∧
    ∃ T, tree_of example_table.API_tree (4 + 1) (some 0) = some T ∧
      T.inorder.Perm (List.range example_commands.length) ∧
      (T.inorder.map (command_at example_table.API_tree)).Perm (example_commands.map some) ∧
      print_apis_in_order example_table.API_tree (4 + 1) (some 0) =
        some (T.inorder.map
          (fun j => (place_at example_table.API_tree j, key_of example_table.API_tree j))) ∧
      ∃ s1, index_apis_in_order 4 (some 0) example_table = some s1 ∧
        s1.API_place_cntr = example_commands.length ∧
        ∀ k j, T.inorder[k]? = some j → place_at s1.API_tree j = to_uint16 k) :=
  ⟨by decide, C22_traversal 4 example_commands example_table (by decide) (Or.inr (by decide))⟩

/-! ## The counter of the balancer -/

/-- The truncating division by two of the sum of two bounds lies between them. -/
theorem tdiv_mid (lo hi : Int) (h : lo ≤ hi) :
    lo ≤ Int.tdiv (lo + hi) 2 ∧ Int.tdiv (lo + hi) 2 ≤ hi := by
  rcases Int.le_total 0 (lo + hi) with h0 | h0
  · rw [Int.tdiv_eq_ediv h0 (by decide)]
    omega
  · have h1 : Int.tdiv (lo + hi) 2 = -((-(lo + hi)) / 2) := by
      have := Int.neg_tdiv (-(lo + hi)) 2
      rw [Int.neg_neg] at this
      rw [this, Int.tdiv_eq_ediv (by omega) (by decide)]
    rw [h1]
    omega

/-- The loop of `find_api_index_by_place` ends on every table of fewer than `2^16` slots,
with an index inside the table. -/
theorem find_loop_total (N : Nat) (hN : N < 65536) (hN0 : 0 < N) (tree : List API_t)
    (hlen : tree.length = N) (place : Nat) :
    ∀ (fuel i : Nat), i ≤ N → N < i + fuel →
      ∃ j, find_loop N tree place fuel i = some j ∧ j < N := by
  intro fuel
  induction fuel with
  | zero => intro i h1 h2; omega
  | succ f ih =>
    intro i h1 h2
    by_cases hi : i < N
    · obtain ⟨ei, hei⟩ : ∃ b, tree[i]? = some b :=
        ⟨tree[i], List.getElem?_eq_getElem (by omega)⟩
      by_cases hpi : ei.place = place
      · exact ⟨i, by simp [find_loop, hi, hei, hpi], hi⟩
      · have hmod : to_uint16 (i + 1) = i + 1 := Nat.mod_eq_of_lt (by omega)
        obtain ⟨j, hj, hjN⟩ := ih (i + 1) (by omega) (by omega)
        exact ⟨j, by simp [find_loop, hi, hei, hpi, hmod, hj], hjN⟩
    · exact ⟨0, by simp [find_loop, hi], hN0⟩

/-- The function `swap_api_elements` returns on every table of fewer than `2^16` slots when
`index` is inside the table. -/
theorem swap_total (N : Nat) (hN : N < 65536) (tree : List API_t) (hlen : tree.length = N)
    (c place cn pc : Nat) (hc : c < N) :
    ∃ tree1, swap_api_elements N c place ⟨tree, cn, pc⟩ = some ⟨tree1, cn, pc⟩ ∧
      tree1.length = N := by
  obtain ⟨j, hfind, hj⟩ := find_loop_total N hN (by omega) tree hlen place (N + 1) 0
    (Nat.zero_le N) (by omega)
  obtain ⟨ec, hec⟩ : ∃ b, tree[c]? = some b := ⟨tree[c], List.getElem?_eq_getElem (by omega)⟩
  obtain ⟨ej, hej⟩ : ∃ b, tree[j]? = some b := ⟨tree[j], List.getElem?_eq_getElem (by omega)⟩
  exact ⟨(tree.set c ej).set j ec,
    by simp [swap_api_elements, find_api_index_by_place, hfind, hec, hej], by simp [hlen]⟩

/-- The function `recursive_optimiser` on a range that fits into the slots behind
`API_cntr`: it returns and has advanced `API_cntr` by the size of the range. -/
theorem optimiser_count (N : Nat) (hN : N < 65536) :
    ∀ (fuel : Nat) (lo hi : Int) (s : State), s.API_tree.length = N →
      s.API_cntr + (hi - lo + 1).toNat ≤ N → (hi - lo + 1).toNat < fuel →
      ∃ s1, recursive_optimiser N fuel lo hi s = some s1 ∧
        s1.API_cntr = s.API_cntr + (hi - lo + 1).toNat ∧ s1.API_tree.length = N := by
  intro fuel
  induction fuel with
  | zero => intro lo hi s _ _ hf; omega
  | succ f ih =>
    intro lo hi s hlen hfit hf
    obtain ⟨tree, cn, pc⟩ := s
    simp only at hlen hfit
    by_cases hgt : lo > hi
    · refine ⟨⟨tree, cn, pc⟩, by simp [recursive_optimiser, hgt], ?_, hlen⟩
      simp only
      omega
    · obtain ⟨hm1, hm2⟩ := tdiv_mid lo hi (by omega)
      have hcn : cn < N := by omega
      have hmod : to_uint16 cn = cn := Nat.mod_eq_of_lt (by omega)
      obtain ⟨tree1, hswap, hlen1⟩ := swap_total N hN tree hlen cn
        ((Int.tdiv (lo + hi) 2 % 65536).toNat) cn pc hcn
      obtain ⟨s3, hrun3, hc3, hlen3⟩ := ih lo (Int.tdiv (lo + hi) 2 - 1) ⟨tree1, cn + 1, pc⟩
        hlen1 (by simp only; omega) (by omega)
      obtain ⟨s4, hrun4, hc4, hlen4⟩ := ih (Int.tdiv (lo + hi) 2 + 1) hi s3
        hlen3 (by rw [hc3]; simp only; omega) (by omega)
      refine ⟨s4, ?_, ?_, hlen4⟩
      · simp [recursive_optimiser, hgt, hmod, hswap, hrun3, hrun4]
      · rw [hc4, hc3]
        simp only
        omega

/-- C23, as stated, fails for a range that does not fit into the table: the call
`recursive_optimiser(0, 1)` on a table of one slot (and `recursive_optimiser(0, 8)` on a
table of eight slots, one more than the call in `optimise_api_tree`) does not return
normally at any depth: after the last slot has been placed, `swap_api_elements` reads and
writes `API_tree[NUM_OF_API_FUNCS]`, outside the array. -/
theorem C23_counterexample :
    recursive_optimiser 1 3 0 1 (initial_state 1) = none ∧
      (∀ fuel, recursive_optimiser 1 fuel 0 1 (initial_state 1) = none) ∧
      (∀ fuel, recursive_optimiser 8 fuel 0 8 (initial_state 8) = none) := by
  refine ⟨by decide, ?_, ?_⟩
  · intro fuel
    match fuel with
    | 0 => rfl
    | 1 => rfl
    | 2 => rfl
    | f + 3 => rfl
  · intro fuel
    match fuel with
    | 0 => rfl
    | 1 => rfl
    | 2 => rfl
    | 3 => rfl
    | 4 => rfl
    | 5 => rfl
    | f + 6 => rfl

/-- C23, amended: on a table of `NUM_OF_API_FUNCS < 2^16` slots, for all `lo` and `hi`
(within the range in which `lo + hi` is a 32-bit value) whose range fits into the slots
behind the counter, `API_cntr + max(0, hi - lo + 1) ≤ NUM_OF_API_FUNCS`,
`recursive_optimiser(lo, hi)` returns and has advanced `API_cntr` by exactly
`max(0, hi - lo + 1)`. Whenever `optimise_api_tree` returns, `API_cntr` equals
`NUM_OF_API_FUNCS`, whatever the state before it; so it does after every build that
completes, whatever the number of registered commands, and the mismatch test of
`init_interpreter` is never true. The build of a full table completes. -/
theorem C23_counter (N : Nat) :
    (∀ (lo hi : Int) (s : State) (fuel : Nat), N < 65536 → s.API_tree.length = N →
      -1073741824 ≤ lo → hi ≤ 1073741823 →
      s.API_cntr + (hi - lo + 1).toNat ≤ N → (hi - lo + 1).toNat < fuel →
      ∃ s1, recursive_optimiser N fuel lo hi s = some s1 ∧
        s1.API_cntr = s.API_cntr + (hi - lo + 1).toNat) ∧
    (∀ s s1 : State, optimise_api_tree N s = some s1 → s1.API_cntr = N) ∧
    (∀ (cmds : List Command) (s : State), build N cmds = some s → s.API_cntr = N) ∧
    (∀ r, init_interpreter N = some r → r.2.2 = false) ∧
    (∀ cmds : List Command, 0 < N → N < 65536 → cmds.length = N →
      ∃ s, build N cmds = some s) := by
  have hopt : ∀ s s1 : State, optimise_api_tree N s = some s1 → s1.API_cntr = N :=
    fun s s1 h => (optimise_ascending N s s1 h).1
  have hbuild : ∀ (cmds : List Command) (s : State), build N cmds = some s →
      s.API_cntr = N := by
    intro cmds s h
    simp only [build, Option.bind_eq_bind, Option.bind_eq_some] at h
    obtain ⟨s1, -, s2, -, h⟩ := h
    exact hopt s2 s h
  refine ⟨?_, hopt, hbuild, ?_, ?_⟩
  · intro lo hi s fuel hN hlen _ _ hfit hf
    obtain ⟨s1, h1, h2, -⟩ := optimiser_count N hN fuel lo hi s hlen hfit hf
    exact ⟨s1, h1, h2⟩
  · intro r h
    simp only [init_interpreter, Option.bind_eq_bind, Option.bind_eq_some] at h
    obtain ⟨s, hs, printed, -, h⟩ := h
    simp only [Option.some.injEq] at h
    subst h
    simp [hbuild _ s hs]
  · intro cmds hN0 hN hlen
    obtain ⟨tree, h, -⟩ := build_spec N hN0 hN cmds hlen
    exact ⟨_, h⟩

/-- C23, amended, at the call of `optimise_api_tree` on the table of `init_interpreter`
when `NUM_OF_API_FUNCS` is `4`. -/
theorem C23_counter_witness :
    (4 < 65536 ∧ example_table.API_tree.length = 4 ∧ (-1073741824 : Int) ≤ 0 ∧
      (3 : Int) ≤ 1073741823 ∧
      ({ example_table with API_cntr := 0 } : State).API_cntr + ((3 : Int) - 0 + 1).toNat ≤ 4 ∧
      ((3 : Int) - 0 + 1).toNat < 5) ∧
    ∃ s1, recursive_optimiser 4 5 0 3 { example_table with API_cntr := 0 } = some s1 ∧
      s1.API_cntr = ({ example_table with API_cntr := 0 } : State).API_cntr +
        ((3 : Int) - 0 + 1).toNat :=
  ⟨by decide, (C23_counter 4).1 0 3 { example_table with API_cntr := 0 } 5 (by decide)
    (by decide) (by decide) (by decide) (by decide) (by decide)⟩

end Commander
